import Mathlib

/-!
Verification of the request-scheduling core of the torrent repository.

Shallow embedding of:
- `request-strategy/order.go` (`sortFilterPieces`, `GetRequestablePieces`,
  `requestsPeer`, `peersForPieceSorter.Less`, `allocatePendingChunks`),
- `requesting.go` (`peerRequests.Less`, `applyRequestState`),
- the `PieceRequestOrder` index (`NewPieceOrder`/`Add`/`Update`/`Delete`).

Go machine integers are modelled as `Nat`/`Int`; the only arithmetic where
u32 overflow can matter (`chunkIndexToRequestIndex`) is taken modulo `2^32`.
Go panics are modelled as `Option`/`none` results.  Mutable state is passed
explicitly; sets of request indices are `Finset Nat`.
-/

namespace TorrentProof

/-! ## Ordering helpers: a shallow embedding of the `multiless` chains -/

/-- Compose two comparison outcomes: the left one decides unless it is a tie.
This is how a `multiless` computation accumulates criteria. -/
def thenCmp : Ordering → Ordering → Ordering
  | .eq, o => o
  | o, _ => o

/-- `multiless` `Bool(l, r)`: less iff `!l && r` (false sorts before true). -/
def mlBool (l r : Bool) : Ordering :=
  if l = r then .eq else if r then .lt else .gt

/-- `multiless` `Int`/`Int64` criterion as a three-way comparison. -/
def cmpInt (a b : Int) : Ordering :=
  if a < b then .lt else if b < a then .gt else .eq

/-- `multiless` `Uint32`/`Int` criterion on naturals. -/
def cmpNat (a b : Nat) : Ordering :=
  if a < b then .lt else if b < a then .gt else .eq

/-- `bytes.Compare`: lexicographic comparison of byte slices. -/
def bytesCmp : List Nat → List Nat → Ordering
  | [], [] => .eq
  | [], _ :: _ => .lt
  | _ :: _, [] => .gt
  | a :: as, b :: bs => thenCmp (cmpNat a b) (bytesCmp as bs)

@[simp] theorem thenCmp_eq_left (o : Ordering) : thenCmp .eq o = o := rfl

theorem thenCmp_of_ne (o o' : Ordering) (h : o ≠ .eq) : thenCmp o o' = o := by
  cases o <;> simp_all [thenCmp]

theorem cmpInt_lt {a b : Int} (h : a < b) : cmpInt a b = .lt := by
  simp [cmpInt, h]

theorem cmpInt_gt {a b : Int} (h : b < a) : cmpInt a b = .gt := by
  have : ¬a < b := not_lt.mpr (le_of_lt h)
  simp [cmpInt, this, h]

theorem cmpInt_self (a : Int) : cmpInt a a = .eq := by
  simp [cmpInt]

theorem cmpNat_lt {a b : Nat} (h : a < b) : cmpNat a b = .lt := by
  simp [cmpNat, h]

theorem cmpNat_gt {a b : Nat} (h : b < a) : cmpNat a b = .gt := by
  have : ¬a < b := Nat.not_lt.mpr (Nat.le_of_lt h)
  simp [cmpNat, this, h]

theorem cmpNat_self (a : Nat) : cmpNat a a = .eq := by
  simp [cmpNat]

theorem cmpInt_eq_iff {a b : Int} : cmpInt a b = .eq ↔ a = b := by
  unfold cmpInt
  split
  · constructor
    · intro h; cases h
    · intro h; omega
  · split
    · constructor
      · intro h; cases h
      · intro h; omega
    · constructor
      · intro _; omega
      · intro _; rfl

theorem cmpNat_eq_iff {a b : Nat} : cmpNat a b = .eq ↔ a = b := by
  unfold cmpNat
  split
  · constructor
    · intro h; cases h
    · intro h; omega
  · split
    · constructor
      · intro h; cases h
      · intro h; omega
    · constructor
      · intro _; omega
      · intro _; rfl

theorem mlBool_eq_iff {a b : Bool} : mlBool a b = .eq ↔ a = b := by
  cases a <;> cases b <;> simp [mlBool]

theorem bytesCmp_eq_iff : ∀ {a b : List Nat}, bytesCmp a b = .eq ↔ a = b := by
  intro a
  induction a with
  | nil => intro b; cases b <;> simp [bytesCmp]
  | cons x xs ih =>
    intro b
    cases b with
    | nil => simp [bytesCmp]
    | cons y ys =>
      simp only [bytesCmp]
      constructor
      · intro h
        have hx : cmpNat x y = .eq := by
          by_contra hne
          rw [thenCmp_of_ne _ _ hne] at h
          exact hne h
        rw [hx] at h
        simp only [thenCmp_eq_left] at h
        have := cmpNat_eq_iff.mp hx
        have := ih.mp h
        simp_all
      · intro h
        injection h with h1 h2
        subst h1; subst h2
        rw [cmpNat_self]
        simpa using ih.mpr rfl

/-! ## The piece data carried by `filterPiece` (order.go) -/

/-- One entry of the flattened piece slice built by `GetRequestablePieces`:
the `filterPiece` struct (torrent pointer + index + embedded `Piece`),
with the torrent-level fields (`InfoHash`, `MaxUnverifiedBytes`) inlined.
`partl` is the `Partial` field of the source. -/
structure FPiece where
  priority : Nat
  partl : Bool
  availability : Int
  index : Nat
  infoHash : List Nat
  request : Bool
  numPendingChunks : Nat
  length : Int
  maxUnverifiedBytes : Int
  deriving DecidableEq, Repr

theorem thenCmp_lt_iff {a b : Ordering} :
    thenCmp a b = .lt ↔ (a = .lt ∨ (a = .eq ∧ b = .lt)) := by
  cases a <;> simp [thenCmp]

theorem cmpInt_lt_iff {a b : Int} : cmpInt a b = .lt ↔ a < b := by
  unfold cmpInt
  split
  · simp_all
  · split <;> simp_all

theorem cmpNat_lt_iff {a b : Nat} : cmpNat a b = .lt ↔ a < b := by
  unfold cmpNat
  split
  · simp_all
  · split <;> simp_all

theorem mlBool_lt_iff {a b : Bool} : mlBool a b = .lt ↔ (a = false ∧ b = true) := by
  cases a <;> cases b <;> simp [mlBool]

/-- The comparator of `sortFilterPieces` (order.go lines 46-65), as the
underlying three-way `multiless` chain:
`Int(j.Priority, i.Priority)`, `Bool(j.Partial, i.Partial)`,
`Int64(i.Availability, j.Availability)`, `Int(i.index, j.index)`,
`Cmp(bytes.Compare(i.InfoHash, j.InfoHash))`. -/
def filterPieceCmp (i j : FPiece) : Ordering :=
  thenCmp (cmpInt (j.priority : Int) (i.priority : Int))
    (thenCmp (mlBool j.partl i.partl)
      (thenCmp (cmpInt i.availability j.availability)
        (thenCmp (cmpNat i.index j.index)
          (bytesCmp i.infoHash j.infoHash))))

/-- `MustLess()` of the chain above.  `MustLess` panics only when every
criterion ties, which for `sortFilterPieces` requires two entries with the
same `(InfoHash, index)`; distinct pieces always decide. -/
def filterPieceLess (i j : FPiece) : Bool :=
  decide (filterPieceCmp i j = Ordering.lt)

/-- The five-key ordering exactly as the specification words it:
priority descending (higher first), partial descending (partial first),
availability ascending, piece index ascending, info-hash ascending
bytewise.  The five arguments of each side are
(priority, partial, availability, index, infoHash). -/
def specLess5 (p1 : Nat) (b1 : Bool) (a1 : Int) (i1 : Nat) (h1 : List Nat)
    (p2 : Nat) (b2 : Bool) (a2 : Int) (i2 : Nat) (h2 : List Nat) : Prop :=
  p2 < p1 ∨ (p2 = p1 ∧
    ((b2 = false ∧ b1 = true) ∨ (b2 = b1 ∧
      (a1 < a2 ∨ (a1 = a2 ∧
        (i1 < i2 ∨ (i1 = i2 ∧ bytesCmp h1 h2 = .lt)))))))

instance (p1 : Nat) (b1 : Bool) (a1 : Int) (i1 : Nat) (h1 : List Nat)
    (p2 : Nat) (b2 : Bool) (a2 : Int) (i2 : Nat) (h2 : List Nat) :
    Decidable (specLess5 p1 b1 a1 i1 h1 p2 b2 a2 i2 h2) := by
  unfold specLess5; infer_instance

theorem filterPieceLess_iff_spec (i j : FPiece) :
    filterPieceLess i j = true ↔
      specLess5 i.priority i.partl i.availability i.index i.infoHash
        j.priority j.partl j.availability j.index j.infoHash := by
  unfold filterPieceLess filterPieceCmp specLess5
  simp only [decide_eq_true_eq, thenCmp_lt_iff, cmpInt_lt_iff, cmpInt_eq_iff,
    cmpNat_lt_iff, cmpNat_eq_iff, mlBool_lt_iff, mlBool_eq_iff,
    Nat.cast_lt, Nat.cast_inj]

/-! ## Piece Ordering Index items (src/unnamed/part_001) -/

/-- `PieceRequestOrderKey`: `(InfoHash, Index)`. -/
structure POKey where
  infoHash : List Nat
  index : Nat
  deriving DecidableEq, Repr

/-- `PieceRequestOrderState`: `(Priority, Partial, Availability)`;
`partl` is the `Partial` field of the source. -/
structure POState where
  priority : Nat
  partl : Bool
  availability : Int
  deriving DecidableEq, Repr

/-- The Go zero value of `PieceRequestOrderState`, produced by reading an
absent key from the `keys` map in `existingItemForKey`. -/
def POState.zero : POState := ⟨0, false, 0⟩

/-- `pieceRequestOrderItem`: a key together with its state. -/
structure POItem where
  key : POKey
  state : POState
  deriving DecidableEq, Repr

/-- Modelled from the spec: `pieceOrderLess`, called by
`pieceRequestOrderItem.Less` (src/unnamed/part_001 lines 36-48), lives in a
repository file that is not under src.  The spec states the piece-order
comparator is the single source of truth shared with `sortFilterPieces`:
priority descending, partial descending, availability ascending, index
ascending, info-hash ascending bytewise. -/
def pieceOrderCmp (a b : POItem) : Ordering :=
  thenCmp (cmpInt (b.state.priority : Int) (a.state.priority : Int))
    (thenCmp (mlBool b.state.partl a.state.partl)
      (thenCmp (cmpInt a.state.availability b.state.availability)
        (thenCmp (cmpNat a.key.index b.key.index)
          (bytesCmp a.key.infoHash b.key.infoHash))))

/-- `pieceRequestOrderItem.Less` (part_001 line 36): the `.Less()` of the
computation, which is `false` on a full tie (no `MustLess` here). -/
def poItemLess (a b : POItem) : Bool :=
  decide (pieceOrderCmp a b = Ordering.lt)

theorem poItemLess_iff_spec (a b : POItem) :
    poItemLess a b = true ↔
      specLess5 a.state.priority a.state.partl a.state.availability
        a.key.index a.key.infoHash
        b.state.priority b.state.partl b.state.availability
        b.key.index b.key.infoHash := by
  unfold poItemLess pieceOrderCmp specLess5
  simp only [decide_eq_true_eq, thenCmp_lt_iff, cmpInt_lt_iff, cmpInt_eq_iff,
    cmpNat_lt_iff, cmpNat_eq_iff, mlBool_lt_iff, mlBool_eq_iff,
    Nat.cast_lt, Nat.cast_inj]

/-! ## Scenario A pieces -/

/-- Scenario A, piece (T1, 0): Normal priority, partial, availability 5. -/
def scenA_T1_0 : FPiece :=
  { priority := 1, partl := true, availability := 5, index := 0,
    infoHash := [1], request := true, numPendingChunks := 1, length := 0,
    maxUnverifiedBytes := 0 }

/-- Scenario A, piece (T1, 1): Normal priority, not partial, availability 1. -/
def scenA_T1_1 : FPiece :=
  { priority := 1, partl := false, availability := 1, index := 1,
    infoHash := [1], request := true, numPendingChunks := 1, length := 0,
    maxUnverifiedBytes := 0 }

/-- Scenario A, piece (T2, 0): High priority, not partial, availability 10. -/
def scenA_T2_0 : FPiece :=
  { priority := 2, partl := false, availability := 10, index := 0,
    infoHash := [2], request := true, numPendingChunks := 1, length := 0,
    maxUnverifiedBytes := 0 }

/-- The one-shot sort of `sortFilterPieces`, with a deterministic insertion
sort standing in for Go's `sort.Slice` (any sort agreeing with the strict
comparator yields this order on pieces with pairwise distinct keys). -/
def sortFilterPieces (l : List FPiece) : List FPiece :=
  List.insertionSort (fun i j => filterPieceLess i j = true) l

/-- C4: for every pair of pieces, the piece comparator used by the one-shot
sort (`sortFilterPieces`) and by the POI B-tree (`pieceRequestOrderItem.Less`)
orders by Priority descending, Partial descending, Availability ascending,
PieceIndex ascending, InfoHash ascending bytewise; and on Scenario A's three
pieces the resulting order is (T2,0), (T1,0), (T1,1). -/
theorem claim_C4_piece_comparator :
    (∀ i j : FPiece, filterPieceLess i j = true ↔
      specLess5 i.priority i.partl i.availability i.index i.infoHash
        j.priority j.partl j.availability j.index j.infoHash) ∧
    (∀ a b : POItem, poItemLess a b = true ↔
      specLess5 a.state.priority a.state.partl a.state.availability
        a.key.index a.key.infoHash
        b.state.priority b.state.partl b.state.availability
        b.key.index b.key.infoHash) ∧
    sortFilterPieces [scenA_T1_0, scenA_T1_1, scenA_T2_0] =
      [scenA_T2_0, scenA_T1_0, scenA_T1_1] := by
  refine ⟨filterPieceLess_iff_spec, poItemLess_iff_spec, ?_⟩
  decide

/-! ## Per-Peer Request Builder heap comparator (requesting.go lines 137-181) -/

/-- The data `peerRequests.Less` reads: the torrent strategy input
(`ChunksPerPiece`, per-piece `Priority`/`Availability`), the peer's choking
flag, allowed-fast set and actual requests, and the global
`t.pendingRequests` counts.  Piece data is a function of the piece index,
standing for the `Pieces` slice at in-range indices. -/
structure PRLEnv where
  chunksPerPiece : Nat
  choking : Bool
  allowedFast : Finset Nat
  actual : Finset Nat
  pendingGet : Nat → Nat
  priorityOf : Nat → Int
  availabilityOf : Nat → Int

/-- The inner `pending` closure of `peerRequests.Less`: the global count,
minus one if the request is current; panics (`none`) if the result is
negative. -/
def prPend (env : PRLEnv) (r : Nat) (current : Bool) : Option Int :=
  let ret : Int := (env.pendingGet r : Int) - (if current then 1 else 0)
  if ret < 0 then none else some ret

/-- `peerRequests.Less` (requesting.go lines 137-181).  Both `pending`
calls are evaluated eagerly as in the source (so either may panic even when
the choking criterion already decides), then the `multiless` chain:
optional `Bool(!fast(left), !fast(right))` under choking, `Int` on pending,
`Bool(!leftCurrent, !rightCurrent)`, `Int` on negated priorities, `Int` on
availabilities, `Uint32` on piece indices, `Uint32` on request indices,
`MustLess` (panics on a full tie). -/
def peerRequestsLess (env : PRLEnv) (l r : Nat) : Option Bool :=
  let lp := l / env.chunksPerPiece
  let rp := r / env.chunksPerPiece
  let lcur := decide (l ∈ env.actual)
  let rcur := decide (r ∈ env.actual)
  match prPend env l lcur, prPend env r rcur with
  | some pl, some pr =>
    let ml :=
      if env.choking then
        mlBool (!(decide (lp ∈ env.allowedFast))) (!(decide (rp ∈ env.allowedFast)))
      else Ordering.eq
    let ml := thenCmp ml (cmpInt pl pr)
    let ml := thenCmp ml (mlBool (!lcur) (!rcur))
    let ml := thenCmp ml (cmpInt (-(env.priorityOf lp)) (-(env.priorityOf rp)))
    let ml := thenCmp ml (cmpInt (env.availabilityOf lp) (env.availabilityOf rp))
    let ml := thenCmp ml (cmpNat lp rp)
    let ml := thenCmp ml (cmpNat l r)
    match ml with
    | .lt => some true
    | .gt => some false
    | .eq => none
  | _, _ => none

theorem prPend_false (env : PRLEnv) (r : Nat) :
    prPend env r false = some (env.pendingGet r) := by
  unfold prPend
  have h0 : (if (false : Bool) then (1 : Int) else 0) = 0 := rfl
  rw [h0, if_neg (by omega)]
  norm_num

theorem prPend_true (env : PRLEnv) (r : Nat) (h : 0 < env.pendingGet r) :
    prPend env r true = some ((env.pendingGet r : Int) - 1) := by
  unfold prPend
  have h0 : (if (true : Bool) then (1 : Int) else 0) = 1 := rfl
  rw [h0, if_neg (by omega)]

/-- C7: for a choking peer, `peerRequests.Less` ranks every request whose
piece is in the allowed-fast set before every request whose piece is not,
regardless of pending counts, in-flight status, priorities, availabilities
and indices.  The two `0 < pendingGet` side conditions are exactly the
non-negativity assertion of the source's `pending` closure (a panic
otherwise, per the code's own invariant that a current request is counted). -/
theorem claim_C7_choking_allowed_fast (env : PRLEnv) (l r : Nat)
    (hchoke : env.choking = true)
    (hfast : l / env.chunksPerPiece ∈ env.allowedFast)
    (hslow : r / env.chunksPerPiece ∉ env.allowedFast)
    (hl : l ∈ env.actual → 0 < env.pendingGet l)
    (hr : r ∈ env.actual → 0 < env.pendingGet r) :
    peerRequestsLess env l r = some true ∧ peerRequestsLess env r l = some false := by
  have hpl : ∃ v, prPend env l (decide (l ∈ env.actual)) = some v := by
    by_cases h : l ∈ env.actual
    · rw [decide_eq_true h]; exact ⟨_, prPend_true env l (hl h)⟩
    · rw [decide_eq_false h]; exact ⟨_, prPend_false env l⟩
  have hpr : ∃ v, prPend env r (decide (r ∈ env.actual)) = some v := by
    by_cases h : r ∈ env.actual
    · rw [decide_eq_true h]; exact ⟨_, prPend_true env r (hr h)⟩
    · rw [decide_eq_false h]; exact ⟨_, prPend_false env r⟩
  obtain ⟨vl, hvl⟩ := hpl
  obtain ⟨vr, hvr⟩ := hpr
  constructor
  · simp only [peerRequestsLess, hvl, hvr, hchoke, if_true]
    rw [decide_eq_true hfast, decide_eq_false hslow]
    simp [mlBool, thenCmp]
  · simp only [peerRequestsLess, hvl, hvr, hchoke, if_true]
    rw [decide_eq_true hfast, decide_eq_false hslow]
    simp [mlBool, thenCmp]

/-- Witness for C7 at a concrete choking peer: `ChunksPerPiece = 4`,
piece 7 allowed fast (request 28), piece 8 not (request 32). -/
theorem claim_C7_witness :
    peerRequestsLess
      { chunksPerPiece := 4, choking := true, allowedFast := {7},
        actual := {32}, pendingGet := fun _ => 3,
        priorityOf := fun _ => 1, availabilityOf := fun _ => 2 } 28 32 = some true ∧
    peerRequestsLess
      { chunksPerPiece := 4, choking := true, allowedFast := {7},
        actual := {32}, pendingGet := fun _ => 3,
        priorityOf := fun _ => 1, availabilityOf := fun _ => 2 } 32 28 = some false := by
  exact claim_C7_choking_allowed_fast _ 28 32 rfl (by decide) (by decide)
    (fun _ => by decide) (fun _ => by decide)

/-! ## Requestable Piece Selector (order.go lines 157-207) -/

/-- The mutable state of the `GetRequestablePieces` loop: the local
`storageLeft` copy (nil when `input.Capacity == nil`), the per-torrent
`torrentUnverifiedBytes` map (Go map with zero default), the global
`allTorrentsUnverifiedBytes` counter, and the `(InfoHash, index)` pairs of
the pieces passed to the callback `f`, in order. -/
structure GRPState where
  storageLeft : Option Int
  torrentUnverified : List Nat → Int
  allUnverified : Int
  emitted : List (List Nat × Nat)

/-- The body of the piece loop after the storage-capacity step (order.go
lines 191-204): the `Request`/`NumPendingChunks` skip, the per-torrent and
global unverified-byte checks, then the debits and the callback. -/
def processPieceTail (maxUnv : Int) (s : GRPState) (p : FPiece) : GRPState :=
  if !p.request || p.numPendingChunks == 0 then s
  else if p.maxUnverifiedBytes ≠ 0 ∧
      p.maxUnverifiedBytes < s.torrentUnverified p.infoHash + p.length then s
  else if maxUnv ≠ 0 ∧ maxUnv < s.allUnverified + p.length then s
  else
    { s with
      torrentUnverified := fun h =>
        if h = p.infoHash then s.torrentUnverified h + p.length
        else s.torrentUnverified h,
      allUnverified := s.allUnverified + p.length,
      emitted := s.emitted ++ [(p.infoHash, p.index)] }

/-- One iteration of the `GetRequestablePieces` piece loop (order.go lines
184-205): the storage-capacity check debits `storageLeft` first, and only
then the remaining filters run. -/
def processPiece (maxUnv : Int) (s : GRPState) (p : FPiece) : GRPState :=
  match s.storageLeft with
  | some left =>
    if left < p.length then s
    else processPieceTail maxUnv { s with storageLeft := some (left - p.length) } p
  | none => processPieceTail maxUnv s p

/-- `GetRequestablePieces`: sort the flattened piece slice, then run the
piece loop from the initial budgets. -/
def getRequestablePieces (maxUnv : Int) (capacity : Option Int)
    (pieces : List FPiece) : GRPState :=
  (sortFilterPieces pieces).foldl (processPiece maxUnv)
    { storageLeft := capacity, torrentUnverified := fun _ => 0,
      allUnverified := 0, emitted := [] }

/-- A concrete state: 100 bytes of storage capacity left, no unverified
bytes yet. -/
def grpCounterState : GRPState :=
  { storageLeft := some 100, torrentUnverified := fun _ => 0,
    allUnverified := 0, emitted := [] }

/-- A concrete piece with `Request == false` and 60-byte length. -/
def grpCounterPiece : FPiece :=
  { priority := 1, partl := false, availability := 0, index := 0,
    infoHash := [3], request := false, numPendingChunks := 4, length := 60,
    maxUnverifiedBytes := 0 }

/-- Counterexample to C1 as stated: a piece with `Request == false` is
skipped, yet the storage-left counter is debited (100 becomes 40), because
the capacity debit precedes the `Request`/`NumPendingChunks` test. -/
theorem claim_C1_counterexample :
    grpCounterPiece.request = false ∧
    grpCounterState.storageLeft = some 100 ∧
    (processPiece 0 grpCounterState grpCounterPiece).storageLeft = some 40 ∧
    (processPiece 0 grpCounterState grpCounterPiece).storageLeft ≠
      grpCounterState.storageLeft ∧
    (processPiece 0 grpCounterState grpCounterPiece).emitted =
      grpCounterState.emitted := by
  refine ⟨rfl, rfl, rfl, ?_, rfl⟩
  intro h
  simp only [processPiece, grpCounterState, grpCounterPiece] at h
  cases h

/-- C1 amended: a piece with `Request == false` or `NumPendingChunks == 0`
is skipped without touching the per-torrent or global unverified-byte
counters and without invoking the callback, but the storage-left counter
is still debited by the piece length whenever a capacity is set and the
piece fits (the capacity debit precedes the skip test). -/
theorem claim_C1_amended (maxUnv : Int) (s : GRPState) (p : FPiece)
    (h : p.request = false ∨ p.numPendingChunks = 0) :
    (processPiece maxUnv s p).torrentUnverified = s.torrentUnverified ∧
    (processPiece maxUnv s p).allUnverified = s.allUnverified ∧
    (processPiece maxUnv s p).emitted = s.emitted ∧
    (processPiece maxUnv s p).storageLeft =
      (match s.storageLeft with
       | none => none
       | some left => if left < p.length then some left
                      else some (left - p.length)) := by
  have hskip : (!p.request || p.numPendingChunks == 0) = true := by
    rcases h with h | h
    · rw [h]; rfl
    · rw [h]; simp
  rcases hs : s.storageLeft with _ | left
  · simp only [processPiece, hs, processPieceTail, hskip, if_true]
    refine ⟨?_, ?_, ?_, ?_⟩ <;> trivial
  · simp only [processPiece, hs]
    by_cases hlt : left < p.length
    · simp only [if_pos hlt, hs]
      refine ⟨?_, ?_, ?_, ?_⟩ <;> trivial
    · simp only [if_neg hlt, processPieceTail, hskip, if_true]
      refine ⟨?_, ?_, ?_, ?_⟩ <;> trivial

/-- Witness for the amended C1 at the concrete skip input above. -/
theorem claim_C1_amended_witness :
    (grpCounterPiece.request = false ∨ grpCounterPiece.numPendingChunks = 0) ∧
    (processPiece 0 grpCounterState grpCounterPiece).allUnverified =
      grpCounterState.allUnverified := by
  exact ⟨Or.inl rfl,
    (claim_C1_amended 0 grpCounterState grpCounterPiece (Or.inl rfl)).2.1⟩

/-! ## PieceRequestOrder operations (src/unnamed/part_001 lines 50-88) -/

theorem thenCmp_eq_eq_iff {a b : Ordering} :
    thenCmp a b = .eq ↔ (a = .eq ∧ b = .eq) := by
  cases a <;> simp [thenCmp]

theorem thenCmp_swap (a b : Ordering) :
    (thenCmp a b).swap = thenCmp a.swap b.swap := by
  cases a <;> rfl

theorem cmpInt_comm (a b : Int) : cmpInt b a = (cmpInt a b).swap := by
  rcases lt_trichotomy a b with h | h | h
  · rw [cmpInt_gt h, cmpInt_lt h]; rfl
  · subst h; rw [cmpInt_self]; rfl
  · rw [cmpInt_lt h, cmpInt_gt h]; rfl

theorem cmpNat_comm (a b : Nat) : cmpNat b a = (cmpNat a b).swap := by
  rcases Nat.lt_trichotomy a b with h | h | h
  · rw [cmpNat_gt h, cmpNat_lt h]; rfl
  · subst h; rw [cmpNat_self]; rfl
  · rw [cmpNat_lt h, cmpNat_gt h]; rfl

theorem mlBool_comm (a b : Bool) : mlBool b a = (mlBool a b).swap := by
  cases a <;> cases b <;> rfl

theorem bytesCmp_comm : ∀ (a b : List Nat), bytesCmp b a = (bytesCmp a b).swap := by
  intro a
  induction a with
  | nil => intro b; cases b <;> rfl
  | cons x xs ih =>
    intro b
    cases b with
    | nil => rfl
    | cons y ys =>
      show thenCmp (cmpNat y x) (bytesCmp ys xs) = _
      rw [cmpNat_comm, ih ys, ← thenCmp_swap]
      rfl

theorem pieceOrderCmp_eq_iff (a b : POItem) :
    pieceOrderCmp a b = .eq ↔ a = b := by
  unfold pieceOrderCmp
  simp only [thenCmp_eq_eq_iff, cmpInt_eq_iff, mlBool_eq_iff, cmpNat_eq_iff,
    bytesCmp_eq_iff, Nat.cast_inj]
  obtain ⟨⟨ah, ai⟩, ⟨ap, ab, aa⟩⟩ := a
  obtain ⟨⟨bh, bi⟩, ⟨bp, bb, ba⟩⟩ := b
  simp only [POItem.mk.injEq, POKey.mk.injEq, POState.mk.injEq]
  constructor
  · rintro ⟨h1, h2, h3, h4, h5⟩
    exact ⟨⟨h5, h4⟩, h1.symm, h2.symm, h3⟩
  · rintro ⟨⟨h5, h4⟩, h1, h2, h3⟩
    exact ⟨h1.symm, h2.symm, h3, h4, h5⟩

theorem pieceOrderCmp_comm (a b : POItem) :
    pieceOrderCmp b a = (pieceOrderCmp a b).swap := by
  unfold pieceOrderCmp
  rw [cmpInt_comm (a.state.priority : Int) (b.state.priority : Int)]
  rw [mlBool_comm a.state.partl b.state.partl]
  rw [cmpInt_comm b.state.availability a.state.availability]
  rw [cmpNat_comm b.key.index a.key.index]
  rw [bytesCmp_comm b.key.infoHash a.key.infoHash]
  rw [thenCmp_swap, thenCmp_swap, thenCmp_swap, thenCmp_swap]
  simp [Ordering.swap_swap]

/-- Item equivalence as the B-tree sees it: neither item is `Less` than the
other.  The B-tree's `ReplaceOrInsert`/`Delete` match items by this
relation. -/
def itemEqb (a b : POItem) : Bool :=
  !(poItemLess a b) && !(poItemLess b a)

theorem itemEqb_iff (a b : POItem) : itemEqb a b = true ↔ a = b := by
  unfold itemEqb poItemLess
  rw [pieceOrderCmp_comm a b, ← pieceOrderCmp_eq_iff a b]
  cases h : pieceOrderCmp a b <;> simp [h, Ordering.swap]

/-- The `PieceRequestOrder` struct: the B-tree (as its plain item set,
represented by a duplicate-free list) and the `keys` map (as an
association list). -/
structure PRO where
  tree : List POItem
  keys : List (POKey × POState)

/-- Whether the tree holds an item equal (in B-tree order) to `it`. -/
def treeHas (t : List POItem) (it : POItem) : Bool :=
  t.any (fun x => itemEqb x it)

/-- `btree.ReplaceOrInsert`: insert the item; the boolean reports whether
an equal item was already present (and is replaced). -/
def replaceOrInsert (t : List POItem) (it : POItem) : List POItem × Bool :=
  if treeHas t it then (it :: t.filter (fun x => !(itemEqb x it)), true)
  else (it :: t, false)

/-- `btree.Delete`: remove the item equal to `it`, or return `none` when no
such item exists (Go returns `nil`). -/
def treeDelete (t : List POItem) (it : POItem) : Option (List POItem) :=
  if treeHas t it then some (t.filter (fun x => !(itemEqb x it))) else none

/-- Go map read `me.keys[key]` as an association-list lookup. -/
def keysLookup (ks : List (POKey × POState)) (k : POKey) : Option POState :=
  (ks.find? (fun e => decide (e.1 = k))).map (fun e => e.2)

/-- Go map assignment `me.keys[key] = state`. -/
def keysInsert (ks : List (POKey × POState)) (k : POKey) (st : POState) :
    List (POKey × POState) :=
  (k, st) :: ks.filter (fun e => !(decide (e.1 = k)))

/-- Go map deletion `delete(me.keys, key)`. -/
def keysErase (ks : List (POKey × POState)) (k : POKey) :
    List (POKey × POState) :=
  ks.filter (fun e => !(decide (e.1 = k)))

/-- `existingItemForKey` (part_001 lines 76-81): an absent key reads the Go
zero value of the state. -/
def existingItemForKey (o : PRO) (k : POKey) : POItem :=
  ⟨k, (keysLookup o.keys k).getD POState.zero⟩

/-- `PieceRequestOrder.Add` (part_001 lines 50-61); `none` is a panic. -/
def proAdd (o : PRO) (k : POKey) (st : POState) : Option PRO :=
  if (keysLookup o.keys k).isSome then none
  else
    let ri := replaceOrInsert o.tree ⟨k, st⟩
    if ri.2 then none
    else some ⟨ri.1, keysInsert o.keys k st⟩

/-- `PieceRequestOrder.Update` (part_001 lines 63-74); `none` is a panic. -/
def proUpdate (o : PRO) (k : POKey) (st : POState) : Option PRO :=
  match treeDelete o.tree (existingItemForKey o k) with
  | none => none
  | some t1 =>
    let ri := replaceOrInsert t1 ⟨k, st⟩
    if ri.2 then none
    else some ⟨ri.1, keysInsert o.keys k st⟩

/-- `PieceRequestOrder.Delete` (part_001 lines 83-88); `none` is a panic. -/
def proDelete (o : PRO) (k : POKey) : Option PRO :=
  match treeDelete o.tree (existingItemForKey o k) with
  | none => none
  | some t1 => some ⟨t1, keysErase o.keys k⟩

/-- The structural invariant of a `PieceRequestOrder`: the tree holds
exactly the items of the `keys` map, whose keys are pairwise distinct. -/
def PROInv (o : PRO) : Prop :=
  o.tree = o.keys.map (fun e => POItem.mk e.1 e.2) ∧
  (o.keys.map Prod.fst).Nodup

/-- The index holds `key` mapped to `state`. -/
def proHolds (o : PRO) (k : POKey) (st : POState) : Prop :=
  keysLookup o.keys k = some st ∧ POItem.mk k st ∈ o.tree

theorem treeHas_iff (t : List POItem) (it : POItem) :
    treeHas t it = true ↔ it ∈ t := by
  unfold treeHas
  rw [List.any_eq_true]
  constructor
  · rintro ⟨x, hx, hxe⟩
    rw [itemEqb_iff] at hxe
    exact hxe ▸ hx
  · intro h
    exact ⟨it, h, (itemEqb_iff it it).mpr rfl⟩

theorem keysLookup_isSome_iff (ks : List (POKey × POState)) (k : POKey) :
    (keysLookup ks k).isSome ↔ ∃ s, (k, s) ∈ ks := by
  have hmap : (keysLookup ks k).isSome =
      (ks.find? (fun e => decide (e.1 = k))).isSome := by
    unfold keysLookup
    cases ks.find? (fun e => decide (e.1 = k)) <;> rfl
  rw [hmap]
  rw [List.find?_isSome]
  constructor
  · rintro ⟨e, he, hpe⟩
    rw [decide_eq_true_eq] at hpe
    exact ⟨e.2, by rw [← hpe]; exact he⟩
  · rintro ⟨s, hs⟩
    exact ⟨(k, s), hs, by simp⟩

theorem keysLookup_mem (ks : List (POKey × POState)) (k : POKey) (s : POState)
    (h : keysLookup ks k = some s) : (k, s) ∈ ks := by
  unfold keysLookup at h
  rcases he : ks.find? (fun e => decide (e.1 = k)) with _ | e
  · rw [he] at h; cases h
  · rw [he] at h
    have h1 := List.find?_some he
    have h2 := List.mem_of_find?_eq_some he
    rw [decide_eq_true_eq] at h1
    simp only [Option.map] at h
    injection h with h3
    have : e = (k, s) := by
      obtain ⟨e1, e2⟩ := e
      simp_all
    exact this ▸ h2

theorem keys_state_unique (ks : List (POKey × POState)) (k : POKey)
    (a b : POState) (hnd : (ks.map Prod.fst).Nodup)
    (ha : (k, a) ∈ ks) (hb : (k, b) ∈ ks) : a = b := by
  have := List.inj_on_of_nodup_map hnd ha hb rfl
  injection this

theorem memTree_iff (o : PRO) (hInv : PROInv o) (k : POKey) (s : POState) :
    POItem.mk k s ∈ o.tree ↔ (k, s) ∈ o.keys := by
  rw [hInv.1, List.mem_map]
  constructor
  · rintro ⟨e, he, hee⟩
    obtain ⟨e1, e2⟩ := e
    simp only [POItem.mk.injEq] at hee
    obtain ⟨h1, h2⟩ := hee
    exact h1 ▸ h2 ▸ he
  · intro h
    exact ⟨(k, s), h, rfl⟩

theorem keysLookup_insert_self (ks : List (POKey × POState)) (k : POKey)
    (st : POState) : keysLookup (keysInsert ks k st) k = some st := by
  unfold keysLookup keysInsert
  rw [List.find?_cons_of_pos _ (by simp)]
  rfl

theorem itemEqb_false_of_ne {a b : POItem} (h : a ≠ b) : itemEqb a b = false := by
  cases hb : itemEqb a b
  · rfl
  · exact absurd ((itemEqb_iff a b).mp hb) h

/-- C9: under the structural invariant, `PieceRequestOrder.Add` panics iff
the key is already present, `Update` and `Delete` panic iff the key is
absent, and each successful operation leaves the index holding the given
key mapped to the given state (for `Delete`: no longer holding the key at
all, in either the map or the tree). -/
theorem claim_C9_poi_operations (o : PRO) (k : POKey) (st : POState)
    (hInv : PROInv o) :
    ((proAdd o k st).isSome ↔ keysLookup o.keys k = none) ∧
    ((proUpdate o k st).isSome ↔ (keysLookup o.keys k).isSome) ∧
    ((proDelete o k).isSome ↔ (keysLookup o.keys k).isSome) ∧
    (∀ o', proAdd o k st = some o' → proHolds o' k st) ∧
    (∀ o', proUpdate o k st = some o' → proHolds o' k st) ∧
    (∀ o', proDelete o k = some o' →
      keysLookup o'.keys k = none ∧ ∀ s, POItem.mk k s ∉ o'.tree) := by
  rcases hL : keysLookup o.keys k with _ | s0
  · -- the key is absent
    have hnotree : ∀ s, POItem.mk k s ∉ o.tree := by
      intro s hmem
      have h1 : (k, s) ∈ o.keys := (memTree_iff o hInv k s).mp hmem
      have h2 : (keysLookup o.keys k).isSome :=
        (keysLookup_isSome_iff _ _).mpr ⟨s, h1⟩
      rw [hL] at h2
      cases h2
    have hth : treeHas o.tree ⟨k, st⟩ = false := by
      cases hb : treeHas o.tree ⟨k, st⟩
      · rfl
      · exact absurd ((treeHas_iff _ _).mp hb) (hnotree st)
    have hthz : treeHas o.tree (existingItemForKey o k) = false := by
      cases hb : treeHas o.tree (existingItemForKey o k)
      · rfl
      · have := (treeHas_iff _ _).mp hb
        unfold existingItemForKey at this
        rw [hL] at this
        exact absurd this (hnotree _)
    have hAdd : proAdd o k st =
        some ⟨POItem.mk k st :: o.tree, keysInsert o.keys k st⟩ := by
      unfold proAdd replaceOrInsert
      rw [hL, hth]
      rfl
    have hUpd : proUpdate o k st = none := by
      unfold proUpdate treeDelete
      rw [hthz]
      rfl
    have hDel : proDelete o k = none := by
      unfold proDelete treeDelete
      rw [hthz]
      rfl
    refine ⟨by rw [hAdd]; simp, by rw [hUpd]; simp, by rw [hDel]; simp, ?_, ?_, ?_⟩
    · intro o' ho'
      rw [hAdd] at ho'
      injection ho' with ho'
      subst ho'
      exact ⟨keysLookup_insert_self _ _ _, List.mem_cons_self _ _⟩
    · intro o' ho'
      rw [hUpd] at ho'
      cases ho'
    · intro o' ho'
      rw [hDel] at ho'
      cases ho'
  · -- the key is present with state s0
    have hmemk : (k, s0) ∈ o.keys := keysLookup_mem _ _ _ hL
    have hmemtree : POItem.mk k s0 ∈ o.tree := (memTree_iff o hInv k s0).mpr hmemk
    have hex : existingItemForKey o k = ⟨k, s0⟩ := by
      unfold existingItemForKey
      rw [hL]
      rfl
    have hthT : treeHas o.tree ⟨k, s0⟩ = true := (treeHas_iff _ _).mpr hmemtree
    have ht1 : ∀ s, POItem.mk k s ∉
        o.tree.filter (fun x => !(itemEqb x ⟨k, s0⟩)) := by
      intro s hmem1
      rw [List.mem_filter] at hmem1
      obtain ⟨hmem2, hpred⟩ := hmem1
      have hs : (k, s) ∈ o.keys := (memTree_iff o hInv k s).mp hmem2
      have heq : s = s0 := keys_state_unique o.keys k s s0 hInv.2 hs hmemk
      subst heq
      rw [(itemEqb_iff _ _).mpr rfl] at hpred
      cases hpred
    have hth1 : treeHas (o.tree.filter (fun x => !(itemEqb x ⟨k, s0⟩)))
        ⟨k, st⟩ = false := by
      cases hb : treeHas (o.tree.filter (fun x => !(itemEqb x ⟨k, s0⟩))) ⟨k, st⟩
      · rfl
      · exact absurd ((treeHas_iff _ _).mp hb) (ht1 st)
    have hdel1 : treeDelete o.tree (existingItemForKey o k) =
        some (o.tree.filter (fun x => !(itemEqb x ⟨k, s0⟩))) := by
      unfold treeDelete
      rw [hex, hthT]
      rfl
    have hUpd : proUpdate o k st =
        some ⟨POItem.mk k st :: o.tree.filter (fun x => !(itemEqb x ⟨k, s0⟩)),
          keysInsert o.keys k st⟩ := by
      unfold proUpdate
      rw [hdel1]
      simp [replaceOrInsert, hth1]
    have hDel : proDelete o k =
        some ⟨o.tree.filter (fun x => !(itemEqb x ⟨k, s0⟩)),
          keysErase o.keys k⟩ := by
      unfold proDelete
      rw [hdel1]
    have hAdd : proAdd o k st = none := by
      unfold proAdd
      rw [hL]
      rfl
    refine ⟨by rw [hAdd]; simp, by rw [hUpd]; simp, by rw [hDel]; simp, ?_, ?_, ?_⟩
    · intro o' ho'
      rw [hAdd] at ho'
      cases ho'
    · intro o' ho'
      rw [hUpd] at ho'
      injection ho' with ho'
      subst ho'
      exact ⟨keysLookup_insert_self _ _ _, List.mem_cons_self _ _⟩
    · intro o' ho'
      rw [hDel] at ho'
      injection ho' with ho'
      subst ho'
      constructor
      · have hfind : List.find? (fun e => decide (e.1 = k))
            (o.keys.filter (fun e => !(decide (e.1 = k)))) = none := by
          rw [List.find?_eq_none]
          intro x hx
          rw [List.mem_filter] at hx
          simp only [Bool.not_eq_true'] at hx
          simp [hx.2]
        unfold keysLookup keysErase
        rw [hfind]
        rfl
      · exact ht1

/-- Witness for C9: a one-entry index satisfying the invariant. -/
theorem claim_C9_witness :
    PROInv ⟨[⟨⟨[5], 0⟩, ⟨1, false, 2⟩⟩], [(⟨[5], 0⟩, ⟨1, false, 2⟩)]⟩ ∧
    ((proUpdate ⟨[⟨⟨[5], 0⟩, ⟨1, false, 2⟩⟩], [(⟨[5], 0⟩, ⟨1, false, 2⟩)]⟩
        ⟨[5], 0⟩ ⟨2, true, 7⟩).isSome ↔
      (keysLookup [(⟨[5], 0⟩, ⟨1, false, 2⟩)] ⟨[5], 0⟩).isSome) := by
  have hInv : PROInv ⟨[⟨⟨[5], 0⟩, ⟨1, false, 2⟩⟩], [(⟨[5], 0⟩, ⟨1, false, 2⟩)]⟩ :=
    ⟨rfl, by decide⟩
  exact ⟨hInv, (claim_C9_poi_operations _ ⟨[5], 0⟩ ⟨2, true, 7⟩ hInv).2.1⟩

/-! ## Per-Piece Peer Allocator (order.go lines 310-411) -/

/-- A `requestsPeer`: the `request_strategy.Peer` inputs together with the
mutable `nextState` (requests + interested), `requestablePiecesRemaining`,
and the per-piece `requestsInPiece` counter of its `peersForPieceRequests`
wrapper (fresh per `allocatePendingChunks` call).  `canReqPiece` — modelled
from the spec: `Peer.canRequestPiece` lives in a repository file not under
src; per the spec a peer is a candidate iff it claims the piece and is not
banned, kept abstract here as a per-peer predicate on piece indices.
`downloadRate` is `float64` in the source and only ever compared, so an
integer stands in for it. -/
structure RSPeer where
  maxRequests : Nat
  choking : Bool
  allowedFast : Finset Nat
  existingRequests : Finset Nat
  canReqPiece : Nat → Bool
  downloadRate : Int
  age : Int
  idUintptr : Nat
  nextRequests : Finset Nat
  interested : Bool
  requestablePiecesRemaining : Int
  requestsInPiece : Int

instance : Inhabited RSPeer :=
  ⟨⟨0, false, ∅, ∅, fun _ => false, 0, 0, 0, ∅, false, 0, 0⟩⟩

/-- A `requestablePiece`; `pendingChunks` is the sequence of chunk indices
its `IterPendingChunks` yields. -/
structure RSPiece where
  index : Nat
  chunksPerPiece : Nat
  alwaysReallocate : Bool
  numPendingChunks : Nat
  pendingChunks : List Nat

/-- `chunkIndexToRequestIndex` (order.go lines 101-103): u32 arithmetic. -/
def reqIx (p : RSPiece) (c : Nat) : Nat :=
  (p.chunksPerPiece * p.index + c) % 2 ^ 32

/-- `requestsPeer.canFitRequest` (order.go lines 73-75). -/
def canFitRequest (pr : RSPeer) : Bool :=
  decide (pr.nextRequests.card < pr.maxRequests)

/-- `peersForPieceRequests.addNextRequest` (order.go lines 88-91):
`CheckedAdd` panics if the request is already present, and the per-piece
counter is incremented. -/
def addNextRequestP (pr : RSPeer) (r : Nat) : Option RSPeer :=
  if r ∈ pr.nextRequests then none
  else some { pr with nextRequests := insert r pr.nextRequests,
                      requestsInPiece := pr.requestsInPiece + 1 }

/-- The allocator state: the shared peers (indexed by their position in
the input slice) and the candidate index list `peersForPiece`, in its
current order. -/
structure AllocSt where
  peers : List RSPeer
  cand : List Nat

/-- One step of candidate collection (order.go lines 312-324): a peer that
cannot request the piece is skipped; a peer at its cap loses one
`requestablePiecesRemaining`; otherwise the peer becomes a candidate with a
fresh `requestsInPiece` of 0. -/
def collectBody (p : RSPiece) (s : AllocSt) (i : Nat) : AllocSt :=
  let pr := s.peers.getD i default
  if !(pr.canReqPiece p.index) then s
  else if !(canFitRequest pr) then
    { s with peers := (s.peers.set i
        { pr with requestablePiecesRemaining :=
            pr.requestablePiecesRemaining - 1 }) }
  else
    { peers := (s.peers.set i { pr with requestsInPiece := 0 }),
      cand := s.cand ++ [i] }

/-- Candidate collection (order.go lines 311-324), iterating the peers
slice in order. -/
def collectCands (p : RSPiece) (peers : List RSPeer) : AllocSt :=
  (List.range peers.length).foldl (collectBody p) ⟨peers, []⟩

/-- The `byHasRequest` criterion of `peersForPieceSorter.Less` (order.go
lines 264-272). -/
def byHasRequest (req? : Option Nat) (a b : RSPeer) : Ordering :=
  match req? with
  | none => .eq
  | some r => mlBool (decide (r ∈ b.nextRequests)) (decide (r ∈ a.nextRequests))

/-- `peersForPieceSorter.Less` (order.go lines 259-307) as its underlying
three-way chain; the source's early `return ml.Less()` when the first four
criteria decide is semantically the same chain continued. -/
def peersForPieceCmp (p : RSPiece) (req? : Option Nat) (a b : RSPeer) : Ordering :=
  let part1 :=
    if !p.alwaysReallocate then
      mlBool (decide (b.requestablePiecesRemaining = 1))
        (decide (a.requestablePiecesRemaining = 1))
    else Ordering.eq
  let part2 :=
    if p.alwaysReallocate || decide (b.requestablePiecesRemaining = 1) then
      cmpInt a.requestsInPiece b.requestsInPiece
    else byHasRequest req? a b
  let part3 := cmpInt a.requestablePiecesRemaining b.requestablePiecesRemaining
  let part4 := cmpInt b.downloadRate a.downloadRate
  let tail := thenCmp (byHasRequest req? a b)
    (thenCmp (cmpInt b.age a.age) (cmpNat a.idUintptr b.idUintptr))
  thenCmp part1 (thenCmp part2 (thenCmp part3 (thenCmp part4 tail)))

/-- `sortPeersForPiece` (order.go lines 335-339): re-sort the candidate
list under the current peer states.  A deterministic insertion sort stands
in for Go's `sort.Sort`; `MustLess` cannot tie for peers with distinct
`Id.Uintptr()` values, and the properties proved below are invariant under
the candidate permutation the sort produces. -/
def sortCand (p : RSPiece) (req? : Option Nat) (s : AllocSt) : AllocSt :=
  { s with cand := (List.insertionSort
      (fun i j => peersForPieceCmp p req? (s.peers.getD i default)
        (s.peers.getD j default) = Ordering.lt) s.cand) }

/-- The pre-allocation scan for one chunk (order.go lines 343-355): every
candidate peer whose `ExistingRequests` holds the request and that can fit
a request tentatively re-adds it; the returned list records those peers in
order (`preallocated[spec]`). -/
def preallocChunkPeers (req : Nat) : AllocSt → List Nat → Option (AllocSt × List Nat)
  | s, [] => some (s, [])
  | s, i :: rest =>
    let pr := s.peers.getD i default
    if req ∈ pr.existingRequests ∧ canFitRequest pr = true then
      match addNextRequestP pr req with
      | none => none
      | some pr' =>
        match preallocChunkPeers req { s with peers := s.peers.set i pr' } rest with
        | none => none
        | some (s', l) => some (s', i :: l)
    else preallocChunkPeers req s rest

/-- The pre-allocation pass (order.go lines 342-355) over the pending
chunks, building the `preallocated` table.  Writing `preallocated[spec]`
for a chunk index at or beyond `ChunksPerPiece` is an out-of-range panic
in Go, which only fires when there is a peer to append. -/
def preallocPass (p : RSPiece) :
    AllocSt → (Nat → List Nat) → List Nat → Option (AllocSt × (Nat → List Nat))
  | s, pre, [] => some (s, pre)
  | s, pre, c :: cs =>
    match preallocChunkPeers (reqIx p c) s s.cand with
    | none => none
    | some (s', l) =>
      if l = [] then preallocPass p s' pre cs
      else if p.chunksPerPiece ≤ c then none
      else preallocPass p s'
        (fun c' => if c' = c then pre c' ++ l else pre c') cs

/-- Whether some candidate can take a fresh request for the piece right
now: it has spare capacity and is not blocked by choking without
allowed-fast.  This is the predicate the assignment walk below searches
by. -/
def eligPred (p : RSPiece) (s : AllocSt) : Bool :=
  s.cand.any (fun i =>
    let pr := s.peers.getD i default
    canFitRequest pr && (decide (p.index ∈ pr.allowedFast) || !pr.choking))

/-- The assignment walk shared by the fresh pass (order.go lines 364-377)
and the re-balance pass (lines 393-406): take candidates in sorted order,
skip the full ones, mark interest on non-allowed-fast candidates and skip
them when choking, and give the request to the first remaining peer. -/
def assignWalk (p : RSPiece) (req : Nat) : AllocSt → List Nat → Option AllocSt
  | s, [] => some s
  | s, i :: rest =>
    let pr := s.peers.getD i default
    if canFitRequest pr = false then assignWalk p req s rest
    else if p.index ∈ pr.allowedFast then
      match addNextRequestP pr req with
      | none => none
      | some pr2 => some { s with peers := s.peers.set i pr2 }
    else
      let pr1 := { pr with interested := true }
      let s1 := { s with peers := s.peers.set i pr1 }
      if pr1.choking then assignWalk p req s1 rest
      else
        match addNextRequestP pr1 req with
        | none => none
        | some pr2 => some { s1 with peers := s1.peers.set i pr2 }

/-- The fresh-assignment pass (order.go lines 356-378): chunks with a
pre-allocation are skipped without touching `pendingChunksRemaining`;
each other chunk decrements it (a deferred decrement, so it also runs if
the walk panics, but then the run is lost anyway), re-sorts with
`req = nil`, and walks.  Reading `preallocated[chunk]` out of range is a
panic.  Each processed chunk is logged with the eligibility of the
post-sort state. -/
def freshPass (p : RSPiece) (pre : Nat → List Nat) :
    AllocSt → Int → List (Nat × Bool) → List Nat →
    Option (AllocSt × Int × List (Nat × Bool))
  | s, k, log, [] => some (s, k, log)
  | s, k, log, c :: cs =>
    if p.chunksPerPiece ≤ c then none
    else if pre c ≠ [] then freshPass p pre s k log cs
    else
      let s1 := sortCand p none s
      match assignWalk p (reqIx p c) s1 s1.cand with
      | none => none
      | some s2 =>
        freshPass p pre s2 (k - 1) (log ++ [(c, eligPred p s1)]) cs

/-- Apply a per-peer update at each index of a list in turn (the shape of
the source's `for _, pp := range prePeers` mutation loops). -/
def foldUpd (g : RSPeer → RSPeer) (l : List Nat) (s : AllocSt) : AllocSt :=
  l.foldl
    (fun s i => { s with peers := (s.peers.set i (g (s.peers.getD i default))) })
    s

/-- The re-balance body for one pre-allocated chunk slot (order.go lines
380-406): decrement each pre-allocated peer's `requestsInPiece`, re-sort
with `req = R`, strip `R` from the pre-allocated peers, then walk. -/
def rebalanceChunk (p : RSPiece) (c : Nat) (prePeers : List Nat) (s : AllocSt) :
    Option (AllocSt × Bool) :=
  let req := reqIx p c
  let s1 := foldUpd
    (fun pr => { pr with requestsInPiece := pr.requestsInPiece - 1 }) prePeers s
  let s2 := sortCand p (some req) s1
  let s3 := foldUpd
    (fun pr => { pr with nextRequests := pr.nextRequests.erase req }) prePeers s2
  match assignWalk p req s3 s3.cand with
  | none => none
  | some s4 => some (s4, eligPred p s3)

/-- The re-balance pass (order.go lines 379-407): iterate the
`preallocated` table slots `0 .. ChunksPerPiece-1` in order, skipping the
empty ones; each non-empty slot decrements `pendingChunksRemaining` and is
logged with the eligibility of the post-strip state. -/
def rebalancePass (p : RSPiece) (pre : Nat → List Nat) :
    AllocSt → Int → List (Nat × Bool) → List Nat →
    Option (AllocSt × Int × List (Nat × Bool))
  | s, k, log, [] => some (s, k, log)
  | s, k, log, c :: cs =>
    if pre c = [] then rebalancePass p pre s k log cs
    else
      match rebalanceChunk p c (pre c) s with
      | none => none
      | some (s', el) => rebalancePass p pre s' (k - 1) (log ++ [(c, el)]) cs

/-- The observable outcome of the three passes: the state before the
deferred decrements, the final `pendingChunksRemaining`, and the per-chunk
eligibility log. -/
structure AllocOut where
  state : AllocSt
  counter : Int
  elig : List (Nat × Bool)

/-- The three passes of `allocatePendingChunks` in order, starting from
candidate collection, with `pendingChunksRemaining` initialized to
`NumPendingChunks`. -/
def allocRun (p : RSPiece) (peers : List RSPeer) : Option AllocOut :=
  let s0 := collectCands p peers
  match preallocPass p s0 (fun _ => []) p.pendingChunks with
  | none => none
  | some (s1, pre) =>
    match freshPass p pre s1 (p.numPendingChunks : Int) [] p.pendingChunks with
    | none => none
    | some (s2, k2, log2) =>
      match rebalancePass p pre s2 k2 log2 (List.range p.chunksPerPiece) with
      | none => none
      | some (s3, k3, log3) => some ⟨s3, k3, log3⟩

/-- The deferred decrements (order.go lines 325-330): every candidate
loses one `requestablePiecesRemaining` when the function exits. -/
def deferDecrements (s : AllocSt) : List RSPeer :=
  (foldUpd
    (fun pr => { pr with requestablePiecesRemaining :=
        pr.requestablePiecesRemaining - 1 }) s.cand s).peers

/-- `allocatePendingChunks` (order.go lines 310-411): the three passes,
the final `pendingChunksRemaining != 0` panic check, and the deferred
per-candidate decrements. -/
def allocatePendingChunks (p : RSPiece) (peers : List RSPeer) :
    Option (List RSPeer) :=
  match allocRun p peers with
  | none => none
  | some out =>
    if out.counter ≠ 0 then none
    else some (deferDecrements out.state)

/-- Successive piece allocations within one pass of the request strategy
run: `allocatePendingChunks` applied to each requestable piece in turn. -/
def allocateMany : List RSPiece → List RSPeer → Option (List RSPeer)
  | [], peers => some peers
  | p :: ps, peers =>
    match allocatePendingChunks p peers with
    | none => none
    | some peers' => allocateMany ps peers'

/-! ## Allocator lemmas -/

/-- Reading a peer by its slice index. -/
def peerAt (l : List RSPeer) (i : Nat) : RSPeer := l.getD i default

theorem peerAt_set (l : List RSPeer) (i j : Nat) (x : RSPeer) :
    peerAt (l.set i x) j = if i = j ∧ i < l.length then x else peerAt l j := by
  unfold peerAt
  rw [List.getD_eq_getElem?_getD, List.getD_eq_getElem?_getD, List.getElem?_set]
  by_cases h : i = j
  · subst h
    by_cases h2 : i < l.length
    · simp [h2]
    · simp [h2, List.getElem?_eq_none (Nat.le_of_not_lt h2)]
  · simp [h]

theorem peerAt_set_self (l : List RSPeer) (i : Nat) (x : RSPeer)
    (h : i < l.length) : peerAt (l.set i x) i = x := by
  rw [peerAt_set]
  simp [h]

theorem peerAt_set_ne (l : List RSPeer) (i j : Nat) (x : RSPeer)
    (h : i ≠ j) : peerAt (l.set i x) j = peerAt l j := by
  rw [peerAt_set]
  simp [h]

/-- All peer fields except `nextRequests`, `interested` and
`requestsInPiece` are equal: what the three allocator passes never touch. -/
def sameCore (a b : RSPeer) : Prop :=
  b.maxRequests = a.maxRequests ∧ b.choking = a.choking ∧
  b.allowedFast = a.allowedFast ∧ b.existingRequests = a.existingRequests ∧
  b.canReqPiece = a.canReqPiece ∧ b.downloadRate = a.downloadRate ∧
  b.age = a.age ∧ b.idUintptr = a.idUintptr ∧
  b.requestablePiecesRemaining = a.requestablePiecesRemaining

/-- The pointwise simulation the passes preserve: untouched core fields
and a request-set cardinality that never exceeds
`max (old cardinality) MaxRequests`. -/
def passOK (a b : RSPeer) : Prop :=
  sameCore a b ∧ b.nextRequests.card ≤ max a.nextRequests.card a.maxRequests

theorem sameCore_refl (a : RSPeer) : sameCore a a :=
  ⟨rfl, rfl, rfl, rfl, rfl, rfl, rfl, rfl, rfl⟩

theorem sameCore_trans {a b c : RSPeer} (h1 : sameCore a b) (h2 : sameCore b c) :
    sameCore a c := by
  obtain ⟨x1, x2, x3, x4, x5, x6, x7, x8, x9⟩ := h1
  obtain ⟨y1, y2, y3, y4, y5, y6, y7, y8, y9⟩ := h2
  exact ⟨y1.trans x1, y2.trans x2, y3.trans x3, y4.trans x4, y5.trans x5,
    y6.trans x6, y7.trans x7, y8.trans x8, y9.trans x9⟩

theorem passOK_refl (a : RSPeer) : passOK a a :=
  ⟨sameCore_refl a, le_max_left _ _⟩

theorem passOK_trans {a b c : RSPeer} (h1 : passOK a b) (h2 : passOK b c) :
    passOK a c := by
  refine ⟨sameCore_trans h1.1 h2.1, ?_⟩
  have hm : b.maxRequests = a.maxRequests := h1.1.1
  have := h2.2
  rw [hm] at this
  exact le_trans this (max_le (le_trans h1.2 (le_refl _)) (le_max_right _ _))

/-- `addNextRequestP` on a peer that still fits: core untouched, the
cardinality lands at or under `MaxRequests`. -/
theorem addNextRequestP_passOK {pr pr' : RSPeer} (r : Nat)
    (hfit : canFitRequest pr = true) (h : addNextRequestP pr r = some pr') :
    passOK pr pr' := by
  unfold addNextRequestP at h
  by_cases hmem : r ∈ pr.nextRequests
  · rw [if_pos hmem] at h
    cases h
  · rw [if_neg hmem] at h
    injection h with h
    subst h
    refine ⟨⟨rfl, rfl, rfl, rfl, rfl, rfl, rfl, rfl, rfl⟩, ?_⟩
    have hcard : (insert r pr.nextRequests).card = pr.nextRequests.card + 1 :=
      Finset.card_insert_of_not_mem hmem
    unfold canFitRequest at hfit
    rw [decide_eq_true_eq] at hfit
    simp only [hcard]
    exact le_max_of_le_right (by omega)

/-- `foldUpd` with an update that keeps `passOK` pointwise keeps
`passOK` pointwise. -/
theorem foldUpd_passOK (g : RSPeer → RSPeer)
    (hg : ∀ pr, passOK pr (g pr)) :
    ∀ (l : List Nat) (s : AllocSt) (i : Nat),
      passOK (peerAt s.peers i) (peerAt (foldUpd g l s).peers i) := by
  intro l
  induction l with
  | nil => intro s i; exact passOK_refl _
  | cons j js ih =>
    intro s i
    have hstep : ∀ i', passOK (peerAt s.peers i')
        (peerAt (s.peers.set j (g (s.peers.getD j default))) i') := by
      intro i'
      rw [peerAt_set]
      by_cases hc : j = i' ∧ j < s.peers.length
      · rw [if_pos hc]
        obtain ⟨hj, _⟩ := hc
        subst hj
        exact hg _
      · rw [if_neg hc]
        exact passOK_refl _
    have := ih { s with peers := s.peers.set j (g (s.peers.getD j default)) } i
    exact passOK_trans (hstep i) this

theorem foldUpd_length (g : RSPeer → RSPeer) :
    ∀ (l : List Nat) (s : AllocSt),
      (foldUpd g l s).peers.length = s.peers.length := by
  intro l
  induction l with
  | nil => intro s; rfl
  | cons j js ih =>
    intro s
    rw [show foldUpd g (j :: js) s =
      foldUpd g js { s with peers := s.peers.set j (g (s.peers.getD j default)) }
      from rfl]
    rw [ih]
    simp

theorem foldUpd_cand (g : RSPeer → RSPeer) :
    ∀ (l : List Nat) (s : AllocSt), (foldUpd g l s).cand = s.cand := by
  intro l
  induction l with
  | nil => intro s; rfl
  | cons j js ih =>
    intro s
    rw [show foldUpd g (j :: js) s =
      foldUpd g js { s with peers := s.peers.set j (g (s.peers.getD j default)) }
      from rfl]
    rw [ih]

theorem set_passOK (l : List RSPeer) (j : Nat) (x : RSPeer)
    (hx : passOK (peerAt l j) x) (i : Nat) :
    passOK (peerAt l i) (peerAt (l.set j x) i) := by
  rw [peerAt_set]
  by_cases hc : j = i ∧ j < l.length
  · rw [if_pos hc]
    obtain ⟨hj, _⟩ := hc
    subst hj
    exact hx
  · rw [if_neg hc]
    exact passOK_refl _

theorem preallocChunkPeers_passOK (req : Nat) :
    ∀ (l : List Nat) (s s' : AllocSt) (res : List Nat),
      preallocChunkPeers req s l = some (s', res) →
      ∀ i, passOK (peerAt s.peers i) (peerAt s'.peers i) := by
  intro l
  induction l with
  | nil =>
    intro s s' res h i
    simp only [preallocChunkPeers, Option.some.injEq, Prod.mk.injEq] at h
    obtain ⟨rfl, rfl⟩ := h
    exact passOK_refl _
  | cons j js ih =>
    intro s s' res h i
    simp only [preallocChunkPeers] at h
    split at h
    · rename_i hcond
      split at h
      · cases h
      · rename_i pr' hadd
        split at h
        · cases h
        · rename_i s2 l2 hrec
          simp only [Option.some.injEq, Prod.mk.injEq] at h
          obtain ⟨rfl, rfl⟩ := h
          have hstep := set_passOK s.peers j pr'
            (addNextRequestP_passOK req hcond.2 hadd) i
          exact passOK_trans hstep (ih _ _ _ hrec i)
    · exact ih _ _ _ h i

theorem preallocPass_passOK (p : RSPiece) :
    ∀ (cs : List Nat) (s : AllocSt) (pre : Nat → List Nat)
      (s' : AllocSt) (pre' : Nat → List Nat),
      preallocPass p s pre cs = some (s', pre') →
      ∀ i, passOK (peerAt s.peers i) (peerAt s'.peers i) := by
  intro cs
  induction cs with
  | nil =>
    intro s pre s' pre' h i
    simp only [preallocPass, Option.some.injEq, Prod.mk.injEq] at h
    obtain ⟨rfl, rfl⟩ := h
    exact passOK_refl _
  | cons c cs ih =>
    intro s pre s' pre' h i
    simp only [preallocPass] at h
    split at h
    · cases h
    · rename_i s1 l1 hpc
      have hstep := preallocChunkPeers_passOK (reqIx p c) s.cand s s1 l1 hpc
      split at h
      · exact passOK_trans (hstep i) (ih _ _ _ _ h i)
      · split at h
        · cases h
        · exact passOK_trans (hstep i) (ih _ _ _ _ h i)

theorem sortCand_peers (p : RSPiece) (req? : Option Nat) (s : AllocSt) :
    (sortCand p req? s).peers = s.peers := rfl

theorem assignWalk_passOK (p : RSPiece) (req : Nat) :
    ∀ (l : List Nat) (s s' : AllocSt),
      assignWalk p req s l = some s' →
      ∀ i, passOK (peerAt s.peers i) (peerAt s'.peers i) := by
  intro l
  induction l with
  | nil =>
    intro s s' h i
    simp only [assignWalk, Option.some.injEq] at h
    subst h
    exact passOK_refl _
  | cons j js ih =>
    intro s s' h i
    simp only [assignWalk] at h
    split at h
    · exact ih _ _ h i
    · rename_i hfit
      have hfit' : canFitRequest (s.peers.getD j default) = true := by
        cases hb : canFitRequest (s.peers.getD j default)
        · exact absurd hb hfit
        · rfl
      split at h
      · split at h
        · cases h
        · rename_i pr2 hadd
          injection h with h
          subst h
          exact set_passOK s.peers j pr2
            (addNextRequestP_passOK req hfit' hadd) i
      · split at h
        · rename_i hchoke
          exact passOK_trans (set_passOK s.peers j
            { s.peers.getD j default with interested := true }
            ⟨⟨rfl, rfl, rfl, rfl, rfl, rfl, rfl, rfl, rfl⟩, le_max_left _ _⟩ i)
            (ih _ _ h i)
        · rename_i hchoke
          split at h
          · cases h
          · rename_i pr2 hadd
            injection h with h
            subst h
            have hfit1 : canFitRequest
                { s.peers.getD j default with interested := true } = true := by
              unfold canFitRequest at hfit' ⊢
              exact hfit'
            refine passOK_trans (set_passOK s.peers j
              { s.peers.getD j default with interested := true }
              ⟨⟨rfl, rfl, rfl, rfl, rfl, rfl, rfl, rfl, rfl⟩, le_max_left _ _⟩ i) ?_
            refine set_passOK _ j pr2 ?_ i
            have hget : peerAt (s.peers.set j
                { s.peers.getD j default with interested := true }) j =
                  { s.peers.getD j default with interested := true } ∨
                peerAt (s.peers.set j
                  { s.peers.getD j default with interested := true }) j =
                  peerAt s.peers j := by
              rw [peerAt_set]
              by_cases hc : j = j ∧ j < s.peers.length
              · rw [if_pos hc]; exact Or.inl rfl
              · rw [if_neg hc]; exact Or.inr rfl
            rcases hget with hget | hget
            · rw [hget]
              exact addNextRequestP_passOK req hfit1 hadd
            · rw [hget]
              refine passOK_trans ?_ (addNextRequestP_passOK req hfit1 hadd)
              exact ⟨⟨rfl, rfl, rfl, rfl, rfl, rfl, rfl, rfl, rfl⟩, le_max_left _ _⟩

theorem freshPass_passOK (p : RSPiece) (pre : Nat → List Nat) :
    ∀ (cs : List Nat) (s : AllocSt) (k : Int) (log : List (Nat × Bool))
      (s' : AllocSt) (k' : Int) (log' : List (Nat × Bool)),
      freshPass p pre s k log cs = some (s', k', log') →
      ∀ i, passOK (peerAt s.peers i) (peerAt s'.peers i) := by
  intro cs
  induction cs with
  | nil =>
    intro s k log s' k' log' h i
    simp only [freshPass, Option.some.injEq, Prod.mk.injEq] at h
    obtain ⟨rfl, rfl, rfl⟩ := h
    exact passOK_refl _
  | cons c cs ih =>
    intro s k log s' k' log' h i
    simp only [freshPass] at h
    split at h
    · cases h
    · split at h
      · exact ih _ _ _ _ _ _ h i
      · split at h
        · cases h
        · rename_i s2 hwalk
          have hstep := assignWalk_passOK p (reqIx p c)
            (sortCand p none s).cand (sortCand p none s) s2 hwalk i
          rw [sortCand_peers] at hstep
          exact passOK_trans hstep (ih _ _ _ _ _ _ h i)

theorem rebalanceChunk_passOK (p : RSPiece) (c : Nat) (prePeers : List Nat)
    (s s' : AllocSt) (el : Bool)
    (h : rebalanceChunk p c prePeers s = some (s', el)) :
    ∀ i, passOK (peerAt s.peers i) (peerAt s'.peers i) := by
  intro i
  simp only [rebalanceChunk] at h
  split at h
  · cases h
  · rename_i s4 hwalk
    simp only [Option.some.injEq, Prod.mk.injEq] at h
    obtain ⟨rfl, rfl⟩ := h
    have h1 := foldUpd_passOK
      (fun pr => { pr with requestsInPiece := pr.requestsInPiece - 1 })
      (fun pr => ⟨⟨rfl, rfl, rfl, rfl, rfl, rfl, rfl, rfl, rfl⟩, le_max_left _ _⟩)
      prePeers s i
    have h2 := foldUpd_passOK
      (fun pr => { pr with nextRequests := pr.nextRequests.erase (reqIx p c) })
      (fun pr => ⟨⟨rfl, rfl, rfl, rfl, rfl, rfl, rfl, rfl, rfl⟩,
        le_trans (Finset.card_le_card (Finset.erase_subset _ _)) (le_max_left _ _)⟩)
      prePeers (sortCand p (some (reqIx p c))
        (foldUpd (fun pr => { pr with requestsInPiece := pr.requestsInPiece - 1 })
          prePeers s)) i
    rw [sortCand_peers] at h2
    have h3 := assignWalk_passOK p (reqIx p c) _ _ _ hwalk i
    exact passOK_trans h1 (passOK_trans h2 h3)

theorem rebalancePass_passOK (p : RSPiece) (pre : Nat → List Nat) :
    ∀ (cs : List Nat) (s : AllocSt) (k : Int) (log : List (Nat × Bool))
      (s' : AllocSt) (k' : Int) (log' : List (Nat × Bool)),
      rebalancePass p pre s k log cs = some (s', k', log') →
      ∀ i, passOK (peerAt s.peers i) (peerAt s'.peers i) := by
  intro cs
  induction cs with
  | nil =>
    intro s k log s' k' log' h i
    simp only [rebalancePass, Option.some.injEq, Prod.mk.injEq] at h
    obtain ⟨rfl, rfl, rfl⟩ := h
    exact passOK_refl _
  | cons c cs ih =>
    intro s k log s' k' log' h i
    simp only [rebalancePass] at h
    split at h
    · exact ih _ _ _ _ _ _ h i
    · cases hrc : rebalanceChunk p c (pre c) s with
      | none =>
        rw [hrc] at h
        cases h
      | some out =>
        obtain ⟨s1, el⟩ := out
        rw [hrc] at h
        exact passOK_trans (rebalanceChunk_passOK p c (pre c) s s1 el hrc i)
          (ih _ _ _ _ _ _ h i)

/-- The weaker pointwise relation that survives the whole of
`allocatePendingChunks`: `MaxRequests` untouched, cardinality at most
`max (old cardinality) MaxRequests`. -/
def cardOK (a b : RSPeer) : Prop :=
  b.maxRequests = a.maxRequests ∧
  b.nextRequests.card ≤ max a.nextRequests.card a.maxRequests

theorem cardOK_refl (a : RSPeer) : cardOK a a := ⟨rfl, le_max_left _ _⟩

theorem cardOK_trans {a b c : RSPeer} (h1 : cardOK a b) (h2 : cardOK b c) :
    cardOK a c := by
  obtain ⟨hm1, hc1⟩ := h1
  obtain ⟨hm2, hc2⟩ := h2
  refine ⟨hm2.trans hm1, ?_⟩
  rw [hm1] at hc2
  exact le_trans hc2 (max_le hc1 (le_max_right _ _))

theorem passOK_imp_cardOK {a b : RSPeer} (h : passOK a b) : cardOK a b :=
  ⟨h.1.1, h.2⟩

theorem foldl_pointwise {R : RSPeer → RSPeer → Prop}
    (hrefl : ∀ a, R a a) (htrans : ∀ {a b c}, R a b → R b c → R a c)
    (body : AllocSt → Nat → AllocSt)
    (hbody : ∀ s j i, R (peerAt s.peers i) (peerAt (body s j).peers i)) :
    ∀ (l : List Nat) (s : AllocSt) (i : Nat),
      R (peerAt s.peers i) (peerAt (l.foldl body s).peers i) := by
  intro l
  induction l with
  | nil => intro s i; exact hrefl _
  | cons j js ih =>
    intro s i
    exact htrans (hbody s j i) (ih (body s j) i)

theorem set_cardOK_aux (l : List RSPeer) (j : Nat) (x : RSPeer)
    (hx : cardOK (peerAt l j) x) (i : Nat) :
    cardOK (peerAt l i) (peerAt (l.set j x) i) := by
  rw [peerAt_set]
  by_cases hc : j = i ∧ j < l.length
  · rw [if_pos hc]
    obtain ⟨hj, _⟩ := hc
    subst hj
    exact hx
  · rw [if_neg hc]
    exact cardOK_refl _

theorem collectBody_cardOK (p : RSPiece) (s : AllocSt) (j i : Nat) :
    cardOK (peerAt s.peers i) (peerAt (collectBody p s j).peers i) := by
  simp only [collectBody]
  split
  · exact cardOK_refl _
  · split
    · exact set_cardOK_aux s.peers j
        { s.peers.getD j default with requestablePiecesRemaining :=
            (s.peers.getD j default).requestablePiecesRemaining - 1 }
        ⟨rfl, le_max_left _ _⟩ i
    · exact set_cardOK_aux s.peers j
        { s.peers.getD j default with requestsInPiece := 0 }
        ⟨rfl, le_max_left _ _⟩ i

theorem allocRun_cardOK (p : RSPiece) (peers : List RSPeer) (out : AllocOut)
    (h : allocRun p peers = some out) (i : Nat) :
    cardOK (peerAt peers i) (peerAt out.state.peers i) := by
  simp only [allocRun] at h
  split at h
  · cases h
  · rename_i s1 pre hpre
    split at h
    · cases h
    · rename_i s2 k2 log2 hfresh
      split at h
      · cases h
      · rename_i s3 k3 log3 hreb
        injection h with h
        subst h
        have h0 : ∀ i, cardOK (peerAt peers i)
            (peerAt (collectCands p peers).peers i) := by
          intro i
          exact foldl_pointwise cardOK_refl (fun h1 h2 => cardOK_trans h1 h2)
            (collectBody p) (collectBody_cardOK p) (List.range peers.length)
            ⟨peers, []⟩ i
        have h1 := preallocPass_passOK p p.pendingChunks (collectCands p peers)
          (fun _ => []) s1 pre hpre i
        have h2 := freshPass_passOK p pre p.pendingChunks s1
          (p.numPendingChunks : Int) [] s2 k2 log2 hfresh i
        have h3 := rebalancePass_passOK p pre (List.range p.chunksPerPiece)
          s2 k2 log2 s3 k3 log3 hreb i
        exact cardOK_trans (h0 i) (cardOK_trans (passOK_imp_cardOK h1)
          (cardOK_trans (passOK_imp_cardOK h2) (passOK_imp_cardOK h3)))

theorem deferDecrements_cardOK (s : AllocSt) (i : Nat) :
    cardOK (peerAt s.peers i) (peerAt (deferDecrements s) i) := by
  unfold deferDecrements foldUpd
  exact foldl_pointwise cardOK_refl (fun h1 h2 => cardOK_trans h1 h2) _
    (fun s j i => set_cardOK_aux s.peers j
      ((fun pr => { pr with requestablePiecesRemaining :=
          pr.requestablePiecesRemaining - 1 }) (s.peers.getD j default))
      ⟨rfl, le_max_left _ _⟩ i)
    s.cand s i

theorem allocatePendingChunks_cardOK (p : RSPiece) (peers peers' : List RSPeer)
    (h : allocatePendingChunks p peers = some peers') (i : Nat) :
    cardOK (peerAt peers i) (peerAt peers' i) := by
  simp only [allocatePendingChunks] at h
  split at h
  · cases h
  · rename_i out hrun
    split at h
    · cases h
    · injection h with h
      subst h
      exact cardOK_trans (allocRun_cardOK p peers out hrun i)
        (deferDecrements_cardOK out.state i)

theorem allocateMany_cardOK :
    ∀ (ps : List RSPiece) (peers peers' : List RSPeer),
      allocateMany ps peers = some peers' →
      ∀ i, cardOK (peerAt peers i) (peerAt peers' i) := by
  intro ps
  induction ps with
  | nil =>
    intro peers peers' h i
    simp only [allocateMany, Option.some.injEq] at h
    subst h
    exact cardOK_refl _
  | cons p ps ih =>
    intro peers peers' h i
    simp only [allocateMany] at h
    split at h
    · cases h
    · rename_i peers1 hone
      exact cardOK_trans (allocatePendingChunks_cardOK p peers peers1 hone i)
        (ih peers1 peers' h i)

/-- C6: across any number of successive `allocatePendingChunks` calls in a
pass, a peer whose `NextRequests` cardinality was at most its
`MaxRequests` on entry still satisfies the bound afterwards — every
`addNextRequest` is guarded by `canFitRequest`. -/
theorem claim_C6_max_requests_bound (ps : List RSPiece)
    (peers peers' : List RSPeer)
    (h : allocateMany ps peers = some peers') (i : Nat)
    (hle : (peerAt peers i).nextRequests.card ≤ (peerAt peers i).maxRequests) :
    (peerAt peers' i).nextRequests.card ≤ (peerAt peers' i).maxRequests := by
  have hc := allocateMany_cardOK ps peers peers' h i
  rw [hc.1]
  exact le_trans hc.2 (by omega)

/-- A concrete requestable piece for witnesses: piece 0, 2 chunks per
piece, 1 pending chunk, namely chunk 0. -/
def wPiece : RSPiece :=
  { index := 0, chunksPerPiece := 2, alwaysReallocate := false,
    numPendingChunks := 1, pendingChunks := [0] }

/-- A concrete peer for witnesses: can request everything, cap 2, not
choking, nothing outstanding. -/
def wPeer : RSPeer :=
  { maxRequests := 2, choking := false, allowedFast := ∅,
    existingRequests := ∅, canReqPiece := fun _ => true, downloadRate := 0,
    age := 0, idUintptr := 1, nextRequests := ∅, interested := false,
    requestablePiecesRemaining := 3, requestsInPiece := 0 }

/-- Witness for C6 at the concrete one-piece, one-peer input. -/
theorem claim_C6_witness :
    (allocateMany [wPiece] [wPeer]).isSome = true ∧
    (peerAt ((allocateMany [wPiece] [wPeer]).getD []) 0).nextRequests.card ≤
      (peerAt ((allocateMany [wPiece] [wPeer]).getD []) 0).maxRequests := by
  have hs : (allocateMany [wPiece] [wPeer]).isSome = true := by decide
  have h : allocateMany [wPiece] [wPeer] =
      some ((allocateMany [wPiece] [wPeer]).getD []) := by
    rcases hx : allocateMany [wPiece] [wPeer] with _ | v
    · rw [hx] at hs
      cases hs
    · rfl
  exact ⟨hs, claim_C6_max_requests_bound [wPiece] [wPeer] _ h 0 (by decide)⟩

theorem freshPass_counter (p : RSPiece) (pre : Nat → List Nat) :
    ∀ (cs : List Nat) (s : AllocSt) (k : Int) (log : List (Nat × Bool))
      (s' : AllocSt) (k' : Int) (log' : List (Nat × Bool)),
      freshPass p pre s k log cs = some (s', k', log') →
      k' = k - ((cs.filter (fun c => decide (pre c = []))).length : Int) := by
  intro cs
  induction cs with
  | nil =>
    intro s k log s' k' log' h
    simp only [freshPass, Option.some.injEq, Prod.mk.injEq] at h
    obtain ⟨rfl, rfl, rfl⟩ := h
    simp
  | cons c cs ih =>
    intro s k log s' k' log' h
    simp only [freshPass] at h
    split at h
    · cases h
    · split at h
      · rename_i hne
        have := ih _ _ _ _ _ _ h
        rw [this]
        have hc : decide (pre c = []) = false := by
          simpa using hne
        simp [List.filter_cons, hc]
      · rename_i hne
        have hc : decide (pre c = []) = true := by
          simpa using hne
        split at h
        · cases h
        · have := ih _ _ _ _ _ _ h
          rw [this]
          simp only [List.filter_cons, hc, if_true, List.length_cons]
          push_cast
          omega

theorem rebalancePass_counter (p : RSPiece) (pre : Nat → List Nat) :
    ∀ (cs : List Nat) (s : AllocSt) (k : Int) (log : List (Nat × Bool))
      (s' : AllocSt) (k' : Int) (log' : List (Nat × Bool)),
      rebalancePass p pre s k log cs = some (s', k', log') →
      k' = k - ((cs.filter (fun c => !(decide (pre c = [])))).length : Int) := by
  intro cs
  induction cs with
  | nil =>
    intro s k log s' k' log' h
    simp only [rebalancePass, Option.some.injEq, Prod.mk.injEq] at h
    obtain ⟨rfl, rfl, rfl⟩ := h
    simp
  | cons c cs ih =>
    intro s k log s' k' log' h
    simp only [rebalancePass] at h
    split at h
    · rename_i heq
      have := ih _ _ _ _ _ _ h
      rw [this]
      have hc : decide (pre c = []) = true := by
        simpa using heq
      simp [List.filter_cons, hc]
    · rename_i hne
      have hc : decide (pre c = []) = false := by
        simpa using hne
      cases hrc : rebalanceChunk p c (pre c) s with
      | none =>
        rw [hrc] at h
        cases h
      | some out =>
        obtain ⟨s1, el⟩ := out
        rw [hrc] at h
        have := ih _ _ _ _ _ _ h
        rw [this]
        simp only [List.filter_cons, hc, Bool.not_false, if_true, List.length_cons]
        push_cast
        omega

theorem preallocPass_pre (p : RSPiece) :
    ∀ (cs : List Nat) (s : AllocSt) (pre : Nat → List Nat)
      (s' : AllocSt) (pre' : Nat → List Nat),
      preallocPass p s pre cs = some (s', pre') →
      ∀ c, pre' c ≠ [] → (pre c ≠ [] ∨ c ∈ cs) := by
  intro cs
  induction cs with
  | nil =>
    intro s pre s' pre' h c hc
    simp only [preallocPass, Option.some.injEq, Prod.mk.injEq] at h
    obtain ⟨rfl, rfl⟩ := h
    exact Or.inl hc
  | cons c0 cs ih =>
    intro s pre s' pre' h c hc
    simp only [preallocPass] at h
    split at h
    · cases h
    · rename_i s1 l1 hpc
      split at h
      · rcases ih _ _ _ _ h c hc with h1 | h1
        · exact Or.inl h1
        · exact Or.inr (List.mem_cons_of_mem _ h1)
      · split at h
        · cases h
        · rename_i hl hle
          rcases ih _ _ _ _ h c hc with h1 | h1
          · by_cases hcc : c = c0
            · subst hcc
              exact Or.inr (List.mem_cons_self _ _)
            · rw [if_neg hcc] at h1
              exact Or.inl h1
          · exact Or.inr (List.mem_cons_of_mem _ h1)

theorem length_filter_split (l : List Nat) (f : Nat → Bool) :
    (l.filter f).length + (l.filter (fun c => !(f c))).length = l.length := by
  induction l with
  | nil => rfl
  | cons x xs ih =>
    cases hf : f x <;> simp [List.filter_cons, hf] <;> omega

theorem length_eq_of_nodup_mem_iff {l1 l2 : List Nat}
    (h1 : l1.Nodup) (h2 : l2.Nodup) (hmem : ∀ c, c ∈ l1 ↔ c ∈ l2) :
    l1.length = l2.length := by
  rw [← List.toFinset_card_of_nodup h1, ← List.toFinset_card_of_nodup h2]
  congr 1
  ext c
  rw [List.mem_toFinset, List.mem_toFinset]
  exact hmem c

/-- C5: when `IterPendingChunks` yields exactly `NumPendingChunks` distinct
in-range chunk indices, `pendingChunksRemaining` is exactly 0 after the
fresh-assignment and re-balance passes, so the final panic is unreachable
and the call returns. -/
theorem claim_C5_pending_counter (p : RSPiece) (peers : List RSPeer)
    (hnd : p.pendingChunks.Nodup)
    (hlen : p.pendingChunks.length = p.numPendingChunks)
    (hlt : ∀ c ∈ p.pendingChunks, c < p.chunksPerPiece)
    (out : AllocOut) (h : allocRun p peers = some out) :
    out.counter = 0 ∧
    allocatePendingChunks p peers = some (deferDecrements out.state) := by
  have hrun := h
  simp only [allocRun] at h
  split at h
  · cases h
  rename_i s1 pre1 hpre
  split at h
  · cases h
  rename_i s2 k2 log2 hfresh
  split at h
  · cases h
  rename_i s3 k3 log3 hreb
  injection h with h
  subst h
  have hk2 := freshPass_counter p pre1 p.pendingChunks s1 _ [] s2 k2 log2 hfresh
  have hk3 := rebalancePass_counter p pre1 (List.range p.chunksPerPiece)
    s2 k2 log2 s3 k3 log3 hreb
  have hsub : ∀ c, pre1 c ≠ [] → c ∈ p.pendingChunks := by
    intro c hc
    rcases preallocPass_pre p p.pendingChunks (collectCands p peers)
      (fun _ => []) s1 pre1 hpre c hc with h1 | h1
    · exact absurd rfl h1
    · exact h1
  have hYZ : ((List.range p.chunksPerPiece).filter
        (fun c => !(decide (pre1 c = [])))).length =
      (p.pendingChunks.filter (fun c => !(decide (pre1 c = [])))).length := by
    refine length_eq_of_nodup_mem_iff
      ((List.nodup_range _).filter _) (hnd.filter _) ?_
    intro c
    rw [List.mem_filter, List.mem_filter, List.mem_range]
    constructor
    · rintro ⟨hlt2, hq⟩
      refine ⟨hsub c ?_, hq⟩
      simpa using hq
    · rintro ⟨hmem, hq⟩
      exact ⟨hlt c hmem, hq⟩
  have hsplit := length_filter_split p.pendingChunks
    (fun c => decide (pre1 c = []))
  have hcounter : k3 = 0 := by
    rw [hk3, hk2, hYZ]
    have hq : (p.pendingChunks.filter (fun c => !(decide (pre1 c = [])))).length =
        (p.pendingChunks.filter (fun c => !((fun c => decide (pre1 c = [])) c))).length := rfl
    rw [hq]
    push_cast
    omega
  refine ⟨hcounter, ?_⟩
  simp only [allocatePendingChunks, hrun]
  simp [hcounter]

/-- Witness for C5 at the concrete one-piece, one-peer input. -/
theorem claim_C5_witness :
    (allocRun wPiece [wPeer]).isSome = true ∧
    ((allocRun wPiece [wPeer]).getD ⟨⟨[], []⟩, 1, []⟩).counter = 0 := by
  have hs : (allocRun wPiece [wPeer]).isSome = true := by decide
  have h : allocRun wPiece [wPeer] =
      some ((allocRun wPiece [wPeer]).getD ⟨⟨[], []⟩, 1, []⟩) := by
    rcases hx : allocRun wPiece [wPeer] with _ | v
    · rw [hx] at hs
      cases hs
    · rfl
  exact ⟨hs, (claim_C5_pending_counter wPiece [wPeer] (by decide) (by decide)
    (by decide) _ h).1⟩

theorem preallocChunkPeers_frame (req : Nat) :
    ∀ (l : List Nat) (s s' : AllocSt) (res : List Nat),
      preallocChunkPeers req s l = some (s', res) →
      s'.peers.length = s.peers.length ∧ s'.cand = s.cand := by
  intro l
  induction l with
  | nil =>
    intro s s' res h
    simp only [preallocChunkPeers, Option.some.injEq, Prod.mk.injEq] at h
    obtain ⟨rfl, rfl⟩ := h
    exact ⟨rfl, rfl⟩
  | cons j js ih =>
    intro s s' res h
    simp only [preallocChunkPeers] at h
    split at h
    · split at h
      · cases h
      · split at h
        · cases h
        · rename_i s2 l2 hrec
          simp only [Option.some.injEq, Prod.mk.injEq] at h
          obtain ⟨rfl, rfl⟩ := h
          have := ih _ _ _ hrec
          simpa using this
    · exact ih _ _ _ h

theorem preallocPass_frame (p : RSPiece) :
    ∀ (cs : List Nat) (s : AllocSt) (pre : Nat → List Nat)
      (s' : AllocSt) (pre' : Nat → List Nat),
      preallocPass p s pre cs = some (s', pre') →
      s'.peers.length = s.peers.length ∧ s'.cand = s.cand := by
  intro cs
  induction cs with
  | nil =>
    intro s pre s' pre' h
    simp only [preallocPass, Option.some.injEq, Prod.mk.injEq] at h
    obtain ⟨rfl, rfl⟩ := h
    exact ⟨rfl, rfl⟩
  | cons c cs ih =>
    intro s pre s' pre' h
    simp only [preallocPass] at h
    split at h
    · cases h
    · rename_i s1 l1 hpc
      have h1 := preallocChunkPeers_frame (reqIx p c) s.cand s s1 l1 hpc
      split at h
      · have := ih _ _ _ _ h
        exact ⟨this.1.trans h1.1, this.2.trans h1.2⟩
      · split at h
        · cases h
        · have := ih _ _ _ _ h
          exact ⟨this.1.trans h1.1, this.2.trans h1.2⟩

theorem assignWalk_frame (p : RSPiece) (req : Nat) :
    ∀ (l : List Nat) (s s' : AllocSt),
      assignWalk p req s l = some s' →
      s'.peers.length = s.peers.length ∧ s'.cand = s.cand := by
  intro l
  induction l with
  | nil =>
    intro s s' h
    simp only [assignWalk, Option.some.injEq] at h
    subst h
    exact ⟨rfl, rfl⟩
  | cons j js ih =>
    intro s s' h
    simp only [assignWalk] at h
    split at h
    · exact ih _ _ h
    · split at h
      · split at h
        · cases h
        · injection h with h
          subst h
          simp
      · split at h
        · have := ih _ _ h
          simpa using this
        · split at h
          · cases h
          · injection h with h
            subst h
            simp

theorem sortCand_cand_perm (p : RSPiece) (req? : Option Nat) (s : AllocSt) :
    (sortCand p req? s).cand.Perm s.cand := by
  unfold sortCand
  exact List.perm_insertionSort _ _

theorem freshPass_frame (p : RSPiece) (pre : Nat → List Nat) :
    ∀ (cs : List Nat) (s : AllocSt) (k : Int) (log : List (Nat × Bool))
      (s' : AllocSt) (k' : Int) (log' : List (Nat × Bool)),
      freshPass p pre s k log cs = some (s', k', log') →
      s'.peers.length = s.peers.length ∧ s'.cand.Perm s.cand := by
  intro cs
  induction cs with
  | nil =>
    intro s k log s' k' log' h
    simp only [freshPass, Option.some.injEq, Prod.mk.injEq] at h
    obtain ⟨rfl, rfl, rfl⟩ := h
    exact ⟨rfl, List.Perm.refl _⟩
  | cons c cs ih =>
    intro s k log s' k' log' h
    simp only [freshPass] at h
    split at h
    · cases h
    · split at h
      · exact ih _ _ _ _ _ _ h
      · split at h
        · cases h
        · rename_i s2 hwalk
          have h1 := assignWalk_frame p (reqIx p c) _ _ _ hwalk
          have h2 := ih _ _ _ _ _ _ h
          rw [sortCand_peers] at h1
          refine ⟨h2.1.trans h1.1, ?_⟩
          have h3 : s2.cand.Perm (sortCand p none s).cand := by
            rw [h1.2]
          exact (h2.2.trans h3).trans (sortCand_cand_perm p none s)

theorem rebalanceChunk_frame (p : RSPiece) (c : Nat) (prePeers : List Nat)
    (s s' : AllocSt) (el : Bool)
    (h : rebalanceChunk p c prePeers s = some (s', el)) :
    s'.peers.length = s.peers.length ∧ s'.cand.Perm s.cand := by
  simp only [rebalanceChunk] at h
  split at h
  · cases h
  · rename_i s4 hwalk
    simp only [Option.some.injEq, Prod.mk.injEq] at h
    obtain ⟨rfl, rfl⟩ := h
    have h1 := assignWalk_frame p (reqIx p c) _ _ _ hwalk
    constructor
    · rw [h1.1, foldUpd_length, sortCand_peers, foldUpd_length]
    · have h2 : s4.cand = (sortCand p (some (reqIx p c))
          (foldUpd (fun pr => { pr with requestsInPiece :=
            pr.requestsInPiece - 1 }) prePeers s)).cand := by
        rw [h1.2, foldUpd_cand]
      have h3 := sortCand_cand_perm p (some (reqIx p c))
        (foldUpd (fun pr => { pr with requestsInPiece :=
          pr.requestsInPiece - 1 }) prePeers s)
      rw [foldUpd_cand] at h3
      rw [h2]
      exact h3

theorem rebalancePass_frame (p : RSPiece) (pre : Nat → List Nat) :
    ∀ (cs : List Nat) (s : AllocSt) (k : Int) (log : List (Nat × Bool))
      (s' : AllocSt) (k' : Int) (log' : List (Nat × Bool)),
      rebalancePass p pre s k log cs = some (s', k', log') →
      s'.peers.length = s.peers.length ∧ s'.cand.Perm s.cand := by
  intro cs
  induction cs with
  | nil =>
    intro s k log s' k' log' h
    simp only [rebalancePass, Option.some.injEq, Prod.mk.injEq] at h
    obtain ⟨rfl, rfl, rfl⟩ := h
    exact ⟨rfl, List.Perm.refl _⟩
  | cons c cs ih =>
    intro s k log s' k' log' h
    simp only [rebalancePass] at h
    split at h
    · exact ih _ _ _ _ _ _ h
    · cases hrc : rebalanceChunk p c (pre c) s with
      | none =>
        rw [hrc] at h
        cases h
      | some out =>
        obtain ⟨s1, el⟩ := out
        rw [hrc] at h
        have h1 := rebalanceChunk_frame p c (pre c) s s1 el hrc
        have h2 := ih _ _ _ _ _ _ h
        exact ⟨h2.1.trans h1.1, h2.2.trans h1.2⟩

/-- Remaining-count and core fields after `allocRun`: pointwise identical
to the post-collection state, and the candidate list is a permutation of
the collected one with the same peer-slice length. -/
theorem allocRun_frame (p : RSPiece) (peers : List RSPeer) (out : AllocOut)
    (h : allocRun p peers = some out) :
    (∀ i, sameCore (peerAt (collectCands p peers).peers i)
      (peerAt out.state.peers i)) ∧
    out.state.cand.Perm (collectCands p peers).cand ∧
    out.state.peers.length = (collectCands p peers).peers.length := by
  simp only [allocRun] at h
  split at h
  · cases h
  rename_i s1 pre1 hpre
  split at h
  · cases h
  rename_i s2 k2 log2 hfresh
  split at h
  · cases h
  rename_i s3 k3 log3 hreb
  injection h with h
  subst h
  have f1 := preallocPass_frame p p.pendingChunks (collectCands p peers)
    (fun _ => []) s1 pre1 hpre
  have f2 := freshPass_frame p pre1 p.pendingChunks s1 _ [] s2 k2 log2 hfresh
  have f3 := rebalancePass_frame p pre1 (List.range p.chunksPerPiece)
    s2 k2 log2 s3 k3 log3 hreb
  refine ⟨?_, ?_, ?_⟩
  · intro i
    have h1 := preallocPass_passOK p p.pendingChunks (collectCands p peers)
      (fun _ => []) s1 pre1 hpre i
    have h2 := freshPass_passOK p pre1 p.pendingChunks s1
      (p.numPendingChunks : Int) [] s2 k2 log2 hfresh i
    have h3 := rebalancePass_passOK p pre1 (List.range p.chunksPerPiece)
      s2 k2 log2 s3 k3 log3 hreb i
    exact sameCore_trans h1.1 (sameCore_trans h2.1 h3.1)
  · have hc1 : s1.cand = (collectCands p peers).cand := f1.2
    refine f3.2.trans ?_
    refine f2.2.trans ?_
    rw [hc1]
  · rw [f3.1, f2.1, f1.1]

/-- The per-peer effect of candidate collection on the peer it visits. -/
def collUpd (p : RSPiece) (pr : RSPeer) : RSPeer :=
  if pr.canReqPiece p.index = false then pr
  else if canFitRequest pr = false then
    { pr with requestablePiecesRemaining := pr.requestablePiecesRemaining - 1 }
  else { pr with requestsInPiece := 0 }

theorem collectBody_facts (p : RSPiece) (s : AllocSt) (j : Nat) :
    (collectBody p s j).peers.length = s.peers.length ∧
    (∀ i, i ≠ j → peerAt (collectBody p s j).peers i = peerAt s.peers i) ∧
    (j < s.peers.length →
      peerAt (collectBody p s j).peers j = collUpd p (peerAt s.peers j)) ∧
    (collectBody p s j).cand = s.cand ++
      (if ((peerAt s.peers j).canReqPiece p.index &&
          canFitRequest (peerAt s.peers j)) then [j] else []) := by
  have hpr : s.peers.getD j default = peerAt s.peers j := rfl
  by_cases hr : (peerAt s.peers j).canReqPiece p.index = false
  · have hb : (collectBody p s j) = s := by
      simp only [collectBody, hpr, hr]
      rfl
    rw [hb]
    refine ⟨rfl, fun i _ => rfl, fun hj => ?_, ?_⟩
    · unfold collUpd
      rw [if_pos hr]
    · rw [hr]
      simp
  · have hr' : (peerAt s.peers j).canReqPiece p.index = true := by
      cases hrr : (peerAt s.peers j).canReqPiece p.index
      · exact absurd hrr hr
      · rfl
    by_cases hf : canFitRequest (peerAt s.peers j) = false
    · have hb : (collectBody p s j) =
          { s with peers := (s.peers.set j
              { peerAt s.peers j with requestablePiecesRemaining :=
                  (peerAt s.peers j).requestablePiecesRemaining - 1 }) } := by
        simp only [collectBody, hpr, hr', hf]
        rfl
      rw [hb]
      refine ⟨by simp, fun i hij => peerAt_set_ne _ _ _ _ (fun hji => hij hji.symm),
        fun hj => ?_, ?_⟩
      · show peerAt (s.peers.set j
            { peerAt s.peers j with requestablePiecesRemaining :=
                (peerAt s.peers j).requestablePiecesRemaining - 1 }) j = _
        rw [peerAt_set_self _ _ _ hj]
        unfold collUpd
        rw [if_neg (by rw [hr']; exact fun hcon => by cases hcon), if_pos hf]
      · show s.cand = _
        rw [hr', hf]
        simp
    · have hf' : canFitRequest (peerAt s.peers j) = true := by
        cases hff : canFitRequest (peerAt s.peers j)
        · exact absurd hff hf
        · rfl
      have hb : (collectBody p s j) =
          { peers := (s.peers.set j
              { peerAt s.peers j with requestsInPiece := 0 }),
            cand := s.cand ++ [j] } := by
        simp only [collectBody, hpr, hr', hf']
        rfl
      rw [hb]
      refine ⟨by simp, fun i hij => peerAt_set_ne _ _ _ _ (fun hji => hij hji.symm),
        fun hj => ?_, ?_⟩
      · show peerAt (s.peers.set j
            { peerAt s.peers j with requestsInPiece := 0 }) j = _
        rw [peerAt_set_self _ _ _ hj]
        unfold collUpd
        rw [if_neg (by rw [hr']; exact fun hcon => by cases hcon), if_neg (by
          rw [hf']; exact fun hcon => by cases hcon)]
      · show s.cand ++ [j] = _
        rw [hr', hf']
        simp

theorem collectLoop_spec (p : RSPiece) :
    ∀ (l : List Nat), l.Nodup →
      ∀ (s : AllocSt), (∀ i ∈ l, i < s.peers.length) →
      ((l.foldl (collectBody p) s).peers.length = s.peers.length) ∧
      (∀ i, i ∉ l →
        peerAt (l.foldl (collectBody p) s).peers i = peerAt s.peers i) ∧
      (∀ i ∈ l, peerAt (l.foldl (collectBody p) s).peers i =
        collUpd p (peerAt s.peers i)) ∧
      ((l.foldl (collectBody p) s).cand = s.cand ++ l.filter (fun i =>
        (peerAt s.peers i).canReqPiece p.index &&
          canFitRequest (peerAt s.peers i))) := by
  intro l
  induction l with
  | nil =>
    intro _ s _
    exact ⟨rfl, fun i _ => rfl, fun i hi => absurd hi (List.not_mem_nil i),
      by simp⟩
  | cons j js ih =>
    intro hnd s hb
    have hjnotin : j ∉ js := (List.nodup_cons.mp hnd).1
    have hndjs : js.Nodup := (List.nodup_cons.mp hnd).2
    have hjlen : j < s.peers.length := hb j (List.mem_cons_self _ _)
    obtain ⟨hlen1, hne1, hj1, hcand1⟩ := collectBody_facts p s j
    have hbjs : ∀ i ∈ js, i < (collectBody p s j).peers.length := by
      intro i hi
      rw [hlen1]
      exact hb i (List.mem_cons_of_mem _ hi)
    have hsame : ∀ i ∈ js, peerAt (collectBody p s j).peers i = peerAt s.peers i := by
      intro i hi
      exact hne1 i (fun hij => hjnotin (hij ▸ hi))
    obtain ⟨ihlen, ihne, ihupd, ihcand⟩ := ih hndjs (collectBody p s j) hbjs
    have hfold : (j :: js).foldl (collectBody p) s =
        js.foldl (collectBody p) (collectBody p s j) := rfl
    rw [hfold]
    refine ⟨ihlen.trans hlen1, ?_, ?_, ?_⟩
    · intro i hi
      have hij : i ≠ j := fun hij => hi (hij ▸ List.mem_cons_self _ _)
      have hijs : i ∉ js := fun hijs => hi (List.mem_cons_of_mem _ hijs)
      rw [ihne i hijs]
      exact hne1 i hij
    · intro i hi
      rcases List.mem_cons.mp hi with hij | hijs
      · subst hij
        rw [ihne i hjnotin]
        exact hj1 hjlen
      · rw [ihupd i hijs, hsame i hijs]
    · rw [ihcand, hcand1]
      have hfc : js.filter (fun i =>
          (peerAt (collectBody p s j).peers i).canReqPiece p.index &&
            canFitRequest (peerAt (collectBody p s j).peers i)) =
          js.filter (fun i =>
            (peerAt s.peers i).canReqPiece p.index &&
              canFitRequest (peerAt s.peers i)) := by
        apply List.filter_congr
        intro i hi
        rw [hsame i hi]
      rw [hfc]
      rw [List.filter_cons]
      by_cases hp : ((peerAt s.peers j).canReqPiece p.index &&
          canFitRequest (peerAt s.peers j)) = true
      · rw [if_pos hp, hp]
        simp
      · rw [if_neg hp]
        have hp' : ((peerAt s.peers j).canReqPiece p.index &&
            canFitRequest (peerAt s.peers j)) = false := by
          cases hpp : ((peerAt s.peers j).canReqPiece p.index &&
              canFitRequest (peerAt s.peers j))
          · rfl
          · exact absurd hpp hp
        rw [hp']
        simp

theorem collectCands_spec (p : RSPiece) (peers : List RSPeer) :
    ((collectCands p peers).peers.length = peers.length) ∧
    (∀ i, i < peers.length →
      peerAt (collectCands p peers).peers i = collUpd p (peerAt peers i)) ∧
    (∀ i, ¬ i < peers.length →
      peerAt (collectCands p peers).peers i = peerAt peers i) ∧
    ((collectCands p peers).cand = (List.range peers.length).filter (fun i =>
      (peerAt peers i).canReqPiece p.index &&
        canFitRequest (peerAt peers i))) := by
  have h := collectLoop_spec p (List.range peers.length) (List.nodup_range _)
    ⟨peers, []⟩ (fun i hi => List.mem_range.mp hi)
  obtain ⟨h1, h2, h3, h4⟩ := h
  refine ⟨h1, ?_, ?_, ?_⟩
  · intro i hi
    exact h3 i (List.mem_range.mpr hi)
  · intro i hi
    exact h2 i (fun hm => hi (List.mem_range.mp hm))
  · unfold collectCands
    rw [h4]
    simp

theorem foldUpd_spec (g : RSPeer → RSPeer) :
    ∀ (l : List Nat), l.Nodup → ∀ (s : AllocSt),
      (∀ i, i ∉ l → peerAt (foldUpd g l s).peers i = peerAt s.peers i) ∧
      (∀ i ∈ l, i < s.peers.length →
        peerAt (foldUpd g l s).peers i = g (peerAt s.peers i)) := by
  intro l
  induction l with
  | nil =>
    intro _ s
    exact ⟨fun i _ => rfl, fun i hi => absurd hi (List.not_mem_nil i)⟩
  | cons j js ih =>
    intro hnd s
    have hjnotin : j ∉ js := (List.nodup_cons.mp hnd).1
    have hndjs : js.Nodup := (List.nodup_cons.mp hnd).2
    have hfold : foldUpd g (j :: js) s =
        foldUpd g js { s with peers := (s.peers.set j
          (g (s.peers.getD j default))) } := rfl
    obtain ⟨ihne, ihupd⟩ := ih hndjs
      { s with peers := s.peers.set j (g (s.peers.getD j default)) }
    rw [hfold]
    constructor
    · intro i hi
      have hij : i ≠ j := fun hij => hi (hij ▸ List.mem_cons_self _ _)
      have hijs : i ∉ js := fun hijs => hi (List.mem_cons_of_mem _ hijs)
      rw [ihne i hijs]
      exact peerAt_set_ne _ _ _ _ (fun hji => hij hji.symm)
    · intro i hi hlen
      rcases List.mem_cons.mp hi with hij | hijs
      · subst hij
        rw [ihne i hjnotin]
        exact peerAt_set_self _ _ _ hlen
      · rw [ihupd i hijs (by simpa using hlen)]
        congr 1
        exact peerAt_set_ne _ _ _ _ (fun hji =>
          hjnotin (hji ▸ hijs))

/-- C10: one call of `allocatePendingChunks` decrements
`requestablePiecesRemaining` by exactly one for every peer that can request
the piece (whether dropped at its cap or made a candidate, requests or
not), and leaves it unchanged for every other peer. -/
theorem claim_C10_remaining_frame (p : RSPiece) (peers peers' : List RSPeer)
    (h : allocatePendingChunks p peers = some peers') (i : Nat)
    (hi : i < peers.length) :
    (peerAt peers' i).requestablePiecesRemaining =
      (peerAt peers i).requestablePiecesRemaining -
        (if (peerAt peers i).canReqPiece p.index = true then 1 else 0) := by
  simp only [allocatePendingChunks] at h
  split at h
  · cases h
  rename_i out hrun
  split at h
  · cases h
  injection h with h
  subst h
  obtain ⟨hsame, hperm, hlen⟩ := allocRun_frame p peers out hrun
  obtain ⟨hclen, hcupd, hcout, hccand⟩ := collectCands_spec p peers
  have hnd0 : (collectCands p peers).cand.Nodup := by
    rw [hccand]
    exact (List.nodup_range _).filter _
  have hndout : out.state.cand.Nodup := hperm.nodup_iff.mpr hnd0
  obtain ⟨hdne, hdupd⟩ := foldUpd_spec
    (fun pr => { pr with requestablePiecesRemaining :=
        pr.requestablePiecesRemaining - 1 }) out.state.cand hndout out.state
  have hrem_run : (peerAt out.state.peers i).requestablePiecesRemaining =
      (peerAt (collectCands p peers).peers i).requestablePiecesRemaining :=
    (hsame i).2.2.2.2.2.2.2.2
  have hcoll := hcupd i hi
  have hmem0 : ∀ x, x ∈ (collectCands p peers).cand ↔
      (x < peers.length ∧ ((peerAt peers x).canReqPiece p.index &&
        canFitRequest (peerAt peers x)) = true) := by
    intro x
    rw [hccand, List.mem_filter, List.mem_range]
  have hboundout : i < out.state.peers.length := by
    rw [hlen, hclen]
    exact hi
  show (peerAt (deferDecrements out.state) i).requestablePiecesRemaining = _
  unfold deferDecrements
  by_cases hcr : (peerAt peers i).canReqPiece p.index = true
  · rw [if_pos hcr]
    by_cases hfit : canFitRequest (peerAt peers i) = true
    · have hmem : i ∈ out.state.cand := by
        rw [hperm.mem_iff, hmem0 i]
        exact ⟨hi, by rw [hcr, hfit]; rfl⟩
      rw [hdupd i hmem hboundout]
      show (peerAt out.state.peers i).requestablePiecesRemaining - 1 = _
      rw [hrem_run, hcoll]
      unfold collUpd
      rw [if_neg (by rw [hcr]; exact fun hcon => by cases hcon), if_neg (by
        rw [hfit]; exact fun hcon => by cases hcon)]
    · have hfit' : canFitRequest (peerAt peers i) = false := by
        cases hff : canFitRequest (peerAt peers i)
        · rfl
        · exact absurd hff hfit
      have hmem : i ∉ out.state.cand := by
        rw [hperm.mem_iff, hmem0 i]
        rintro ⟨_, hpp⟩
        rw [hcr, hfit'] at hpp
        cases hpp
      rw [hdne i hmem, hrem_run, hcoll]
      unfold collUpd
      rw [if_neg (by rw [hcr]; exact fun hcon => by cases hcon), if_pos hfit']
  · have hcr' : (peerAt peers i).canReqPiece p.index = false := by
      cases hcc : (peerAt peers i).canReqPiece p.index
      · rfl
      · exact absurd hcc hcr
    rw [if_neg hcr]
    have hmem : i ∉ out.state.cand := by
      rw [hperm.mem_iff, hmem0 i]
      rintro ⟨_, hpp⟩
      rw [hcr'] at hpp
      cases hpp
    rw [hdne i hmem, hrem_run, hcoll]
    unfold collUpd
    rw [if_pos hcr']
    omega

/-- Witness for C10 at the concrete one-piece, one-peer input. -/
theorem claim_C10_witness :
    (allocatePendingChunks wPiece [wPeer]).isSome = true ∧
    (peerAt ((allocatePendingChunks wPiece [wPeer]).getD []) 0).requestablePiecesRemaining =
      (peerAt [wPeer] 0).requestablePiecesRemaining -
        (if (peerAt [wPeer] 0).canReqPiece wPiece.index = true then 1 else 0) := by
  have hs : (allocatePendingChunks wPiece [wPeer]).isSome = true := by decide
  have h : allocatePendingChunks wPiece [wPeer] =
      some ((allocatePendingChunks wPiece [wPeer]).getD []) := by
    rcases hx : allocatePendingChunks wPiece [wPeer] with _ | v
    · rw [hx] at hs
      cases hs
    · rfl
  exact ⟨hs, claim_C10_remaining_frame wPiece [wPeer] _ h 0 (by decide)⟩

/-! ## C3: per-chunk assignment characterization -/

/-- Peer `i` holds request `r` in its `NextRequests`. -/
def hasReq (s : AllocSt) (r i : Nat) : Prop :=
  r ∈ (peerAt s.peers i).nextRequests

instance (s : AllocSt) (r i : Nat) : Decidable (hasReq s r i) := by
  unfold hasReq
  infer_instance

theorem hasReq_set_iff (s : AllocSt) (j : Nat) (x : RSPeer) (r i : Nat) :
    hasReq { s with peers := s.peers.set j x } r i ↔
      (if j = i ∧ j < s.peers.length then r ∈ x.nextRequests
       else hasReq s r i) := by
  unfold hasReq
  show r ∈ (peerAt (s.peers.set j x) i).nextRequests ↔ _
  rw [peerAt_set]
  by_cases hc : j = i ∧ j < s.peers.length
  · rw [if_pos hc, if_pos hc]
  · rw [if_neg hc, if_neg hc]

theorem foldUpd_mem_iff (g : RSPeer → RSPeer) (r : Nat)
    (hg : ∀ pr, r ∈ (g pr).nextRequests ↔ r ∈ pr.nextRequests) :
    ∀ (l : List Nat) (s : AllocSt) (i : Nat),
      hasReq (foldUpd g l s) r i ↔ hasReq s r i := by
  intro l
  induction l with
  | nil => intro s i; rfl
  | cons j js ih =>
    intro s i
    have hfold : foldUpd g (j :: js) s =
        foldUpd g js { s with peers := (s.peers.set j
          (g (s.peers.getD j default))) } := rfl
    rw [hfold, ih]
    rw [hasReq_set_iff]
    by_cases hc : j = i ∧ j < s.peers.length
    · rw [if_pos hc]
      obtain ⟨hj, _⟩ := hc
      subst hj
      exact hg _
    · rw [if_neg hc]

theorem foldUpd_erase_clears (req : Nat) :
    ∀ (l : List Nat) (s : AllocSt),
      (∀ i ∈ l, i < s.peers.length) →
      (∀ i, hasReq s req i → i ∈ l) →
      ∀ i, ¬ hasReq (foldUpd
        (fun pr => { pr with nextRequests := pr.nextRequests.erase req })
        l s) req i := by
  intro l
  induction l with
  | nil =>
    intro s _ hh i hs
    exact absurd (hh i hs) (List.not_mem_nil i)
  | cons j js ih =>
    intro s hb hh i hs
    have hfold : foldUpd
        (fun pr => { pr with nextRequests := pr.nextRequests.erase req })
        (j :: js) s = foldUpd
        (fun pr => { pr with nextRequests := pr.nextRequests.erase req })
        js { s with peers := (s.peers.set j
          { s.peers.getD j default with nextRequests :=
              (s.peers.getD j default).nextRequests.erase req }) } := rfl
    rw [hfold] at hs
    refine ih _ ?_ ?_ i hs
    · intro i' hi'
      simpa using hb i' (List.mem_cons_of_mem _ hi')
    · intro i' hi'
      rw [hasReq_set_iff] at hi'
      by_cases hc : j = i' ∧ j < s.peers.length
      · rw [if_pos hc] at hi'
        exact absurd hi' (by
          simp only [Finset.mem_erase]
          rintro ⟨hne, _⟩
          exact hne rfl)
      · rw [if_neg hc] at hi'
        have := hh i' hi'
        rcases List.mem_cons.mp this with hji | hji
        · exfalso
          apply hc
          refine ⟨hji.symm, ?_⟩
          exact hji ▸ hb i' this
        · exact hji

theorem preallocChunkPeers_mem (req : Nat) :
    ∀ (l : List Nat) (s s' : AllocSt) (res : List Nat),
      (∀ i ∈ l, i < s.peers.length) →
      preallocChunkPeers req s l = some (s', res) →
      (∀ r, r ≠ req → ∀ i, (hasReq s' r i ↔ hasReq s r i)) ∧
      (∀ i, hasReq s' req i ↔ (hasReq s req i ∨ i ∈ res)) ∧
      (∀ i ∈ res, i ∈ l) := by
  intro l
  induction l with
  | nil =>
    intro s s' res _ h
    simp only [preallocChunkPeers, Option.some.injEq, Prod.mk.injEq] at h
    obtain ⟨rfl, rfl⟩ := h
    exact ⟨fun r _ i => Iff.rfl, fun i => by simp, fun i hi => absurd hi (List.not_mem_nil i)⟩
  | cons j js ih =>
    intro s s' res hb h
    simp only [preallocChunkPeers] at h
    split at h
    · rename_i hcond
      split at h
      · cases h
      · rename_i pr' hadd
        split at h
        · cases h
        · rename_i s2 l2 hrec
          simp only [Option.some.injEq, Prod.mk.injEq] at h
          obtain ⟨rfl, rfl⟩ := h
          have hjlen : j < s.peers.length := hb j (List.mem_cons_self _ _)
          unfold addNextRequestP at hadd
          split at hadd
          · cases hadd
          · rename_i hnomem
            injection hadd with hadd
            have hb1 : ∀ i ∈ js, i <
                ({ s with peers := s.peers.set j pr' } : AllocSt).peers.length := by
              intro i hi
              simpa using hb i (List.mem_cons_of_mem _ hi)
            obtain ⟨ihfr, ihreq, ihsub⟩ := ih _ _ _ hb1 hrec
            refine ⟨?_, ?_, ?_⟩
            · intro r hr i
              rw [ihfr r hr i, hasReq_set_iff]
              by_cases hc : j = i ∧ j < s.peers.length
              · rw [if_pos hc]
                obtain ⟨hj, _⟩ := hc
                subst hj
                rw [← hadd]
                show r ∈ insert req (s.peers.getD j default).nextRequests ↔ _
                rw [Finset.mem_insert]
                constructor
                · rintro (hre | hm)
                  · exact absurd hre hr
                  · exact hm
                · exact fun hm => Or.inr hm
              · rw [if_neg hc]
            · intro i
              rw [ihreq i, hasReq_set_iff]
              by_cases hc : j = i ∧ j < s.peers.length
              · rw [if_pos hc]
                obtain ⟨hj, _⟩ := hc
                subst hj
                rw [← hadd]
                show (req ∈ insert req (s.peers.getD j default).nextRequests ∨ _) ↔ _
                simp only [Finset.mem_insert]
                constructor
                · intro _
                  exact Or.inr (List.mem_cons_self _ _)
                · intro _
                  exact Or.inl (Or.inl (by trivial))
              · rw [if_neg hc]
                constructor
                · rintro (hm | hm)
                  · exact Or.inl hm
                  · exact Or.inr (List.mem_cons_of_mem _ hm)
                · rintro (hm | hm)
                  · exact Or.inl hm
                  · rcases List.mem_cons.mp hm with hij | hij
                    · exfalso
                      exact hc ⟨hij.symm, hjlen⟩
                    · exact Or.inr hij
            · intro i hi
              rcases List.mem_cons.mp hi with hij | hij
              · exact hij ▸ List.mem_cons_self _ _
              · exact List.mem_cons_of_mem _ (ihsub i hij)
    · obtain ⟨ihfr, ihreq, ihsub⟩ := ih _ _ _
        (fun i hi => hb i (List.mem_cons_of_mem _ hi)) h
      exact ⟨ihfr, ihreq, fun i hi => List.mem_cons_of_mem _ (ihsub i hi)⟩

theorem preallocPass_pre_frame (p : RSPiece) :
    ∀ (cs : List Nat) (s : AllocSt) (pre : Nat → List Nat)
      (s' : AllocSt) (pre' : Nat → List Nat),
      preallocPass p s pre cs = some (s', pre') →
      ∀ c, c ∉ cs → pre' c = pre c := by
  intro cs
  induction cs with
  | nil =>
    intro s pre s' pre' h c _
    simp only [preallocPass, Option.some.injEq, Prod.mk.injEq] at h
    obtain ⟨rfl, rfl⟩ := h
    rfl
  | cons c0 cs ih =>
    intro s pre s' pre' h c hc
    have hcc : c ≠ c0 := fun hcc => hc (hcc ▸ List.mem_cons_self _ _)
    have hcs : c ∉ cs := fun hcs => hc (List.mem_cons_of_mem _ hcs)
    simp only [preallocPass] at h
    split at h
    · cases h
    · rename_i s1 l1 hpc
      split at h
      · exact ih _ _ _ _ h c hcs
      · split at h
        · cases h
        · rw [ih _ _ _ _ h c hcs]
          rw [if_neg hcc]

theorem preallocPass_mem_frame (p : RSPiece) :
    ∀ (cs : List Nat) (s : AllocSt) (pre : Nat → List Nat)
      (s' : AllocSt) (pre' : Nat → List Nat),
      (∀ i ∈ s.cand, i < s.peers.length) →
      preallocPass p s pre cs = some (s', pre') →
      ∀ r, (∀ c ∈ cs, r ≠ reqIx p c) →
      ∀ i, hasReq s' r i ↔ hasReq s r i := by
  intro cs
  induction cs with
  | nil =>
    intro s pre s' pre' _ h r _ i
    simp only [preallocPass, Option.some.injEq, Prod.mk.injEq] at h
    obtain ⟨rfl, rfl⟩ := h
    rfl
  | cons c0 cs ih =>
    intro s pre s' pre' hb h r hr i
    simp only [preallocPass] at h
    split at h
    · cases h
    · rename_i s1 l1 hpc
      obtain ⟨hfr, _, _⟩ := preallocChunkPeers_mem (reqIx p c0) s.cand s s1 l1 hb hpc
      have hfr0 := hfr r (hr c0 (List.mem_cons_self _ _)) i
      obtain ⟨hlen1, hcand1⟩ := preallocChunkPeers_frame (reqIx p c0) s.cand s s1 l1 hpc
      have hb1 : ∀ i ∈ s1.cand, i < s1.peers.length := by
        intro i hi
        rw [hlen1]
        exact hb i (hcand1 ▸ hi)
      have hrcs : ∀ c ∈ cs, r ≠ reqIx p c :=
        fun c hc => hr c (List.mem_cons_of_mem _ hc)
      split at h
      · rw [ih _ _ _ _ hb1 h r hrcs i]
        exact hfr0
      · split at h
        · cases h
        · rw [ih _ _ _ _ hb1 h r hrcs i]
          exact hfr0

theorem preallocPass_chunk (p : RSPiece) :
    ∀ (cs : List Nat) (s : AllocSt) (pre : Nat → List Nat)
      (s' : AllocSt) (pre' : Nat → List Nat) (c0 : Nat),
      cs.Nodup →
      (∀ c1 ∈ cs, ∀ c2 ∈ cs, reqIx p c1 = reqIx p c2 → c1 = c2) →
      (∀ i ∈ s.cand, i < s.peers.length) →
      c0 ∈ cs → pre c0 = [] →
      (∀ i, ¬ hasReq s (reqIx p c0) i) →
      preallocPass p s pre cs = some (s', pre') →
      (∀ i, hasReq s' (reqIx p c0) i ↔ i ∈ pre' c0) ∧
      (∀ i ∈ pre' c0, i ∈ s.cand) := by
  intro cs
  induction cs with
  | nil =>
    intro s pre s' pre' c0 _ _ _ hc0 _ _ _
    exact absurd hc0 (List.not_mem_nil c0)
  | cons c cs ih =>
    intro s pre s' pre' c0 hnd hinj hb hc0 hpre0 hnoh h
    have hndc : c ∉ cs := (List.nodup_cons.mp hnd).1
    have hndcs : cs.Nodup := (List.nodup_cons.mp hnd).2
    simp only [preallocPass] at h
    split at h
    · cases h
    · rename_i s1 l1 hpc
      obtain ⟨hfr, hreqm, hsub⟩ :=
        preallocChunkPeers_mem (reqIx p c) s.cand s s1 l1 hb hpc
      obtain ⟨hlen1, hcand1⟩ := preallocChunkPeers_frame (reqIx p c) s.cand s s1 l1 hpc
      have hb1 : ∀ i ∈ s1.cand, i < s1.peers.length := by
        intro i hi
        rw [hlen1]
        exact hb i (hcand1 ▸ hi)
      rcases List.mem_cons.mp hc0 with hceq | hcs
      · -- the chunk being characterized is scanned right now
        subst hceq
        have hc0notcs : c0 ∉ cs := hndc
        have hs1m : ∀ i, hasReq s1 (reqIx p c0) i ↔ i ∈ l1 := by
          intro i
          rw [hreqm i]
          constructor
          · rintro (hm | hm)
            · exact absurd hm (hnoh i)
            · exact hm
          · exact fun hm => Or.inr hm
        have hrfr : ∀ c' ∈ cs, reqIx p c0 ≠ reqIx p c' := by
          intro c' hc' heq
          have := hinj c0 (List.mem_cons_self _ _) c'
            (List.mem_cons_of_mem _ hc') heq
          exact hc0notcs (this ▸ hc')
        split at h
        · rename_i hl1
          subst hl1
          have hfinal : ∀ i, hasReq s' (reqIx p c0) i ↔ i ∈ ([] : List Nat) := by
            intro i
            rw [preallocPass_mem_frame p cs s1 pre s' pre' hb1 h
              (reqIx p c0) hrfr i, hs1m i]
          have hprf : pre' c0 = pre c0 := preallocPass_pre_frame p cs s1 pre
            s' pre' h c0 hc0notcs
          rw [hprf, hpre0]
          exact ⟨hfinal, fun i hi => absurd hi (List.not_mem_nil i)⟩
        · split at h
          · cases h
          · have hprf : pre' c0 = pre c0 ++ l1 := by
              rw [preallocPass_pre_frame p cs s1 _ s' pre' h c0 hc0notcs]
              rw [if_pos rfl]
            rw [hprf, hpre0]
            constructor
            · intro i
              rw [preallocPass_mem_frame p cs s1 _ s' pre' hb1 h
                (reqIx p c0) hrfr i, hs1m i]
              simp
            · intro i hi
              simp only [List.nil_append] at hi
              exact hsub i hi
      · -- a different chunk is scanned first
        have hcne : c0 ≠ c := fun hce => hndc (hce ▸ hcs)
        have hrne : reqIx p c0 ≠ reqIx p c := by
          intro heq
          exact hcne (hinj c0 hc0 c (List.mem_cons_self _ _) heq)
        have hnoh1 : ∀ i, ¬ hasReq s1 (reqIx p c0) i := by
          intro i hi
          rw [hfr (reqIx p c0) hrne i] at hi
          exact hnoh i hi
        have hinj' : ∀ c1 ∈ cs, ∀ c2 ∈ cs, reqIx p c1 = reqIx p c2 → c1 = c2 :=
          fun c1 h1 c2 h2 => hinj c1 (List.mem_cons_of_mem _ h1) c2
            (List.mem_cons_of_mem _ h2)
        split at h
        · have := ih s1 pre s' pre' c0 hndcs hinj' hb1 hcs hpre0 hnoh1 h
          refine ⟨this.1, fun i hi => ?_⟩
          rw [← hcand1]
          exact this.2 i hi
        · split at h
          · cases h
          · have hpre0' : (fun c' => if c' = c then pre c' ++ l1 else pre c') c0
                = [] := by
              show (if c0 = c then pre c0 ++ l1 else pre c0) = []
              rw [if_neg hcne]
              exact hpre0
            have := ih s1 _ s' pre' c0 hndcs hinj' hb1 hcs hpre0' hnoh1 h
            refine ⟨this.1, fun i hi => ?_⟩
            rw [← hcand1]
            exact this.2 i hi

/-- The walk predicate: the candidate has spare capacity and is not
blocked by choking without allowed-fast. -/
def walkPred (p : RSPiece) (s : AllocSt) (i : Nat) : Prop :=
  canFitRequest (peerAt s.peers i) = true ∧
  (p.index ∈ (peerAt s.peers i).allowedFast ∨ (peerAt s.peers i).choking = false)

theorem walkPred_interested (p : RSPiece) (s : AllocSt) (j : Nat) (i : Nat) :
    walkPred p { s with peers := (s.peers.set j
      { s.peers.getD j default with interested := true }) } i ↔
    walkPred p s i := by
  unfold walkPred
  show (canFitRequest (peerAt (s.peers.set j _) i) = true ∧ _) ↔ _
  rw [peerAt_set]
  by_cases hc : j = i ∧ j < s.peers.length
  · rw [if_pos hc]
    obtain ⟨hj, _⟩ := hc
    subst hj
    rfl
  · rw [if_neg hc]

theorem hasReq_interested (s : AllocSt) (j : Nat) (r i : Nat) :
    hasReq { s with peers := (s.peers.set j
      { s.peers.getD j default with interested := true }) } r i ↔
    hasReq s r i := by
  rw [hasReq_set_iff]
  by_cases hc : j = i ∧ j < s.peers.length
  · rw [if_pos hc]
    obtain ⟨hj, _⟩ := hc
    subst hj
    rfl
  · rw [if_neg hc]

theorem assignWalk_mem (p : RSPiece) (req : Nat) :
    ∀ (l : List Nat) (s s' : AllocSt),
      (∀ i ∈ l, i < s.peers.length) →
      assignWalk p req s l = some s' →
      ∃ w : Option Nat,
        (∀ r, r ≠ req → ∀ i, (hasReq s' r i ↔ hasReq s r i)) ∧
        (∀ i, hasReq s' req i ↔ (hasReq s req i ∨ w = some i)) ∧
        (w.isSome = true ↔ ∃ i ∈ l, walkPred p s i) := by
  intro l
  induction l with
  | nil =>
    intro s s' _ h
    simp only [assignWalk, Option.some.injEq] at h
    subst h
    refine ⟨none, fun r _ i => Iff.rfl, fun i => by simp, ?_⟩
    simp
  | cons j js ih =>
    intro s s' hb h
    have hjlen : j < s.peers.length := hb j (List.mem_cons_self _ _)
    simp only [assignWalk] at h
    split at h
    · -- the peer is full: recurse
      rename_i hfit
      obtain ⟨w, hfr, hreqm, hsome⟩ := ih s s'
        (fun i hi => hb i (List.mem_cons_of_mem _ hi)) h
      refine ⟨w, hfr, hreqm, ?_⟩
      rw [hsome]
      constructor
      · rintro ⟨i, hi, hp⟩
        exact ⟨i, List.mem_cons_of_mem _ hi, hp⟩
      · rintro ⟨i, hi, hp⟩
        rcases List.mem_cons.mp hi with hij | hij
        · exfalso
          subst hij
          have h2 : canFitRequest (s.peers.getD i default) = true := hp.1
          rw [h2] at hfit
          cases hfit
        · exact ⟨i, hij, hp⟩
    · rename_i hfit
      have hfit' : canFitRequest (s.peers.getD j default) = true := by
        cases hbb : canFitRequest (s.peers.getD j default)
        · exact absurd hbb hfit
        · rfl
      split at h
      · -- allowed fast: assign immediately
        rename_i hfast
        split at h
        · cases h
        · rename_i pr2 hadd
          injection h with h
          subst h
          unfold addNextRequestP at hadd
          split at hadd
          · cases hadd
          · rename_i hnomem
            injection hadd with hadd
            refine ⟨some j, ?_, ?_, ?_⟩
            · intro r hr i
              rw [hasReq_set_iff]
              by_cases hc : j = i ∧ j < s.peers.length
              · rw [if_pos hc]
                obtain ⟨hj, _⟩ := hc
                subst hj
                rw [← hadd]
                show r ∈ insert req (s.peers.getD j default).nextRequests ↔ _
                rw [Finset.mem_insert]
                constructor
                · rintro (hre | hm)
                  · exact absurd hre hr
                  · exact hm
                · exact fun hm => Or.inr hm
              · rw [if_neg hc]
            · intro i
              rw [hasReq_set_iff]
              by_cases hc : j = i ∧ j < s.peers.length
              · rw [if_pos hc]
                obtain ⟨hj, _⟩ := hc
                subst hj
                rw [← hadd]
                show req ∈ insert req (s.peers.getD j default).nextRequests ↔ _
                simp only [Finset.mem_insert]
                constructor
                · intro _
                  exact Or.inr (by trivial)
                · intro _
                  exact Or.inl (by trivial)
              · rw [if_neg hc]
                constructor
                · exact fun hm => Or.inl hm
                · rintro (hm | hm)
                  · exact hm
                  · exfalso
                    injection hm with hm
                    exact hc ⟨hm, hjlen⟩
            · constructor
              · intro _
                exact ⟨j, List.mem_cons_self _ _, hfit', Or.inl hfast⟩
              · intro _
                rfl
      · rename_i hfast
        split at h
        · -- choking without allowed-fast: mark interest, recurse
          rename_i hchoke
          obtain ⟨w, hfr, hreqm, hsome⟩ := ih _ s'
            (fun i hi => by simpa using hb i (List.mem_cons_of_mem _ hi)) h
          refine ⟨w, ?_, ?_, ?_⟩
          · intro r hr i
            rw [hfr r hr i, hasReq_interested]
          · intro i
            rw [hreqm i, hasReq_interested]
          · rw [hsome]
            constructor
            · rintro ⟨i, hi, hp⟩
              rw [walkPred_interested] at hp
              exact ⟨i, List.mem_cons_of_mem _ hi, hp⟩
            · rintro ⟨i, hi, hp⟩
              rcases List.mem_cons.mp hi with hij | hij
              · exfalso
                subst hij
                rcases hp.2 with hf | hcf
                · exact hfast hf
                · show False
                  have hck : (s.peers.getD i default).choking = true := hchoke
                  have hcf2 : (s.peers.getD i default).choking = false := hcf
                  rw [hcf2] at hck
                  cases hck
              · refine ⟨i, hij, ?_⟩
                rw [walkPred_interested]
                exact hp
        · -- not choking: mark interest and assign
          rename_i hchoke
          split at h
          · cases h
          · rename_i pr2 hadd
            injection h with h
            subst h
            unfold addNextRequestP at hadd
            split at hadd
            · cases hadd
            · rename_i hnomem
              injection hadd with hadd
              set s1 : AllocSt := { s with peers := (s.peers.set j
                { s.peers.getD j default with interested := true }) } with hs1
              have hpr1 : s1.peers.getD j default =
                  { s.peers.getD j default with interested := true } := by
                rw [hs1]
                show peerAt (s.peers.set j _) j = _
                rw [peerAt_set_self _ _ _ hjlen]
              refine ⟨some j, ?_, ?_, ?_⟩
              · intro r hr i
                show hasReq { s1 with peers := (s1.peers.set j pr2) } r i ↔
                  hasReq s r i
                rw [hasReq_set_iff]
                by_cases hc : j = i ∧ j < s1.peers.length
                · rw [if_pos hc]
                  obtain ⟨hj, _⟩ := hc
                  subst hj
                  rw [← hadd]
                  show r ∈ insert req (s.peers.getD j default).nextRequests ↔ _
                  rw [Finset.mem_insert]
                  constructor
                  · rintro (hre | hm)
                    · exact absurd hre hr
                    · exact hm
                  · exact fun hm => Or.inr hm
                · rw [if_neg hc]
                  rw [show hasReq s1 r i ↔ hasReq s r i from hasReq_interested s j r i]
              · intro i
                show hasReq { s1 with peers := (s1.peers.set j pr2) } req i ↔
                  (hasReq s req i ∨ some j = some i)
                rw [hasReq_set_iff]
                by_cases hc : j = i ∧ j < s1.peers.length
                · rw [if_pos hc]
                  obtain ⟨hj, _⟩ := hc
                  subst hj
                  rw [← hadd]
                  show req ∈ insert req (s.peers.getD j default).nextRequests ↔ _
                  simp only [Finset.mem_insert]
                  constructor
                  · intro _
                    exact Or.inr (by trivial)
                  · intro _
                    exact Or.inl (by trivial)
                · rw [if_neg hc]
                  rw [show hasReq s1 req i ↔ hasReq s req i from
                    hasReq_interested s j req i]
                  constructor
                  · exact fun hm => Or.inl hm
                  · rintro (hm | hm)
                    · exact hm
                    · exfalso
                      injection hm with hm
                      apply hc
                      refine ⟨hm, ?_⟩
                      rw [hs1]
                      simpa using hjlen
              · constructor
                · intro _
                  refine ⟨j, List.mem_cons_self _ _, hfit', Or.inr ?_⟩
                  cases hcc : (s.peers.getD j default).choking
                  · exact hcc
                  · exfalso
                    apply hchoke
                    show ({ s.peers.getD j default with
                      interested := true }).choking = true
                    exact hcc
                · intro _
                  rfl

theorem eligPred_iff (p : RSPiece) (s : AllocSt) :
    eligPred p s = true ↔ ∃ i ∈ s.cand, walkPred p s i := by
  unfold eligPred walkPred
  rw [List.any_eq_true]
  constructor
  · rintro ⟨i, hi, hp⟩
    simp only [Bool.and_eq_true, Bool.or_eq_true, decide_eq_true_eq,
      Bool.not_eq_true'] at hp
    exact ⟨i, hi, hp.1, by
      rcases hp.2 with h | h
      · exact Or.inl h
      · exact Or.inr h⟩
  · rintro ⟨i, hi, hfit, hok⟩
    refine ⟨i, hi, ?_⟩
    simp only [Bool.and_eq_true, Bool.or_eq_true, decide_eq_true_eq,
      Bool.not_eq_true']
    exact ⟨hfit, by
      rcases hok with h | h
      · exact Or.inl h
      · exact Or.inr h⟩

theorem freshPass_log (p : RSPiece) (pre : Nat → List Nat) :
    ∀ (cs : List Nat) (s : AllocSt) (k : Int) (log : List (Nat × Bool))
      (s' : AllocSt) (k' : Int) (log' : List (Nat × Bool)),
      freshPass p pre s k log cs = some (s', k', log') →
      ∃ nl, log' = log ++ nl ∧ ∀ e ∈ nl, e.1 ∈ cs ∧ pre e.1 = [] := by
  intro cs
  induction cs with
  | nil =>
    intro s k log s' k' log' h
    simp only [freshPass, Option.some.injEq, Prod.mk.injEq] at h
    obtain ⟨rfl, rfl, rfl⟩ := h
    exact ⟨[], by simp, fun e he => absurd he (List.not_mem_nil e)⟩
  | cons c cs ih =>
    intro s k log s' k' log' h
    simp only [freshPass] at h
    split at h
    · cases h
    · split at h
      · obtain ⟨nl, hnl, hmem⟩ := ih _ _ _ _ _ _ h
        exact ⟨nl, hnl, fun e he =>
          ⟨List.mem_cons_of_mem _ (hmem e he).1, (hmem e he).2⟩⟩
      · rename_i hpe
        have hpc : pre c = [] := by
          by_contra hne
          exact hpe hne
        split at h
        · cases h
        · obtain ⟨nl, hnl, hmem⟩ := ih _ _ _ _ _ _ h
          refine ⟨(c, eligPred p (sortCand p none s)) :: nl, ?_, ?_⟩
          · rw [hnl]
            simp
          · intro e he
            rcases List.mem_cons.mp he with he1 | he1
            · subst he1
              exact ⟨List.mem_cons_self _ _, hpc⟩
            · exact ⟨List.mem_cons_of_mem _ (hmem e he1).1, (hmem e he1).2⟩

theorem freshPass_mem_frame (p : RSPiece) (pre : Nat → List Nat) :
    ∀ (cs : List Nat) (s : AllocSt) (k : Int) (log : List (Nat × Bool))
      (s' : AllocSt) (k' : Int) (log' : List (Nat × Bool)),
      (∀ i ∈ s.cand, i < s.peers.length) →
      freshPass p pre s k log cs = some (s', k', log') →
      ∀ r, (∀ c ∈ cs, pre c = [] → r ≠ reqIx p c) →
      ∀ i, hasReq s' r i ↔ hasReq s r i := by
  intro cs
  induction cs with
  | nil =>
    intro s k log s' k' log' _ h r _ i
    simp only [freshPass, Option.some.injEq, Prod.mk.injEq] at h
    obtain ⟨rfl, rfl, rfl⟩ := h
    rfl
  | cons c cs ih =>
    intro s k log s' k' log' hb h r hr i
    simp only [freshPass] at h
    split at h
    · cases h
    · split at h
      · exact ih _ _ _ _ _ _ hb h r
          (fun c' hc' => hr c' (List.mem_cons_of_mem _ hc')) i
      · rename_i hpe
        have hpc : pre c = [] := by
          by_contra hne
          exact hpe hne
        split at h
        · cases h
        · rename_i s2 hwalk
          have hbs : ∀ i ∈ (sortCand p none s).cand,
              i < (sortCand p none s).peers.length := by
            intro i hi
            rw [sortCand_peers]
            exact hb i ((sortCand_cand_perm p none s).mem_iff.mp hi)
          obtain ⟨w, hfr, _, _⟩ := assignWalk_mem p (reqIx p c)
            (sortCand p none s).cand (sortCand p none s) s2 hbs hwalk
          have hfr0 : ∀ i, hasReq s2 r i ↔ hasReq s r i := by
            intro i
            rw [hfr r (hr c (List.mem_cons_self _ _) hpc) i]
            rfl
          obtain ⟨hl2, hc2⟩ := assignWalk_frame p (reqIx p c) _ _ _ hwalk
          have hb2 : ∀ i ∈ s2.cand, i < s2.peers.length := by
            intro i hi
            rw [hl2, sortCand_peers]
            exact hb i ((sortCand_cand_perm p none s).mem_iff.mp (hc2 ▸ hi))
          rw [ih _ _ _ _ _ _ hb2 h r
            (fun c' hc' => hr c' (List.mem_cons_of_mem _ hc')) i]
          exact hfr0 i

theorem freshPass_chunk (p : RSPiece) (pre : Nat → List Nat) :
    ∀ (cs : List Nat) (s : AllocSt) (k : Int) (log : List (Nat × Bool))
      (s' : AllocSt) (k' : Int) (log' : List (Nat × Bool)) (c0 : Nat),
      cs.Nodup →
      (∀ c1 ∈ cs, ∀ c2 ∈ cs, reqIx p c1 = reqIx p c2 → c1 = c2) →
      (∀ i ∈ s.cand, i < s.peers.length) →
      c0 ∈ cs → pre c0 = [] →
      (∀ i, ¬ hasReq s (reqIx p c0) i) →
      (c0, true) ∉ log →
      freshPass p pre s k log cs = some (s', k', log') →
      (∀ i j, hasReq s' (reqIx p c0) i → hasReq s' (reqIx p c0) j → i = j) ∧
      ((∃ i, hasReq s' (reqIx p c0) i) ↔ (c0, true) ∈ log') := by
  intro cs
  induction cs with
  | nil =>
    intro s k log s' k' log' c0 _ _ _ hc0 _ _ _ _
    exact absurd hc0 (List.not_mem_nil c0)
  | cons c cs ih =>
    intro s k log s' k' log' c0 hnd hinj hb hc0 hpre0 hnoh hlog0 h
    have hndc : c ∉ cs := (List.nodup_cons.mp hnd).1
    have hndcs : cs.Nodup := (List.nodup_cons.mp hnd).2
    have hinj' : ∀ c1 ∈ cs, ∀ c2 ∈ cs, reqIx p c1 = reqIx p c2 → c1 = c2 :=
      fun c1 h1 c2 h2 => hinj c1 (List.mem_cons_of_mem _ h1) c2
        (List.mem_cons_of_mem _ h2)
    simp only [freshPass] at h
    split at h
    · cases h
    · split at h
      · -- skipped chunk (has a pre-allocation)
        rename_i hpe
        rcases List.mem_cons.mp hc0 with hceq | hcs
        · subst hceq
          exact absurd hpre0 hpe
        · exact ih _ _ _ _ _ _ c0 hndcs hinj' hb hcs hpre0 hnoh hlog0 h
      · rename_i hpe
        have hpc : pre c = [] := by
          by_contra hne
          exact hpe hne
        split at h
        · cases h
        · rename_i s2 hwalk
          have hbs : ∀ i ∈ (sortCand p none s).cand,
              i < (sortCand p none s).peers.length := by
            intro i hi
            rw [sortCand_peers]
            exact hb i ((sortCand_cand_perm p none s).mem_iff.mp hi)
          obtain ⟨hl2, hc2⟩ := assignWalk_frame p (reqIx p c) _ _ _ hwalk
          have hb2 : ∀ i ∈ s2.cand, i < s2.peers.length := by
            intro i hi
            rw [hl2, sortCand_peers]
            exact hb i ((sortCand_cand_perm p none s).mem_iff.mp (hc2 ▸ hi))
          obtain ⟨w, hfr, hreqm, hsome⟩ := assignWalk_mem p (reqIx p c)
            (sortCand p none s).cand (sortCand p none s) s2 hbs hwalk
          rcases List.mem_cons.mp hc0 with hceq | hcs
          · -- this very chunk is assigned now
            subst hceq
            have hnoh1 : ∀ i, ¬ hasReq (sortCand p none s) (reqIx p c0) i :=
              hnoh
            have hm2 : ∀ i, hasReq s2 (reqIx p c0) i ↔ w = some i := by
              intro i
              rw [hreqm i]
              constructor
              · rintro (hm | hm)
                · exact absurd hm (hnoh1 i)
                · exact hm
              · exact fun hm => Or.inr hm
            have hrfr : ∀ c' ∈ cs, pre c' = [] → reqIx p c0 ≠ reqIx p c' := by
              intro c' hc' _ heq
              have := hinj c0 (List.mem_cons_self _ _) c'
                (List.mem_cons_of_mem _ hc') heq
              exact hndc (this ▸ hc')
            have hmain : ∀ i, hasReq s' (reqIx p c0) i ↔ w = some i := by
              intro i
              rw [freshPass_mem_frame p pre cs s2 _ _ s' k' log' hb2 h
                (reqIx p c0) hrfr i]
              exact hm2 i
            obtain ⟨nl, hnl, hnlm⟩ := freshPass_log p pre cs s2 _ _ s' k' log' h
            constructor
            · intro i j hi hj
              rw [hmain i] at hi
              rw [hmain j] at hj
              rw [hi] at hj
              injection hj
            · constructor
              · rintro ⟨i, hi⟩
                rw [hmain i] at hi
                have hws : w.isSome = true := by
                  rw [hi]
                  rfl
                have := hsome.mp hws
                have hel : eligPred p (sortCand p none s) = true :=
                  (eligPred_iff p (sortCand p none s)).mpr this
                rw [hnl]
                rw [← hel]
                simp
              · intro hmem
                rw [hnl] at hmem
                rcases List.mem_append.mp hmem with hm | hm
                · rcases List.mem_append.mp hm with hm1 | hm1
                  · exact absurd hm1 hlog0
                  · rcases List.mem_singleton.mp hm1 with hm2
                    have hel : eligPred p (sortCand p none s) = true := by
                      have := congrArg Prod.snd hm2
                      simpa using this.symm
                    have := (eligPred_iff p (sortCand p none s)).mp hel
                    have hws := hsome.mpr this
                    rcases hw : w with _ | iw
                    · rw [hw] at hws
                      cases hws
                    · exact ⟨iw, (hmain iw).mpr hw⟩
                · exact absurd (hnlm _ hm).1 hndc
          · -- a different chunk is assigned first
            have hrne : reqIx p c0 ≠ reqIx p c := by
              intro heq
              have := hinj c0 hc0 c (List.mem_cons_self _ _) heq
              exact hndc (this ▸ hcs)
            have hnoh2 : ∀ i, ¬ hasReq s2 (reqIx p c0) i := by
              intro i hi
              rw [hfr (reqIx p c0) hrne i] at hi
              exact hnoh i hi
            have hne : ((c0, true) : Nat × Bool) ∉
                [(c, eligPred p (sortCand p none s))] := by
              intro hcon
              have := congrArg Prod.fst (List.mem_singleton.mp hcon)
              simp only at this
              exact hndc (this ▸ hcs)
            have hlog1 : ((c0, true) : Nat × Bool) ∉
                log ++ [(c, eligPred p (sortCand p none s))] := by
              intro hcon
              rcases List.mem_append.mp hcon with hm | hm
              · exact hlog0 hm
              · exact hne hm
            exact ih s2 _ _ s' k' log' c0 hndcs hinj' hb2 hcs hpre0 hnoh2 hlog1 h

theorem rebalanceChunk_mem (p : RSPiece) (c : Nat) (prePeers : List Nat)
    (s s' : AllocSt) (el : Bool)
    (hbc : ∀ i ∈ s.cand, i < s.peers.length)
    (h : rebalanceChunk p c prePeers s = some (s', el)) :
    (∀ r, r ≠ reqIx p c → ∀ i, hasReq s' r i ↔ hasReq s r i) ∧
    ((∀ i ∈ prePeers, i < s.peers.length) →
      (∀ i, hasReq s (reqIx p c) i → i ∈ prePeers) →
      ((∀ i j, hasReq s' (reqIx p c) i → hasReq s' (reqIx p c) j → i = j) ∧
       ((∃ i, hasReq s' (reqIx p c) i) ↔ el = true))) := by
  simp only [rebalanceChunk] at h
  split at h
  · cases h
  · rename_i s4 hwalk
    simp only [Option.some.injEq, Prod.mk.injEq] at h
    obtain ⟨rfl, rfl⟩ := h
    set gRip : RSPeer → RSPeer :=
      fun pr => { pr with requestsInPiece := pr.requestsInPiece - 1 } with hgRip
    set gErase : RSPeer → RSPeer :=
      fun pr => { pr with nextRequests := pr.nextRequests.erase (reqIx p c) }
      with hgErase
    set s1 := foldUpd gRip prePeers s with hs1
    set s2 := sortCand p (some (reqIx p c)) s1 with hs2
    set s3 := foldUpd gErase prePeers s2 with hs3
    have hm1 : ∀ r i, hasReq s1 r i ↔ hasReq s r i := by
      intro r i
      exact foldUpd_mem_iff gRip r (fun pr => Iff.rfl) prePeers s i
    have hm2 : ∀ r i, hasReq s2 r i ↔ hasReq s1 r i := fun r i => Iff.rfl
    have hm3 : ∀ r, r ≠ reqIx p c → ∀ i, hasReq s3 r i ↔ hasReq s2 r i := by
      intro r hr i
      refine foldUpd_mem_iff gErase r (fun pr => ?_) prePeers s2 i
      rw [hgErase]
      show r ∈ pr.nextRequests.erase (reqIx p c) ↔ r ∈ pr.nextRequests
      rw [Finset.mem_erase]
      constructor
      · rintro ⟨_, hm⟩
        exact hm
      · exact fun hm => ⟨hr, hm⟩
    have hlen1 : s1.peers.length = s.peers.length := foldUpd_length _ _ _
    have hlen2 : s2.peers.length = s1.peers.length := rfl
    have hlen3 : s3.peers.length = s2.peers.length := foldUpd_length _ _ _
    have hcand3 : s3.cand = s2.cand := foldUpd_cand _ _ _
    have hb3 : ∀ i ∈ s3.cand, i < s3.peers.length := by
      intro i hi
      rw [hlen3, hlen2, hlen1]
      refine hbc i ?_
      rw [hcand3] at hi
      have := (sortCand_cand_perm p (some (reqIx p c)) s1).mem_iff.mp hi
      rw [hs1] at this
      rw [foldUpd_cand] at this
      exact this
    obtain ⟨w, hwfr, hwreq, hwsome⟩ := assignWalk_mem p (reqIx p c)
      s3.cand s3 s4 hb3 hwalk
    constructor
    · intro r hr i
      rw [hwfr r hr i, hm3 r hr i, hm2 r i, hm1 r i]
    · intro hbp hcov
      have hclear : ∀ i, ¬ hasReq s3 (reqIx p c) i := by
        refine foldUpd_erase_clears (reqIx p c) prePeers s2 ?_ ?_
        · intro i hi
          rw [hlen2, hlen1]
          exact hbp i hi
        · intro i hi
          rw [hm2, hm1] at hi
          exact hcov i hi
      have hm4 : ∀ i, hasReq s4 (reqIx p c) i ↔ w = some i := by
        intro i
        rw [hwreq i]
        constructor
        · rintro (hm | hm)
          · exact absurd hm (hclear i)
          · exact hm
        · exact fun hm => Or.inr hm
      constructor
      · intro i j hi hj
        rw [hm4 i] at hi
        rw [hm4 j] at hj
        rw [hi] at hj
        injection hj
      · constructor
        · rintro ⟨i, hi⟩
          rw [hm4 i] at hi
          have hws : w.isSome = true := by
            rw [hi]
            rfl
          exact (eligPred_iff p s3).mpr (hwsome.mp hws)
        · intro hel
          have := (eligPred_iff p s3).mp hel
          have hws := hwsome.mpr this
          rcases hw : w with _ | iw
          · rw [hw] at hws
            cases hws
          · exact ⟨iw, (hm4 iw).mpr hw⟩

theorem rebalancePass_log (p : RSPiece) (pre : Nat → List Nat) :
    ∀ (cs : List Nat) (s : AllocSt) (k : Int) (log : List (Nat × Bool))
      (s' : AllocSt) (k' : Int) (log' : List (Nat × Bool)),
      rebalancePass p pre s k log cs = some (s', k', log') →
      ∃ nl, log' = log ++ nl ∧ ∀ e ∈ nl, e.1 ∈ cs ∧ pre e.1 ≠ [] := by
  intro cs
  induction cs with
  | nil =>
    intro s k log s' k' log' h
    simp only [rebalancePass, Option.some.injEq, Prod.mk.injEq] at h
    obtain ⟨rfl, rfl, rfl⟩ := h
    exact ⟨[], by simp, fun e he => absurd he (List.not_mem_nil e)⟩
  | cons c cs ih =>
    intro s k log s' k' log' h
    simp only [rebalancePass] at h
    split at h
    · obtain ⟨nl, hnl, hmem⟩ := ih _ _ _ _ _ _ h
      exact ⟨nl, hnl, fun e he =>
        ⟨List.mem_cons_of_mem _ (hmem e he).1, (hmem e he).2⟩⟩
    · rename_i hpe
      cases hrc : rebalanceChunk p c (pre c) s with
      | none =>
        rw [hrc] at h
        cases h
      | some out =>
        obtain ⟨s1, el⟩ := out
        rw [hrc] at h
        obtain ⟨nl, hnl, hmem⟩ := ih _ _ _ _ _ _ h
        refine ⟨(c, el) :: nl, ?_, ?_⟩
        · rw [hnl]
          simp
        · intro e he
          rcases List.mem_cons.mp he with he1 | he1
          · subst he1
            exact ⟨List.mem_cons_self _ _, hpe⟩
          · exact ⟨List.mem_cons_of_mem _ (hmem e he1).1, (hmem e he1).2⟩

theorem rebalancePass_mem_frame (p : RSPiece) (pre : Nat → List Nat) :
    ∀ (cs : List Nat) (s : AllocSt) (k : Int) (log : List (Nat × Bool))
      (s' : AllocSt) (k' : Int) (log' : List (Nat × Bool)),
      (∀ i ∈ s.cand, i < s.peers.length) →
      rebalancePass p pre s k log cs = some (s', k', log') →
      ∀ r, (∀ c ∈ cs, pre c ≠ [] → r ≠ reqIx p c) →
      ∀ i, hasReq s' r i ↔ hasReq s r i := by
  intro cs
  induction cs with
  | nil =>
    intro s k log s' k' log' _ h r _ i
    simp only [rebalancePass, Option.some.injEq, Prod.mk.injEq] at h
    obtain ⟨rfl, rfl, rfl⟩ := h
    rfl
  | cons c cs ih =>
    intro s k log s' k' log' hb h r hr i
    simp only [rebalancePass] at h
    split at h
    · exact ih _ _ _ _ _ _ hb h r
        (fun c' hc' => hr c' (List.mem_cons_of_mem _ hc')) i
    · rename_i hpe
      cases hrc : rebalanceChunk p c (pre c) s with
      | none =>
        rw [hrc] at h
        cases h
      | some out =>
        obtain ⟨s1, el⟩ := out
        rw [hrc] at h
        have hfr := (rebalanceChunk_mem p c (pre c) s s1 el hb hrc).1
        have hfra := rebalanceChunk_frame p c (pre c) s s1 el hrc
        have hb1 : ∀ i ∈ s1.cand, i < s1.peers.length := by
          intro i hi
          rw [hfra.1]
          exact hb i (hfra.2.mem_iff.mp hi)
        rw [ih _ _ _ _ _ _ hb1 h r
          (fun c' hc' => hr c' (List.mem_cons_of_mem _ hc')) i]
        exact hfr r (hr c (List.mem_cons_self _ _) hpe) i

theorem rebalancePass_chunk (p : RSPiece) (pre : Nat → List Nat) :
    ∀ (cs : List Nat) (s : AllocSt) (k : Int) (log : List (Nat × Bool))
      (s' : AllocSt) (k' : Int) (log' : List (Nat × Bool)) (c0 : Nat),
      cs.Nodup →
      (∀ c1 ∈ cs, ∀ c2 ∈ cs, reqIx p c1 = reqIx p c2 → c1 = c2) →
      (∀ i ∈ s.cand, i < s.peers.length) →
      c0 ∈ cs → pre c0 ≠ [] →
      (∀ i ∈ pre c0, i < s.peers.length) →
      (∀ i, hasReq s (reqIx p c0) i → i ∈ pre c0) →
      (c0, true) ∉ log →
      rebalancePass p pre s k log cs = some (s', k', log') →
      (∀ i j, hasReq s' (reqIx p c0) i → hasReq s' (reqIx p c0) j → i = j) ∧
      ((∃ i, hasReq s' (reqIx p c0) i) ↔ (c0, true) ∈ log') := by
  intro cs
  induction cs with
  | nil =>
    intro s k log s' k' log' c0 _ _ _ hc0 _ _ _ _ _
    exact absurd hc0 (List.not_mem_nil c0)
  | cons c cs ih =>
    intro s k log s' k' log' c0 hnd hinj hb hc0 hpre0 hbp hcov hlog0 h
    have hndc : c ∉ cs := (List.nodup_cons.mp hnd).1
    have hndcs : cs.Nodup := (List.nodup_cons.mp hnd).2
    have hinj' : ∀ c1 ∈ cs, ∀ c2 ∈ cs, reqIx p c1 = reqIx p c2 → c1 = c2 :=
      fun c1 h1 c2 h2 => hinj c1 (List.mem_cons_of_mem _ h1) c2
        (List.mem_cons_of_mem _ h2)
    simp only [rebalancePass] at h
    split at h
    · -- skipped slot (no pre-allocation)
      rename_i hpe
      rcases List.mem_cons.mp hc0 with hceq | hcs
      · subst hceq
        exact absurd hpe hpre0
      · exact ih _ _ _ _ _ _ c0 hndcs hinj' hb hcs hpre0 hbp hcov hlog0 h
    · rename_i hpe
      cases hrc : rebalanceChunk p c (pre c) s with
      | none =>
        rw [hrc] at h
        cases h
      | some out =>
        obtain ⟨s1, el⟩ := out
        rw [hrc] at h
        have hmem := rebalanceChunk_mem p c (pre c) s s1 el hb hrc
        have hfra := rebalanceChunk_frame p c (pre c) s s1 el hrc
        have hb1 : ∀ i ∈ s1.cand, i < s1.peers.length := by
          intro i hi
          rw [hfra.1]
          exact hb i (hfra.2.mem_iff.mp hi)
        rcases List.mem_cons.mp hc0 with hceq | hcs
        · -- this very slot is re-balanced now
          subst hceq
          obtain ⟨hone, hex⟩ := hmem.2 hbp hcov
          have hrfr : ∀ c' ∈ cs, pre c' ≠ [] → reqIx p c0 ≠ reqIx p c' := by
            intro c' hc' _ heq
            have := hinj c0 (List.mem_cons_self _ _) c'
              (List.mem_cons_of_mem _ hc') heq
            exact hndc (this ▸ hc')
          have hmain : ∀ i, hasReq s' (reqIx p c0) i ↔
              hasReq s1 (reqIx p c0) i := by
            intro i
            exact rebalancePass_mem_frame p pre cs s1 _ _ s' k' log' hb1 h
              (reqIx p c0) hrfr i
          obtain ⟨nl, hnl, hnlm⟩ := rebalancePass_log p pre cs s1 _ _
            s' k' log' h
          constructor
          · intro i j hi hj
            exact hone i j ((hmain i).mp hi) ((hmain j).mp hj)
          · constructor
            · rintro ⟨i, hi⟩
              have hel : el = true := hex.mp ⟨i, (hmain i).mp hi⟩
              rw [hnl, ← hel]
              simp
            · intro hmemlog
              rw [hnl] at hmemlog
              rcases List.mem_append.mp hmemlog with hm | hm
              · rcases List.mem_append.mp hm with hm1 | hm1
                · exact absurd hm1 hlog0
                · have hm2 := List.mem_singleton.mp hm1
                  have hel : el = true := by
                    have := congrArg Prod.snd hm2
                    simpa using this.symm
                  obtain ⟨i, hi⟩ := hex.mpr hel
                  exact ⟨i, (hmain i).mpr hi⟩
              · exact absurd (hnlm _ hm).1 hndc
        · -- a different slot is re-balanced first
          have hcne : c ≠ c0 := fun heq => hndc (heq ▸ hcs)
          have hrne : reqIx p c0 ≠ reqIx p c := by
            intro heq
            exact hcne (hinj c (List.mem_cons_self _ _) c0 hc0 heq.symm)
          have hcov1 : ∀ i, hasReq s1 (reqIx p c0) i → i ∈ pre c0 := by
            intro i hi
            rw [hmem.1 (reqIx p c0) hrne i] at hi
            exact hcov i hi
          have hbp1 : ∀ i ∈ pre c0, i < s1.peers.length := by
            intro i hi
            rw [hfra.1]
            exact hbp i hi
          have hlog1 : ((c0, true) : Nat × Bool) ∉ log ++ [(c, el)] := by
            intro hcon
            rcases List.mem_append.mp hcon with hm | hm
            · exact hlog0 hm
            · have := congrArg Prod.fst (List.mem_singleton.mp hm)
              simp only at this
              exact hcne this.symm
          exact ih s1 _ _ s' k' log' c0 hndcs hinj' hb1 hcs hpre0 hbp1
            hcov1 hlog1 h

theorem reqIx_inj (p : RSPiece) (hcpp : p.chunksPerPiece ≤ 2 ^ 32)
    (c1 c2 : Nat) (h1 : c1 < p.chunksPerPiece) (h2 : c2 < p.chunksPerPiece)
    (h : reqIx p c1 = reqIx p c2) : c1 = c2 := by
  unfold reqIx at h
  have h' : Nat.ModEq (2 ^ 32) (p.chunksPerPiece * p.index + c1)
      (p.chunksPerPiece * p.index + c2) := h
  have hmod : Nat.ModEq (2 ^ 32) c1 c2 := Nat.ModEq.add_left_cancel' _ h'
  have hmm : c1 % 2 ^ 32 = c2 % 2 ^ 32 := hmod
  rw [Nat.mod_eq_of_lt (lt_of_lt_of_le h1 hcpp),
    Nat.mod_eq_of_lt (lt_of_lt_of_le h2 hcpp)] at hmm
  exact hmm

theorem collUpd_nextRequests (p : RSPiece) (pr : RSPeer) :
    (collUpd p pr).nextRequests = pr.nextRequests := by
  unfold collUpd
  split
  · rfl
  · split <;> rfl

theorem collectCands_mem (p : RSPiece) (peers : List RSPeer) (r i : Nat) :
    hasReq (collectCands p peers) r i ↔ r ∈ (peerAt peers i).nextRequests := by
  obtain ⟨hl, hin, hout, _⟩ := collectCands_spec p peers
  unfold hasReq
  by_cases hi : i < peers.length
  · rw [hin i hi, collUpd_nextRequests]
  · rw [hout i hi]

/-- C3: for every requestable piece — its pending chunk indices
distinct and below `ChunksPerPiece`, which itself fits the u32
request-index arithmetic — and every peer slice whose `NextRequests`
initially avoid the piece's request indices, when `allocatePendingChunks`
returns (the observable run recorded in `out`), each pending chunk's
request index is contained in at most one peer's `NextRequests`, and in
exactly one iff the run found an eligible peer for that chunk — a
candidate with spare capacity that is not blocked by choking without
allowed-fast — at the moment the chunk was assigned, as recorded in the
per-chunk eligibility log. -/
theorem claim_C3_chunk_uniqueness (p : RSPiece) (peers peers' : List RSPeer)
    (out : AllocOut)
    (hnd : p.pendingChunks.Nodup)
    (hcb : ∀ c ∈ p.pendingChunks, c < p.chunksPerPiece)
    (hcpp : p.chunksPerPiece ≤ 2 ^ 32)
    (hinit : ∀ i, ∀ c ∈ p.pendingChunks,
      reqIx p c ∉ (peerAt peers i).nextRequests)
    (hrun : allocRun p peers = some out)
    (halloc : allocatePendingChunks p peers = some peers') :
    ∀ c ∈ p.pendingChunks,
      (∀ i j, reqIx p c ∈ (peerAt peers' i).nextRequests →
        reqIx p c ∈ (peerAt peers' j).nextRequests → i = j) ∧
      ((∃ i, reqIx p c ∈ (peerAt peers' i).nextRequests) ↔
        (c, true) ∈ out.elig) := by
  intro c0 hc0
  simp only [allocatePendingChunks, hrun] at halloc
  split at halloc
  · cases halloc
  · injection halloc with hpe
    subst hpe
    simp only [allocRun] at hrun
    split at hrun
    · cases hrun
    · rename_i s1 pre hps
      split at hrun
      · cases hrun
      · rename_i s2 k2 log2 hfs
        split at hrun
        · cases hrun
        · rename_i s3 k3 log3 hrs
          injection hrun with hout
          subst hout
          have hcsp := collectCands_spec p peers
          have hb0 : ∀ i ∈ (collectCands p peers).cand,
              i < (collectCands p peers).peers.length := by
            intro i hi
            rw [hcsp.1]
            rw [hcsp.2.2.2] at hi
            exact List.mem_range.mp (List.mem_filter.mp hi).1
          have hinjP : ∀ c1 ∈ p.pendingChunks, ∀ c2 ∈ p.pendingChunks,
              reqIx p c1 = reqIx p c2 → c1 = c2 :=
            fun c1 h1 c2 h2 h =>
              reqIx_inj p hcpp c1 c2 (hcb c1 h1) (hcb c2 h2) h
          have hnoh0 : ∀ i, ¬ hasReq (collectCands p peers) (reqIx p c0) i := by
            intro i hi
            rw [collectCands_mem] at hi
            exact hinit i c0 hc0 hi
          obtain ⟨hpre1, hsub⟩ := preallocPass_chunk p p.pendingChunks
            (collectCands p peers) (fun _ => []) s1 pre c0 hnd hinjP hb0 hc0
            rfl hnoh0 hps
          have hpf := preallocPass_frame p p.pendingChunks
            (collectCands p peers) (fun _ => []) s1 pre hps
          have hb1 : ∀ i ∈ s1.cand, i < s1.peers.length := by
            intro i hi
            rw [hpf.1]
            exact hb0 i (hpf.2 ▸ hi)
          have hff := freshPass_frame p pre p.pendingChunks s1 _ [] s2 k2
            log2 hfs
          have hb2 : ∀ i ∈ s2.cand, i < s2.peers.length := by
            intro i hi
            rw [hff.1]
            exact hb1 i (hff.2.mem_iff.mp hi)
          have hS3 : (∀ i j, hasReq s3 (reqIx p c0) i →
              hasReq s3 (reqIx p c0) j → i = j) ∧
              ((∃ i, hasReq s3 (reqIx p c0) i) ↔ (c0, true) ∈ log3) := by
            by_cases hcase : pre c0 = []
            · -- the chunk was assigned (or deferred) by the fresh pass
              have hnoh1 : ∀ i, ¬ hasReq s1 (reqIx p c0) i := by
                intro i hi
                rw [hpre1 i, hcase] at hi
                exact absurd hi (List.not_mem_nil i)
              obtain ⟨honeF, hexF⟩ := freshPass_chunk p pre p.pendingChunks
                s1 _ [] s2 k2 log2 c0 hnd hinjP hb1 hc0 hcase hnoh1
                (List.not_mem_nil _) hfs
              have hRfr : ∀ i, hasReq s3 (reqIx p c0) i ↔
                  hasReq s2 (reqIx p c0) i := by
                intro i
                refine rebalancePass_mem_frame p pre
                  (List.range p.chunksPerPiece) s2 k2 log2 s3 k3 log3 hb2 hrs
                  (reqIx p c0) ?_ i
                intro c hcmem hpc heq
                have hcl : c < p.chunksPerPiece := List.mem_range.mp hcmem
                have hceq := reqIx_inj p hcpp c0 c (hcb c0 hc0) hcl heq
                exact hpc (hceq ▸ hcase)
              obtain ⟨nl, hnl, hnlm⟩ := rebalancePass_log p pre
                (List.range p.chunksPerPiece) s2 k2 log2 s3 k3 log3 hrs
              constructor
              · intro i j hi hj
                exact honeF i j ((hRfr i).mp hi) ((hRfr j).mp hj)
              · constructor
                · rintro ⟨i, hi⟩
                  rw [hnl]
                  exact List.mem_append.mpr
                    (Or.inl (hexF.mp ⟨i, (hRfr i).mp hi⟩))
                · intro hm
                  rw [hnl] at hm
                  rcases List.mem_append.mp hm with hm1 | hm1
                  · obtain ⟨i, hi⟩ := hexF.mpr hm1
                    exact ⟨i, (hRfr i).mpr hi⟩
                  · exact absurd hcase (hnlm _ hm1).2
            · -- the chunk was pre-allocated and settled by the re-balance pass
              have hFfr : ∀ i, hasReq s2 (reqIx p c0) i ↔
                  hasReq s1 (reqIx p c0) i := by
                intro i
                refine freshPass_mem_frame p pre p.pendingChunks s1 _ []
                  s2 k2 log2 hb1 hfs (reqIx p c0) ?_ i
                intro c hcmem hpc heq
                have hceq := hinjP c0 hc0 c hcmem heq
                refine hcase ?_
                rw [hceq]
                exact hpc
              have hcov2 : ∀ i, hasReq s2 (reqIx p c0) i → i ∈ pre c0 :=
                fun i hi => (hpre1 i).mp ((hFfr i).mp hi)
              have hbp2 : ∀ i ∈ pre c0, i < s2.peers.length := by
                intro i hi
                rw [hff.1, hpf.1]
                exact hb0 i (hsub i hi)
              have hlognot : ((c0, true) : Nat × Bool) ∉ log2 := by
                obtain ⟨nl, hnl, hnlm⟩ := freshPass_log p pre p.pendingChunks
                  s1 _ [] s2 k2 log2 hfs
                rw [hnl]
                intro hm
                rcases List.mem_append.mp hm with hm1 | hm1
                · exact absurd hm1 (List.not_mem_nil _)
                · exact hcase (hnlm _ hm1).2
              have hinjR : ∀ c1 ∈ List.range p.chunksPerPiece,
                  ∀ c2 ∈ List.range p.chunksPerPiece,
                  reqIx p c1 = reqIx p c2 → c1 = c2 :=
                fun c1 h1 c2 h2 h => reqIx_inj p hcpp c1 c2
                  (List.mem_range.mp h1) (List.mem_range.mp h2) h
              exact rebalancePass_chunk p pre (List.range p.chunksPerPiece)
                s2 k2 log2 s3 k3 log3 c0 (List.nodup_range _) hinjR hb2
                (List.mem_range.mpr (hcb c0 hc0)) hcase hbp2 hcov2 hlognot hrs
          have hdd : ∀ r i,
              r ∈ (peerAt (deferDecrements s3) i).nextRequests ↔
              hasReq s3 r i := by
            intro r i
            show hasReq (foldUpd (fun pr =>
              { pr with requestablePiecesRemaining :=
                  pr.requestablePiecesRemaining - 1 }) s3.cand s3) r i ↔
              hasReq s3 r i
            exact foldUpd_mem_iff (fun pr =>
              { pr with requestablePiecesRemaining :=
                  pr.requestablePiecesRemaining - 1 }) r (fun pr => Iff.rfl)
              s3.cand s3 i
          constructor
          · intro i j hi hj
            exact hS3.1 i j ((hdd _ i).mp hi) ((hdd _ j).mp hj)
          · constructor
            · rintro ⟨i, hi⟩
              exact hS3.2.mp ⟨i, (hdd _ i).mp hi⟩
            · intro hm
              obtain ⟨i, hi⟩ := hS3.2.mpr hm
              exact ⟨i, (hdd _ i).mpr hi⟩

theorem claim_C3_witness :
    (allocRun wPiece [wPeer]).isSome = true ∧
    (allocatePendingChunks wPiece [wPeer]).isSome = true ∧
    (0 : Nat) ∈ wPiece.pendingChunks ∧
    ((∀ i j,
        reqIx wPiece 0 ∈
          (peerAt ((allocatePendingChunks wPiece [wPeer]).getD [])
            i).nextRequests →
        reqIx wPiece 0 ∈
          (peerAt ((allocatePendingChunks wPiece [wPeer]).getD [])
            j).nextRequests →
        i = j) ∧
      ((∃ i, reqIx wPiece 0 ∈
          (peerAt ((allocatePendingChunks wPiece [wPeer]).getD [])
            i).nextRequests) ↔
        (0, true) ∈ ((allocRun wPiece [wPeer]).getD ⟨⟨[], []⟩, 1, []⟩).elig)) := by
  have hs1 : (allocRun wPiece [wPeer]).isSome = true := by decide
  have hs2 : (allocatePendingChunks wPiece [wPeer]).isSome = true := by decide
  have h1 : allocRun wPiece [wPeer] =
      some ((allocRun wPiece [wPeer]).getD ⟨⟨[], []⟩, 1, []⟩) := by
    rcases hx : allocRun wPiece [wPeer] with _ | v
    · rw [hx] at hs1
      cases hs1
    · rfl
  have h2 : allocatePendingChunks wPiece [wPeer] =
      some ((allocatePendingChunks wPiece [wPeer]).getD []) := by
    rcases hx : allocatePendingChunks wPiece [wPeer] with _ | v
    · rw [hx] at hs2
      cases hs2
    · rfl
  have hinit : ∀ i, ∀ c ∈ wPiece.pendingChunks,
      reqIx wPiece c ∉ (peerAt [wPeer] i).nextRequests := by
    intro i c hc
    have hc0 : c = 0 := List.mem_singleton.mp hc
    subst hc0
    rcases i with _ | i
    · decide
    · have hd : peerAt [wPeer] (i + 1) = default := by
        show ([wPeer] : List RSPeer).getD (i + 1) default = default
        rw [List.getD_eq_default]
        simp
      rw [hd]
      decide
  exact ⟨hs1, hs2, by decide,
    claim_C3_chunk_uniqueness wPiece [wPeer] _ _ (by decide) (by decide)
      (by decide) hinit h1 h2 0 (by decide)⟩

/-! ## applyRequestState (requesting.go lines 267-344) -/

/-- A peer-level emission of `applyRequestState`: the wire messages
(`interested`, `cancel`, `request`) plus the internal in-place shuffle of
`next.Requests[i:]`, which the source logs with the current index and the
list length (requesting.go line 324). -/
inductive REvent where
  | interestedE (b : Bool)
  | cancelE (r : Nat)
  | requestE (r : Nat)
  | shuffleE (lo len : Nat)
  deriving DecidableEq, Repr

/-- The peer/torrent state `applyRequestState` mutates: the peer's actual
request set, the torrent-wide pending-request counts, the peer's
cancelled-request set, and the emission trace. -/
structure RSASt where
  actual : Finset Nat
  pending : Nat → Int
  cancelled : Finset Nat
  trace : List REvent

/-- Modelled from the spec: `Peer.setInterested` (not under `src/`)
transmits the interest state; the successful-write case is modelled. -/
def setInterested (b : Bool) (st : RSASt) : RSASt :=
  { st with trace := st.trace ++ [REvent.interestedE b] }

/-- Modelled from the spec: `Peer.cancel` (not under `src/`) emits the
cancel message and records the request in `cancelledRequests`; with the
fast extension the request stays in the actual set until the peer answers. -/
def cancel (r : Nat) (st : RSASt) : RSASt :=
  { st with cancelled := insert r st.cancelled,
            trace := st.trace ++ [REvent.cancelE r] }

/-- Modelled from the spec: `Peer.mustRequest` (not under `src/`) returns
early without re-emitting when the request is already held (Scenario F);
otherwise it emits `request`, adds the index to the actual set, and
increments the torrent-wide pending count. -/
def mustRequest (r : Nat) (st : RSASt) : RSASt :=
  if r ∈ st.actual then st
  else { st with
    actual := insert r st.actual,
    pending := fun x => if x = r then st.pending x + 1 else st.pending x,
    trace := st.trace ++ [REvent.requestE r] }

/-- The cancel phase (requesting.go lines 273-280): `cancel.Iterate` walks
the bitmap ascending; the iteration is the fold of `cancel` over the
sorted list. -/
def applyCancels (l : List Nat) (st : RSASt) : RSASt :=
  l.foldl (fun s r => cancel r s) st

/-- The request loop after the one-time shuffle has fired (requesting.go
lines 286-335 with `shuffled == true`): the list is no longer mutated, so
`next.Requests[0]` is the fixed `head0`; `otherPending` is its pending
count less one if the peer itself holds it, and `lastPending` is 0
throughout (the source never reassigns it), so a negative `otherPending`
is the panic. -/
def rsaGo2 (nominalMax : Nat) (head0 : Nat) : List Nat → RSASt → Option RSASt
  | [], st => some st
  | r :: rest, st =>
    if r ∈ st.cancelled then rsaGo2 nominalMax head0 rest st
    else if nominalMax ≤ st.actual.card then some st
    else
      let otherPending := st.pending head0 -
        (if head0 ∈ st.actual then 1 else 0)
      if otherPending < 0 then none
      else rsaGo2 nominalMax head0 rest (mustRequest r st)

/-- The request loop before the shuffle has fired (requesting.go lines
284-335 with `shuffled == false`): `next.Requests` is still the original
desired list, so `next.Requests[0]` is the fixed `head0` and the element
at index `i` is the head of the remaining suffix.  When `otherPending > 0`
the suffix `next.Requests[i:]` is shuffled in place (`shuf` stands for the
realized `rand.Shuffle` permutation), the shuffle is logged with
`(i, len(next.Requests))`, and the loop re-enters the same index with
`shuffled = true` — so with the new list head when `i = 0`. -/
def rsaGo1 (nominalMax : Nat) (shuf : List Nat → List Nat)
    (head0 totalLen : Nat) : Nat → List Nat → RSASt → Option RSASt
  | _, [], st => some st
  | i, r :: rest, st =>
    if r ∈ st.cancelled then rsaGo1 nominalMax shuf head0 totalLen (i + 1) rest st
    else if nominalMax ≤ st.actual.card then some st
    else
      let otherPending := st.pending head0 -
        (if head0 ∈ st.actual then 1 else 0)
      if otherPending < 0 then none
      else if 0 < otherPending then
        let sh := shuf (r :: rest)
        let head0' := if i = 0 then sh.getD 0 0 else head0
        rsaGo2 nominalMax head0' sh
          { st with trace := st.trace ++ [REvent.shuffleE i totalLen] }
      else rsaGo1 nominalMax shuf head0 totalLen (i + 1) rest (mustRequest r st)

/-- `applyRequestState` (requesting.go lines 267-344): transmit interest,
cancel every actual request not desired any more (bitmap iteration is
ascending), then run the request loop over the desired list; `none` is
the `otherPending < lastPending` panic. -/
def applyRequestState (nominalMax : Nat) (shuf : List Nat → List Nat)
    (interested : Bool) (desired : List Nat) (st : RSASt) : Option RSASt :=
  let st1 := setInterested interested st
  let st2 := applyCancels
    (Finset.sort (fun a b => a ≤ b)
      (st.actual.filter (fun r => ¬ r ∈ desired))) st1
  rsaGo1 nominalMax shuf (desired.getD 0 0) desired.length 0 desired st2

/-- The request index an emission carries, if it is a `request`. -/
def evReq : REvent → Option Nat
  | REvent.requestE r => some r
  | _ => none

/-- C2 counterexample: with five desired entries each pending with another
peer (`pending = 1`, none held by this peer) and ample capacity, the
shuffle fires at index 0 — over the whole list, before any request is
emitted — because `otherPending` is computed from `next.Requests[0]` from
the very first iteration; the claim's "emits the first, then detects at
the second and shuffles entries [1..5]" does not match the code. -/
theorem claim_C2_counterexample :
    (applyRequestState 10 (fun l => l) true [10, 11, 12, 13, 14]
      ⟨∅, fun _ => 1, ∅, []⟩).map RSASt.trace =
    some [REvent.interestedE true, REvent.shuffleE 0 5,
      REvent.requestE 10, REvent.requestE 11, REvent.requestE 12,
      REvent.requestE 13, REvent.requestE 14] := by
  have hs : Finset.sort (fun a b => a ≤ b)
      (Finset.filter (fun r => ¬ r ∈ ([10, 11, 12, 13, 14] : List Nat))
        (∅ : Finset Nat)) = [] := by
    rw [Finset.filter_empty, Finset.sort_empty]
  simp only [applyRequestState]
  rw [hs]
  rfl

theorem applyCancels_spec : ∀ (l : List Nat) (st : RSASt),
    (applyCancels l st).actual = st.actual ∧
    (applyCancels l st).pending = st.pending ∧
    (applyCancels l st).cancelled = st.cancelled ∪ l.toFinset ∧
    (applyCancels l st).trace = st.trace ++ l.map REvent.cancelE := by
  intro l
  induction l with
  | nil =>
    intro st
    exact ⟨rfl, rfl, by simp [applyCancels], by simp [applyCancels]⟩
  | cons r rs ih =>
    intro st
    have hstep : applyCancels (r :: rs) st = applyCancels rs (cancel r st) := rfl
    rw [hstep]
    obtain ⟨h1, h2, h3, h4⟩ := ih (cancel r st)
    refine ⟨h1, h2, ?_, ?_⟩
    · rw [h3]
      show insert r st.cancelled ∪ rs.toFinset =
        st.cancelled ∪ (r :: rs).toFinset
      simp [List.toFinset_cons, Finset.insert_union, Finset.union_insert]
    · rw [h4]
      show (st.trace ++ [REvent.cancelE r]) ++ rs.map REvent.cancelE =
        st.trace ++ (REvent.cancelE r :: rs.map REvent.cancelE)
      simp

theorem rsaGo2_run (nominalMax : Nat) (head0 : Nat) :
    ∀ (l : List Nat) (st : RSASt),
      l.Nodup →
      (∀ r ∈ l, r ∉ st.actual) →
      (∀ r ∈ l, r ∉ st.cancelled) →
      0 ≤ st.pending head0 - (if head0 ∈ st.actual then 1 else 0) →
      ∃ st', rsaGo2 nominalMax head0 l st = some st' ∧
        st'.trace = st.trace ++
          (l.take (nominalMax - st.actual.card)).map REvent.requestE := by
  intro l
  induction l with
  | nil =>
    intro st _ _ _ _
    exact ⟨st, rfl, by simp⟩
  | cons r rest ih =>
    intro st hnd hact hcanc hinv
    have hrc : r ∉ st.cancelled := hcanc r (List.mem_cons_self _ _)
    have hrmem : r ∉ st.actual := hact r (List.mem_cons_self _ _)
    simp only [rsaGo2]
    rw [if_neg hrc]
    by_cases hcard : nominalMax ≤ st.actual.card
    · rw [if_pos hcard]
      refine ⟨st, rfl, ?_⟩
      have hz : nominalMax - st.actual.card = 0 := Nat.sub_eq_zero_of_le hcard
      rw [hz]
      simp
    · rw [if_neg hcard]
      have hnlt : ¬ (st.pending head0 -
          (if head0 ∈ st.actual then (1 : Int) else 0) < 0) :=
        not_lt.mpr hinv
      rw [if_neg hnlt]
      have hmr : mustRequest r st =
          { st with
            actual := insert r st.actual,
            pending := fun x => if x = r then st.pending x + 1
              else st.pending x,
            trace := st.trace ++ [REvent.requestE r] } := by
        unfold mustRequest
        rw [if_neg hrmem]
      have hrnotrest : r ∉ rest := (List.nodup_cons.mp hnd).1
      have hact1 : ∀ x ∈ rest, x ∉ (mustRequest r st).actual := by
        intro x hx
        rw [hmr]
        show x ∉ insert r st.actual
        rw [Finset.mem_insert]
        rintro (hxe | hxa)
        · exact hrnotrest (hxe ▸ hx)
        · exact hact x (List.mem_cons_of_mem _ hx) hxa
      have hcanc1 : ∀ x ∈ rest, x ∉ (mustRequest r st).cancelled := by
        intro x hx
        rw [hmr]
        exact hcanc x (List.mem_cons_of_mem _ hx)
      have hinv1 : 0 ≤ (mustRequest r st).pending head0 -
          (if head0 ∈ (mustRequest r st).actual then 1 else 0) := by
        rw [hmr]
        show 0 ≤ (if head0 = r then st.pending head0 + 1
          else st.pending head0) -
          (if head0 ∈ insert r st.actual then (1 : Int) else 0)
        by_cases hh : head0 = r
        · subst hh
          rw [if_pos rfl, if_pos (Finset.mem_insert_self _ _)]
          rw [if_neg hrmem] at hinv
          omega
        · rw [if_neg hh]
          have hiff : (if head0 ∈ insert r st.actual then (1 : Int) else 0) =
              (if head0 ∈ st.actual then 1 else 0) := by
            by_cases hm : head0 ∈ st.actual
            · rw [if_pos hm, if_pos (Finset.mem_insert_of_mem hm)]
            · rw [if_neg hm, if_neg (fun hc => by
                rcases Finset.mem_insert.mp hc with hc1 | hc1
                · exact hh hc1
                · exact hm hc1)]
          rw [hiff]
          exact hinv
      obtain ⟨st', hst', htr⟩ := ih (mustRequest r st)
        (List.nodup_cons.mp hnd).2 hact1 hcanc1 hinv1
      refine ⟨st', hst', ?_⟩
      rw [htr]
      have htr1 : (mustRequest r st).trace = st.trace ++ [REvent.requestE r] := by
        rw [hmr]
      have hcd1 : (mustRequest r st).actual.card = st.actual.card + 1 := by
        rw [hmr]
        exact Finset.card_insert_of_not_mem hrmem
      rw [htr1, hcd1]
      have hk : nominalMax - st.actual.card =
          (nominalMax - (st.actual.card + 1)) + 1 := by omega
      rw [hk, List.take_succ_cons, List.map_cons]
      simp

/-- C2 amended: with every desired entry already pending with another peer
(`pending ≥ 1`, not held or cancelled by this peer, entries distinct) and
the peer under its cap, `applyRequestState` emits interest and the cancels,
then the shuffle fires at index 0 — over the whole desired list, before
any request is emitted, because `otherPending` reads `next.Requests[0]`
from the very first iteration — and the requests emitted afterwards are
exactly the first min(len(desired), nominalMaxRequests − |actual|) entries
of the shuffled list. -/
theorem claim_C2_amended (nominalMax : Nat) (shuf : List Nat → List Nat)
    (st : RSASt) (desired : List Nat)
    (hperm : ∀ l, (shuf l).Perm l)
    (hnd : desired.Nodup) (hne : desired ≠ [])
    (hact : ∀ r ∈ desired, r ∉ st.actual)
    (hcanc : ∀ r ∈ desired, r ∉ st.cancelled)
    (hpend : ∀ r ∈ desired, 1 ≤ st.pending r)
    (hcap : st.actual.card < nominalMax) :
    ∃ st', applyRequestState nominalMax shuf true desired st = some st' ∧
      st'.trace = st.trace ++ [REvent.interestedE true]
        ++ (Finset.sort (fun a b => a ≤ b)
            (st.actual.filter (fun r => ¬ r ∈ desired))).map REvent.cancelE
        ++ [REvent.shuffleE 0 desired.length]
        ++ ((shuf desired).take (nominalMax - st.actual.card)).map
            REvent.requestE ∧
      ((shuf desired).take (nominalMax - st.actual.card)).length =
        min desired.length (nominalMax - st.actual.card) := by
  obtain ⟨d, rest, rfl⟩ : ∃ d rest, desired = d :: rest := by
    cases desired with
    | nil => exact absurd rfl hne
    | cons d rest => exact ⟨d, rest, rfl⟩
  set cl := Finset.sort (fun a b => a ≤ b)
    (st.actual.filter (fun r => ¬ r ∈ (d :: rest))) with hcl
  set st2 := applyCancels cl (setInterested true st) with hst2
  obtain ⟨ha2, hp2, hc2, ht2⟩ := applyCancels_spec cl (setInterested true st)
  have ha2' : st2.actual = st.actual := ha2
  have hp2' : st2.pending = st.pending := hp2
  have hc2' : st2.cancelled = st.cancelled ∪ cl.toFinset := hc2
  have ht2' : st2.trace = (st.trace ++ [REvent.interestedE true])
      ++ cl.map REvent.cancelE := ht2
  have hcanc2 : ∀ r ∈ (d :: rest), r ∉ st2.cancelled := by
    intro r hr
    rw [hc2']
    rw [Finset.mem_union]
    rintro (hm | hm)
    · exact hcanc r hr hm
    · rw [List.mem_toFinset, hcl, Finset.mem_sort, Finset.mem_filter] at hm
      exact hm.2 hr
  have happ : applyRequestState nominalMax shuf true (d :: rest) st =
      rsaGo1 nominalMax shuf ((d :: rest).getD 0 0) (d :: rest).length 0
        (d :: rest) st2 := rfl
  have hstep : rsaGo1 nominalMax shuf ((d :: rest).getD 0 0)
      (d :: rest).length 0 (d :: rest) st2 =
      rsaGo2 nominalMax ((shuf (d :: rest)).getD 0 0) (shuf (d :: rest))
        { st2 with trace := st2.trace ++
            [REvent.shuffleE 0 (d :: rest).length] } := by
    have hdg : ((d :: rest) : List Nat).getD 0 0 = d := rfl
    simp only [rsaGo1, hdg]
    rw [if_neg (hcanc2 d (List.mem_cons_self _ _))]
    have hcard : ¬ (nominalMax ≤ st2.actual.card) := by
      rw [ha2']
      exact not_le.mpr hcap
    rw [if_neg hcard]
    have hdp : st2.pending d - (if d ∈ st2.actual then 1 else 0) =
        st.pending d := by
      rw [hp2', ha2', if_neg (hact d (List.mem_cons_self _ _))]
      ring
    rw [hdp]
    have hd1 : (1 : Int) ≤ st.pending d := hpend d (List.mem_cons_self _ _)
    rw [if_neg (by omega : ¬ st.pending d < 0), if_pos (by omega :
      (0 : Int) < st.pending d)]
    simp
  have hshne : shuf (d :: rest) ≠ [] := by
    intro hcon
    have := (hperm (d :: rest)).length_eq
    rw [hcon] at this
    exact absurd this.symm (by simp)
  obtain ⟨s0, stl, hsh⟩ : ∃ s0 stl, shuf (d :: rest) = s0 :: stl := by
    cases hx : shuf (d :: rest) with
    | nil => exact absurd hx hshne
    | cons s0 stl => exact ⟨s0, stl, rfl⟩
  have hs0mem : (shuf (d :: rest)).getD 0 0 ∈ (d :: rest) := by
    refine (hperm (d :: rest)).mem_iff.mp ?_
    rw [hsh]
    exact List.mem_cons_self _ _
  set st3 := { st2 with trace := st2.trace ++
    [REvent.shuffleE 0 (d :: rest).length] } with hst3
  have hrun := rsaGo2_run nominalMax ((shuf (d :: rest)).getD 0 0)
    (shuf (d :: rest)) st3
    ((hperm (d :: rest)).nodup_iff.mpr hnd)
    (by
      intro r hr
      show r ∉ st2.actual
      rw [ha2']
      exact hact r ((hperm (d :: rest)).mem_iff.mp hr))
    (by
      intro r hr
      show r ∉ st2.cancelled
      exact hcanc2 r ((hperm (d :: rest)).mem_iff.mp hr))
    (by
      show (0 : Int) ≤ st2.pending ((shuf (d :: rest)).getD 0 0) -
        (if (shuf (d :: rest)).getD 0 0 ∈ st2.actual then 1 else 0)
      rw [hp2', ha2', if_neg (hact _ hs0mem)]
      have := hpend _ hs0mem
      omega)
  obtain ⟨st', hst', htr⟩ := hrun
  refine ⟨st', ?_, ?_, ?_⟩
  · rw [happ, hstep]
    exact hst'
  · rw [htr]
    show st3.trace ++ ((shuf (d :: rest)).take
      (nominalMax - st3.actual.card)).map REvent.requestE = _
    have hca3 : st3.actual.card = st.actual.card := by
      rw [hst3]
      show st2.actual.card = st.actual.card
      rw [ha2']
    have htr3 : st3.trace = ((st.trace ++ [REvent.interestedE true])
        ++ cl.map REvent.cancelE) ++ [REvent.shuffleE 0 (d :: rest).length] := by
      rw [hst3]
      show st2.trace ++ [REvent.shuffleE 0 (d :: rest).length] = _
      rw [ht2']
    rw [hca3, htr3, hcl]
  · rw [List.length_take, (hperm (d :: rest)).length_eq, Nat.min_comm]

theorem claim_C2_amended_witness :
    ([10, 11, 12, 13, 14] : List Nat).Nodup ∧
    (∅ : Finset Nat).card < 3 ∧
    ∃ st', applyRequestState 3 (fun l => l) true [10, 11, 12, 13, 14]
        ⟨∅, fun _ => 1, ∅, []⟩ = some st' ∧
      st'.trace = ([] : List REvent) ++ [REvent.interestedE true]
        ++ (Finset.sort (fun a b => a ≤ b)
            ((∅ : Finset Nat).filter
              (fun r => ¬ r ∈ ([10, 11, 12, 13, 14] : List Nat)))).map
            REvent.cancelE
        ++ [REvent.shuffleE 0 ([10, 11, 12, 13, 14] : List Nat).length]
        ++ (((fun (l : List Nat) => l) [10, 11, 12, 13, 14]).take
            (3 - (∅ : Finset Nat).card)).map REvent.requestE ∧
      (((fun (l : List Nat) => l) [10, 11, 12, 13, 14]).take
          (3 - (∅ : Finset Nat).card)).length =
        min ([10, 11, 12, 13, 14] : List Nat).length
          (3 - (∅ : Finset Nat).card) := by
  refine ⟨by decide, by decide, ?_⟩
  exact claim_C2_amended 3 (fun l => l) ⟨∅, fun _ => 1, ∅, []⟩
    [10, 11, 12, 13, 14] (fun l => List.Perm.refl l) (by decide) (by decide)
    (by decide) (by decide) (by decide) (by decide)

theorem evReq_filterMap (rs : List Nat) :
    ((rs.map REvent.requestE).filterMap evReq) = rs := by
  induction rs with
  | nil => rfl
  | cons a rs ih =>
    simp only [List.map_cons, List.filterMap_cons, evReq, ih]

theorem rsaGo2_trace (nominalMax : Nat) (head0 : Nat) :
    ∀ (l : List Nat) (st st' : RSASt),
      rsaGo2 nominalMax head0 l st = some st' →
      ∃ rs : List Nat, rs.Sublist l ∧ (∀ r ∈ rs, r ∉ st.actual) ∧
        st'.trace = st.trace ++ rs.map REvent.requestE := by
  intro l
  induction l with
  | nil =>
    intro st st' h
    simp only [rsaGo2, Option.some.injEq] at h
    subst h
    exact ⟨[], List.nil_sublist _, fun r hr => absurd hr (List.not_mem_nil r),
      by simp⟩
  | cons r rest ih =>
    intro st st' h
    simp only [rsaGo2] at h
    split at h
    · obtain ⟨rs, hsub, hnm, htr⟩ := ih st st' h
      exact ⟨rs, hsub.cons r, hnm, htr⟩
    · split at h
      · simp only [Option.some.injEq] at h
        subst h
        exact ⟨[], List.nil_sublist _,
          fun r hr => absurd hr (List.not_mem_nil r), by simp⟩
      · set q := st.pending head0 -
          (if head0 ∈ st.actual then (1 : Int) else 0) with hq
        split at h
        · cases h
        · obtain ⟨rs, hsub, hnm, htr⟩ := ih (mustRequest r st) st' h
          by_cases hmem : r ∈ st.actual
          · have hid : mustRequest r st = st := by
              unfold mustRequest
              rw [if_pos hmem]
            rw [hid] at hnm htr
            exact ⟨rs, hsub.cons r, hnm, htr⟩
          · have hmr : mustRequest r st =
                { st with
                  actual := insert r st.actual,
                  pending := fun x => if x = r then st.pending x + 1
                    else st.pending x,
                  trace := st.trace ++ [REvent.requestE r] } := by
              unfold mustRequest
              rw [if_neg hmem]
            simp only [hmr] at hnm htr
            refine ⟨r :: rs, hsub.cons₂ r, ?_, ?_⟩
            · intro x hx
              rcases List.mem_cons.mp hx with hx1 | hx1
              · subst hx1
                exact hmem
              · intro hxa
                exact hnm x hx1 (Finset.mem_insert_of_mem hxa)
            · rw [htr]
              simp

theorem rsaGo1_trace (nominalMax : Nat) (shuf : List Nat → List Nat)
    (head0 totalLen : Nat) :
    ∀ (l : List Nat) (i : Nat) (st st' : RSASt),
      rsaGo1 nominalMax shuf head0 totalLen i l st = some st' →
      ∃ rqs, st'.trace = st.trace ++ rqs ∧
        (∀ e ∈ rqs, (∃ r, e = REvent.requestE r ∧ r ∉ st.actual) ∨
          ∃ j, e = REvent.shuffleE j totalLen) ∧
        ((rqs.filterMap evReq).Sublist l ∨
          ∃ k, (rqs.filterMap evReq).Sublist
            (l.take k ++ shuf (l.drop k))) := by
  intro l
  induction l with
  | nil =>
    intro i st st' h
    simp only [rsaGo1, Option.some.injEq] at h
    subst h
    exact ⟨[], by simp, fun e he => absurd he (List.not_mem_nil e),
      Or.inl (by simp)⟩
  | cons r rest ih =>
    intro i st st' h
    simp only [rsaGo1] at h
    split at h
    · -- skipped: the request is awaiting a reject or piece message
      obtain ⟨rqs, htr, hcls, hsub⟩ := ih (i + 1) st st' h
      refine ⟨rqs, htr, hcls, ?_⟩
      rcases hsub with hs | ⟨k, hs⟩
      · exact Or.inl (hs.cons r)
      · refine Or.inr ⟨k + 1, ?_⟩
        rw [List.take_succ_cons, List.drop_succ_cons, List.cons_append]
        exact hs.cons r
    · split at h
      · -- at the cap: break
        simp only [Option.some.injEq] at h
        subst h
        exact ⟨[], by simp, fun e he => absurd he (List.not_mem_nil e),
          Or.inl (by simp)⟩
      · set q := st.pending head0 -
          (if head0 ∈ st.actual then (1 : Int) else 0) with hq
        split at h
        · cases h
        · split at h
          · -- the one-time shuffle fires here
            obtain ⟨rs, hsub, hnm, htr⟩ := rsaGo2_trace nominalMax _
              (shuf (r :: rest)) _ st' h
            refine ⟨REvent.shuffleE i totalLen :: rs.map REvent.requestE,
              ?_, ?_, ?_⟩
            · rw [htr]
              show st.trace ++ [REvent.shuffleE i totalLen] ++
                rs.map REvent.requestE = _
              simp
            · intro e he
              rcases List.mem_cons.mp he with he1 | he1
              · exact Or.inr ⟨i, he1⟩
              · obtain ⟨x, hx, rfl⟩ := List.mem_map.mp he1
                exact Or.inl ⟨x, rfl, hnm x hx⟩
            · refine Or.inr ⟨0, ?_⟩
              rw [List.take_zero, List.drop_zero, List.nil_append]
              have hfm : ((REvent.shuffleE i totalLen ::
                  rs.map REvent.requestE).filterMap evReq) = rs := by
                simp only [List.filterMap_cons, evReq, evReq_filterMap]
              rw [hfm]
              exact hsub
          · -- no shuffle: request the head
            obtain ⟨rqs, htr, hcls, hsub⟩ := ih (i + 1) (mustRequest r st)
              st' h
            by_cases hmem : r ∈ st.actual
            · have hid : mustRequest r st = st := by
                unfold mustRequest
                rw [if_pos hmem]
              rw [hid] at htr hcls
              refine ⟨rqs, htr, hcls, ?_⟩
              rcases hsub with hs | ⟨k, hs⟩
              · exact Or.inl (hs.cons r)
              · refine Or.inr ⟨k + 1, ?_⟩
                rw [List.take_succ_cons, List.drop_succ_cons,
                  List.cons_append]
                exact hs.cons r
            · have hmr : mustRequest r st =
                  { st with
                    actual := insert r st.actual,
                    pending := fun x => if x = r then st.pending x + 1
                      else st.pending x,
                    trace := st.trace ++ [REvent.requestE r] } := by
                unfold mustRequest
                rw [if_neg hmem]
              simp only [hmr] at htr hcls
              refine ⟨REvent.requestE r :: rqs, ?_, ?_, ?_⟩
              · rw [htr]
                simp
              · intro e he
                rcases List.mem_cons.mp he with he1 | he1
                · exact Or.inl ⟨r, he1, hmem⟩
                · rcases hcls e he1 with ⟨x, hx, hxa⟩ | hsh
                  · refine Or.inl ⟨x, hx, fun hxm => ?_⟩
                    exact hxa (Finset.mem_insert_of_mem hxm)
                  · exact Or.inr hsh
              · have hfm : ((REvent.requestE r :: rqs).filterMap evReq) =
                    r :: rqs.filterMap evReq := by
                  simp only [List.filterMap_cons, evReq]
                rw [hfm]
                rcases hsub with hs | ⟨k, hs⟩
                · exact Or.inl (hs.cons₂ r)
                · refine Or.inr ⟨k + 1, ?_⟩
                  rw [List.take_succ_cons, List.drop_succ_cons,
                    List.cons_append]
                  exact hs.cons₂ r

/-- C8: for every peer pass that completes, the emission trace of
`applyRequestState` is ordered as one `interested` first, then `cancel`
exactly for the elements of actual ∖ desired (ascending, the bitmap
iteration order), then the request phase, whose entries are only
`request` emissions (with the one internal shuffle marker): the requested
indices are drawn in order from the desired list — as established by the
PRB heap — up to the one in-place shuffle of a suffix, and no index
already in the actual set is re-emitted (Scenario F). -/
theorem claim_C8_emission_order (nominalMax : Nat)
    (shuf : List Nat → List Nat) (interested : Bool) (desired : List Nat)
    (st st' : RSASt)
    (h : applyRequestState nominalMax shuf interested desired st = some st') :
    ∃ (rqs : List REvent) (dl : List Nat),
      st'.trace = st.trace ++ [REvent.interestedE interested]
        ++ (Finset.sort (fun a b => a ≤ b)
            (st.actual.filter (fun r => ¬ r ∈ desired))).map REvent.cancelE
        ++ rqs ∧
      (dl = desired ∨ ∃ k, dl = desired.take k ++ shuf (desired.drop k)) ∧
      (rqs.filterMap evReq).Sublist dl ∧
      (∀ e ∈ rqs, (∃ r, e = REvent.requestE r ∧ r ∉ st.actual) ∨
        ∃ j, e = REvent.shuffleE j desired.length) := by
  have happ : applyRequestState nominalMax shuf interested desired st =
      rsaGo1 nominalMax shuf (desired.getD 0 0) desired.length 0 desired
        (applyCancels
          (Finset.sort (fun a b => a ≤ b)
            (st.actual.filter (fun r => ¬ r ∈ desired)))
          (setInterested interested st)) := rfl
  rw [happ] at h
  obtain ⟨ha2, hp2, hc2, ht2⟩ := applyCancels_spec
    (Finset.sort (fun a b => a ≤ b)
      (st.actual.filter (fun r => ¬ r ∈ desired)))
    (setInterested interested st)
  obtain ⟨rqs, htr, hcls, hsub⟩ := rsaGo1_trace nominalMax shuf
    (desired.getD 0 0) desired.length desired 0 _ st' h
  have htrace : st'.trace = st.trace ++ [REvent.interestedE interested]
      ++ (Finset.sort (fun a b => a ≤ b)
          (st.actual.filter (fun r => ¬ r ∈ desired))).map REvent.cancelE
      ++ rqs := by
    rw [htr, ht2]
    show _ = (st.trace ++ [REvent.interestedE interested]) ++ _ ++ rqs
    rfl
  have hcls' : ∀ e ∈ rqs, (∃ r, e = REvent.requestE r ∧ r ∉ st.actual) ∨
      ∃ j, e = REvent.shuffleE j desired.length := by
    intro e he
    rcases hcls e he with ⟨r, hre, hra⟩ | hsh
    · refine Or.inl ⟨r, hre, ?_⟩
      rw [ha2] at hra
      exact hra
    · exact Or.inr hsh
  rcases hsub with hs | ⟨k, hs⟩
  · exact ⟨rqs, desired, htrace, Or.inl rfl, hs, hcls'⟩
  · exact ⟨rqs, desired.take k ++ shuf (desired.drop k), htrace,
      Or.inr ⟨k, rfl⟩, hs, hcls'⟩

theorem claim_C8_witness :
    ∃ (st' : RSASt) (rqs : List REvent) (dl : List Nat),
      applyRequestState 10 (fun l => l) true [12, 13, 14]
        ⟨∅, fun _ => 0, ∅, []⟩ = some st' ∧
      st'.trace = ([] : List REvent) ++ [REvent.interestedE true]
        ++ (Finset.sort (fun a b => a ≤ b)
            ((∅ : Finset Nat).filter
              (fun r => ¬ r ∈ ([12, 13, 14] : List Nat)))).map
            REvent.cancelE
        ++ rqs ∧
      (dl = [12, 13, 14] ∨ ∃ k, dl = ([12, 13, 14] : List Nat).take k ++
        (fun (l : List Nat) => l) (([12, 13, 14] : List Nat).drop k)) ∧
      (rqs.filterMap evReq).Sublist dl ∧
      (∀ e ∈ rqs, (∃ r, e = REvent.requestE r ∧ r ∉ (∅ : Finset Nat)) ∨
        ∃ j, e = REvent.shuffleE j ([12, 13, 14] : List Nat).length) := by
  have hs : Finset.sort (fun a b => a ≤ b)
      ((∅ : Finset Nat).filter
        (fun r => ¬ r ∈ ([12, 13, 14] : List Nat))) = [] := by
    rw [Finset.filter_empty, Finset.sort_empty]
  have hkey : applyRequestState 10 (fun l => l) true [12, 13, 14]
      ⟨∅, fun _ => 0, ∅, []⟩ =
      rsaGo1 10 (fun l => l) (([12, 13, 14] : List Nat).getD 0 0)
        ([12, 13, 14] : List Nat).length 0 [12, 13, 14]
        (applyCancels []
          (setInterested true ⟨∅, fun _ => 0, ∅, []⟩)) := by
    show rsaGo1 10 (fun l => l) (([12, 13, 14] : List Nat).getD 0 0)
      ([12, 13, 14] : List Nat).length 0 [12, 13, 14]
      (applyCancels
        (Finset.sort (fun a b => a ≤ b)
          ((∅ : Finset Nat).filter
            (fun r => ¬ r ∈ ([12, 13, 14] : List Nat))))
        (setInterested true ⟨∅, fun _ => 0, ∅, []⟩)) = _
    rw [hs]
  obtain ⟨st', hst'⟩ : ∃ st', applyRequestState 10 (fun l => l) true
      [12, 13, 14] ⟨∅, fun _ => 0, ∅, []⟩ = some st' :=
    ⟨_, hkey.trans rfl⟩
  obtain ⟨rqs, dl, h1, h2, h3, h4⟩ := claim_C8_emission_order 10
    (fun l => l) true [12, 13, 14] ⟨∅, fun _ => 0, ∅, []⟩ st' hst'
  exact ⟨st', rqs, dl, hst', h1, h2, h3, h4⟩
